import Mathlib

/-! # A shallow embedding of `scheduler.c`

The scheduler keeps its tasks in a circular doubly linked list of heap records
(`task_t`), reached through the globals `list_head`, `list_tail` and `curr_task`.

Modelling conventions.

* The heap is a list of cells; the address of a record is its index.  `malloc`
  appends a cell (addresses are never handed out twice), `free` clears the
  `live` flag of a cell and leaves its fields in place.  The program itself
  relies on that: `sigchld_handler` calls `next_task` right after `remove_task`
  has freed `curr_task`, and `next_task` starts by reading `curr_task->next`.
* A pointer is `Option Nat`, `none` being `NULL`.
* Every operation returns an `Option`; `none` means that the C code dereferences
  `NULL` (or an address that was never allocated), frees a record twice, or that
  the `while` loop of `remove_task` did not finish within the given fuel.
* `int` and `pid_t` values are unbounded integers.
* Calls of `kill(2)` and `alarm(2)` are recorded in the field `trace`; the text
  written by `printf` is only modelled for `sched_print_tasks`.
* Only the scheduler process is modelled: the value returned by `fork` is an
  argument of the operations that fork, and the child side (`fork() == 0`) has
  no result in the model.
-/

namespace Scheduler

/-- Maximum size of a task name, `TASK_NAME_SZ`. -/
def TASK_NAME_SZ : Nat := 60

/-- The time quantum in seconds, `SCHED_TQ_SEC`. -/
def SCHED_TQ_SEC : Nat := 2

/-- The name of the shell executable, `SHELL_EXECUTABLE_NAME` ("shell"), as bytes. -/
def SHELL_EXECUTABLE_NAME : List Nat := [115, 104, 101, 108, 108]

/-- The value of `ENOSYS` in `errno.h` (Linux). -/
def ENOSYS : Int := 38

/-- Task priority, `enum prio`. -/
inductive prio where
  | LOW
  | HIGH
deriving DecidableEq, Repr

/-- A pointer to a task record: `none` is `NULL`, `some a` is the address `a`. -/
abbrev Ptr := Option Nat

/-- The record `struct task_struct`. -/
structure task_t where
  task_no : Int
  task_pid : Int
  exec_name : List Nat
  priority : prio
  next : Ptr
  prev : Ptr
deriving DecidableEq, Repr

/-- A heap cell: the fields of the record and whether it is still allocated. -/
structure Cell where
  val : task_t
  live : Bool
deriving DecidableEq, Repr

/-- The signals the scheduler sends. -/
inductive Signal where
  | SIGKILL
  | SIGSTOP
  | SIGCONT
deriving DecidableEq, Repr

/-- A system call with an effect outside the scheduler's memory. -/
inductive Sys where
  | kill (pid : Int) (sig : Signal)
  | alarm (seconds : Nat)
deriving DecidableEq, Repr

/-- The global variables of the program, the heap, and the log of system calls. -/
structure State where
  mem : List Cell
  list_head : Ptr
  list_tail : Ptr
  curr_task : Ptr
  running_tasks : Int
  created_tasks : Int
  trace : List Sys
deriving DecidableEq, Repr

/-- The state at program start: no record, all pointers `NULL`, both counters 0. -/
def State.init : State :=
  { mem := [], list_head := none, list_tail := none, curr_task := none,
    running_tasks := 0, created_tasks := 0, trace := [] }

/-- The result of an operation that may end the program with `exit`. -/
inductive Outcome (α : Type) where
  | ret (a : α) (s : State)
  | exit (code : Int) (s : State)
deriving DecidableEq, Repr

/-! ## Memory access -/

/-- Read the record a pointer designates (`*p`). -/
def load (m : List Cell) (p : Ptr) : Option task_t :=
  match p with
  | none => none
  | some a => (m[a]?).map (fun c => c.val)

/-- Update the record a pointer designates (`p->field = ...`). -/
def store (m : List Cell) (p : Ptr) (f : task_t → task_t) : Option (List Cell) :=
  match p with
  | none => none
  | some a =>
    match m[a]? with
    | none => none
    | some c => some (m.set a { c with val := f c.val })

/-- The call `free(p)`. -/
def free (m : List Cell) (p : Ptr) : Option (List Cell) :=
  match p with
  | none => some m
  | some a =>
    match m[a]? with
    | none => none
    | some c => if c.live then some (m.set a { c with live := false }) else none

/-! ## The task list -/

/-- The record `add_task` allocates, after the assignments to `exec_name`,
`task_no`, `task_pid`, `priority` and `prev`; `next` is not set yet. -/
def new_record (number : Int) (pid : Int) (name : List Nat) (tail : Ptr) : Cell :=
  { val := { task_no := number, task_pid := pid, exec_name := name.take TASK_NAME_SZ,
             priority := prio.LOW, next := none, prev := tail },
    live := true }

/-- The function `add_task`. -/
def add_task (s : State) (number : Int) (pid : Int) (name : List Nat) : Option State := do
  let new_task : Ptr := some s.mem.length
  let m0 := s.mem ++ [new_record number pid name s.list_tail]
  let (m1, head1) ← (match s.list_tail with
    | some t => (store m0 (some t) (fun r => { r with next := new_task })).map
                  (fun m => (m, s.list_head))
    | none => some (m0, new_task))
  let tail1 : Ptr := new_task
  let m2 ← store m1 tail1 (fun r => { r with next := head1 })
  let m3 ← store m2 head1 (fun r => { r with prev := tail1 })
  pure { s with mem := m3, list_head := head1, list_tail := tail1,
                running_tasks := s.running_tasks + 1,
                created_tasks := s.created_tasks + 1 }

/-- The `while` loop of `remove_task`: `fuel` bounds the number of loop tests.
The result `some p` is the value of `temp` when the loop ends. -/
def remove_task_find (m : List Cell) (pid : Int) : Nat → Ptr → Option Ptr
  | 0, _ => none
  | _ + 1, none => some none
  | fuel + 1, some a =>
    match load m (some a) with
    | none => none
    | some t => if t.task_pid = pid then some (some a) else remove_task_find m pid fuel t.next

/-- The function `remove_task`. -/
def remove_task (fuel : Nat) (s : State) (pid : Int) : Option State := do
  let temp ← remove_task_find s.mem pid fuel s.curr_task
  let t ← load s.mem temp
  let m1 ← (match t.next with
    | some n => store s.mem (some n) (fun r => { r with prev := t.prev })
    | none => some s.mem)
  let t1 ← load m1 temp
  let m2 ← (match t1.prev with
    | some p => store m1 (some p) (fun r => { r with next := t1.next })
    | none => some m1)
  let m3 ← free m2 temp
  pure { s with mem := m3 }

/-- The `for` loop of `next_task` with `k` iterations left: `some (some p)` when
the loop returns `p`, `some none` when the loop runs to its end. -/
def next_task_scan (m : List Cell) : Nat → Ptr → Option (Option Ptr)
  | 0, _ => some none
  | k + 1, temp =>
    match load m temp with
    | none => none
    | some t => if t.priority = prio.HIGH then some (some temp) else next_task_scan m k t.next

/-- The function `next_task`. -/
def next_task (s : State) : Option Ptr := do
  let c ← load s.mem s.curr_task
  let r ← next_task_scan s.mem (s.running_tasks + 1).toNat c.next
  match r with
  | some p => pure p
  | none => pure c.next

/-! ## Shell commands -/

/-- One line printed by `sched_print_tasks`. -/
structure Line where
  task_no : Int
  task_pid : Int
  exec_name : List Nat
  priority : prio
  currently_running : Bool
deriving DecidableEq, Repr

/-- The `for` loop of `sched_print_tasks` with `k` iterations left. -/
def sched_print_tasks_loop (s : State) : Nat → Ptr → Option (List Line)
  | 0, _ => some []
  | k + 1, temp => do
    let t ← load s.mem temp
    let c ← load s.mem s.curr_task
    let rest ← sched_print_tasks_loop s k t.next
    pure ({ task_no := t.task_no, task_pid := t.task_pid, exec_name := t.exec_name,
            priority := t.priority,
            currently_running := decide (t.task_no = c.task_no) } :: rest)

/-- The function `sched_print_tasks`; the result is the list of printed lines. -/
def sched_print_tasks (s : State) : Option (List Line) :=
  sched_print_tasks_loop s s.running_tasks.toNat s.list_head

/-- The `for` loop of `sched_kill_task_by_id` with `k` iterations left;
`some (some pid)` when a record with serial id `id` is met. -/
def sched_kill_task_by_id_loop (m : List Cell) (id : Int) : Nat → Ptr → Option (Option Int)
  | 0, _ => some none
  | k + 1, temp =>
    match load m temp with
    | none => none
    | some t => if t.task_no = id then some (some t.task_pid)
                else sched_kill_task_by_id_loop m id k t.next

/-- The function `sched_kill_task_by_id`: the returned integer and the new state. -/
def sched_kill_task_by_id (s : State) (id : Int) : Option (Int × State) := do
  let r ← sched_kill_task_by_id_loop s.mem id s.running_tasks.toNat s.list_head
  match r with
  | some pid => pure (0, { s with trace := s.trace ++ [Sys.kill pid Signal.SIGKILL] })
  | none => pure (1, s)

/-- The function `sched_create_task` in the scheduler process; `pid` is the value
returned by `fork`. -/
def sched_create_task (s : State) (executable : List Nat) (pid : Int) :
    Option (Outcome Unit) :=
  if pid < 0 then some (Outcome.exit 1 s)
  else if pid = 0 then none
  else do
    let h ← load s.mem s.list_head
    let s1 := { s with list_tail := h.prev }
    let s2 ← add_task s1 s1.created_tasks pid executable
    pure (Outcome.ret () s2)

/-- The `for` loop of `prioritize_task` with `k` iterations left; `some (some p)`
when the record `p` carries the serial id `id`. -/
def prioritize_task_loop (m : List Cell) (id : Int) : Nat → Ptr → Option (Option Ptr)
  | 0, _ => some none
  | k + 1, temp =>
    match load m temp with
    | none => none
    | some t => if t.task_no = id then some (some temp)
                else prioritize_task_loop m id k t.next

/-- The function `prioritize_task`: the returned integer and the new state. -/
def prioritize_task (s : State) (id : Int) (new_priority : prio) : Option (Int × State) := do
  let r ← prioritize_task_loop s.mem id s.running_tasks.toNat s.list_head
  match r with
  | some p =>
    let m ← store s.mem p (fun t => { t with priority := new_priority })
    pure (0, { s with mem := m })
  | none => pure (1, s)

/-- The request record `struct request_struct` of `request.h`. -/
structure request_struct where
  request_no : Int
  task_arg : Int
  exec_task_arg : List Nat
deriving DecidableEq, Repr

/-- The values of the request kinds.  They are declared in `request.h`, which is
not part of the sources at hand, so they are a parameter of `process_request`. -/
structure request_codes where
  REQ_PRINT_TASKS : Int
  REQ_KILL_TASK : Int
  REQ_EXEC_TASK : Int
  REQ_HIGH_TASK : Int
  REQ_LOW_TASK : Int
deriving DecidableEq, Repr

/-- The five request kinds are different values (they label the cases of one
`switch`). -/
def request_codes.distinct (K : request_codes) : Prop :=
  [K.REQ_PRINT_TASKS, K.REQ_KILL_TASK, K.REQ_EXEC_TASK, K.REQ_HIGH_TASK,
    K.REQ_LOW_TASK].Nodup

instance (K : request_codes) : Decidable K.distinct := by
  unfold request_codes.distinct; infer_instance

/-- The function `process_request`; `pid` is the value `fork` returns should the
request fork.  The result is the reply and the new state. -/
def process_request (K : request_codes) (s : State) (rq : request_struct) (pid : Int) :
    Option (Outcome Int) :=
  if rq.request_no = K.REQ_PRINT_TASKS then
    (sched_print_tasks s).map (fun _ => Outcome.ret 0 s)
  else if rq.request_no = K.REQ_KILL_TASK then
    (sched_kill_task_by_id s rq.task_arg).map (fun r => Outcome.ret r.1 r.2)
  else if rq.request_no = K.REQ_EXEC_TASK then
    (sched_create_task s rq.exec_task_arg pid).map (fun o =>
      match o with
      | Outcome.ret _ s1 => Outcome.ret 0 s1
      | Outcome.exit c s1 => Outcome.exit c s1)
  else if rq.request_no = K.REQ_HIGH_TASK then
    (prioritize_task s rq.task_arg prio.HIGH).map (fun r => Outcome.ret r.1 r.2)
  else if rq.request_no = K.REQ_LOW_TASK then
    (prioritize_task s rq.task_arg prio.LOW).map (fun r => Outcome.ret r.1 r.2)
  else some (Outcome.ret (-ENOSYS) s)

/-! ## Signal handlers -/

/-- The function `sigalrm_handler`. -/
def sigalrm_handler (s : State) : Option State := do
  let c ← load s.mem s.curr_task
  pure { s with trace := s.trace ++ [Sys.kill c.task_pid Signal.SIGSTOP] }

/-- What `waitpid` reports about a child (with `WUNTRACED`). -/
inductive wstatus where
  | exited (code : Nat)
  | signaled (sig : Nat)
  | stopped (sig : Nat)
deriving DecidableEq, Repr

/-- The macro pair `WIFEXITED(status) || WIFSIGNALED(status)`. -/
def wstatus.terminated : wstatus → Bool
  | wstatus.exited _ => true
  | wstatus.signaled _ => true
  | wstatus.stopped _ => false

/-- The macro `WIFSTOPPED(status)`. -/
def wstatus.isStopped : wstatus → Bool
  | wstatus.stopped _ => true
  | _ => false

/-- The part of the loop body of `sigchld_handler` guarded by
`WIFEXITED(status) || WIFSIGNALED(status)`. -/
def sigchld_reap (fuel : Nat) (s : State) (pid : Int) : Option (Outcome Unit) := do
  let s0 := { s with running_tasks := s.running_tasks - 1 }
  let c ← load s0.mem s0.curr_task
  let cn ← load s0.mem c.next
  if c.task_pid = pid ∧ cn.task_pid ≠ c.task_pid then do
    let s1 ← remove_task fuel s0 pid
    let p ← next_task s1
    pure (Outcome.ret () { s1 with curr_task := p })
  else if cn.task_pid = c.task_pid then do
    let s1 ← remove_task fuel s0 pid
    pure (Outcome.exit 0 { s1 with curr_task := none })
  else do
    let s1 ← remove_task fuel s0 pid
    pure (Outcome.ret () s1)

/-- One pass through the loop body of `sigchld_handler`, for the child `pid`
reported by `waitpid` with status `st`. -/
def sigchld_step (fuel : Nat) (s : State) (pid : Int) (st : wstatus) :
    Option (Outcome Unit) := do
  let o ← (if st.terminated then sigchld_reap fuel s pid else some (Outcome.ret () s))
  match o with
  | Outcome.exit c s1 => pure (Outcome.exit c s1)
  | Outcome.ret _ s1 =>
    let s2 ← (if st.isStopped then (next_task s1).map (fun p => { s1 with curr_task := p })
              else some s1)
    let c ← load s2.mem s2.curr_task
    pure (Outcome.ret () { s2 with trace := s2.trace ++
      [Sys.kill c.task_pid Signal.SIGCONT, Sys.alarm SCHED_TQ_SEC] })

/-- The function `sigchld_handler`: `events` are the children `waitpid` reports
before it returns 0. -/
def sigchld_handler (fuel : Nat) (s : State) : List (Int × wstatus) → Option (Outcome Unit)
  | [] => some (Outcome.ret () s)
  | (pid, st) :: rest =>
    match sigchld_step fuel s pid st with
    | none => none
    | some (Outcome.exit c s1) => some (Outcome.exit c s1)
    | some (Outcome.ret _ s1) => sigchld_handler fuel s1 rest

/-! ## Start of the program -/

/-- The `for` loop of `main` that forks the workload: `i` is the loop counter,
`args` are `argv[i], ...` and `pids` the values returned by the calls of `fork`. -/
def main_loop (s : State) (i : Int) : List (List Nat) → List Int → Option (Outcome Unit)
  | [], _ => some (Outcome.ret () s)
  | _ :: _, [] => none
  | arg :: args, pid :: pids =>
    if pid < 0 then some (Outcome.exit 1 s)
    else if pid = 0 then none
    else
      match add_task s i pid arg with
      | none => none
      | some s1 => main_loop s1 (i + 1) args pids

/-- The function `main` up to the call of `shell_request_loop`.  `argv` is the
argument vector, `shell_pid` the value `fork` returns in `sched_create_shell` and
`pids` the values it returns in the loop over the workload.  Creating the pipes,
waiting for the children and installing the handlers are taken to succeed. -/
def main (argv : List (List Nat)) (shell_pid : Int) (pids : List Int) :
    Option (Outcome Unit) :=
  let s0 : State := { State.init with curr_task := none, list_head := none }
  if shell_pid < 0 then some (Outcome.exit 1 s0)
  else if shell_pid = 0 then none
  else do
    let s1 ← add_task s0 0 shell_pid SHELL_EXECUTABLE_NAME
    let o ← main_loop s1 1 argv.tail pids
    match o with
    | Outcome.exit c s2 => pure (Outcome.exit c s2)
    | Outcome.ret _ s2 =>
      let nproc : Int := argv.length
      if nproc = 0 then pure (Outcome.exit 1 s2)
      else do
        let s3 := { s2 with trace := s2.trace ++ [Sys.alarm SCHED_TQ_SEC] }
        let s4 := { s3 with curr_task := s3.list_head }
        let c ← load s4.mem s4.curr_task
        pure (Outcome.ret () { s4 with trace := s4.trace ++
          [Sys.kill c.task_pid Signal.SIGCONT] })

/-! ## Well-formed registries -/

/-- Whether the address `a` holds a record that has not been freed. -/
def liveAt (m : List Cell) (a : Nat) : Bool :=
  match m[a]? with
  | some c => c.live
  | none => false

/-- The field `next` of the record at address `a`. -/
def nextOf (m : List Cell) (a : Nat) : Ptr :=
  match m[a]? with
  | some c => c.val.next
  | none => none

/-- The field `prev` of the record at address `a`. -/
def prevOf (m : List Cell) (a : Nat) : Ptr :=
  match m[a]? with
  | some c => c.val.prev
  | none => none

/-- The pointer reached from `p` by following `next` for `k` steps. -/
def follow (m : List Cell) : Nat → Ptr → Ptr
  | 0, p => p
  | k + 1, p => follow m k (p.bind (nextOf m))

/-- The priority of the record a pointer designates. -/
def prioAt (m : List Cell) (p : Ptr) : Option prio :=
  (load m p).map (fun t => t.priority)

/-- The `i`-th address of the list `l` read cyclically. -/
def cyc (l : List Nat) (i : Nat) : Nat :=
  l.getD (i % l.length) 0

/-- The addresses `l`, in this order, are the records of a circular doubly linked
list in the heap `m`: they are pairwise different and allocated, `next` leads from
each to the one after it and from the last to the first, `prev` leads back, and
there is no other allocated record. -/
def IsRing (m : List Cell) (l : List Nat) : Prop :=
  l.Nodup ∧
  (∀ i, i < l.length →
    liveAt m (cyc l i) = true ∧ nextOf m (cyc l i) = some (cyc l (i + 1)) ∧
    prevOf m (cyc l (i + 1)) = some (cyc l i)) ∧
  (∀ a, a < m.length → liveAt m a = true → a ∈ l)

instance (m : List Cell) (l : List Nat) : Decidable (IsRing m l) := by
  unfold IsRing; infer_instance

/-- A well-formed registry with the records `l`: a circular ring of `n >= 1`
records, `running_tasks = n`, and `curr_task` one of the records. -/
def WellFormed (s : State) (l : List Nat) : Prop :=
  IsRing s.mem l ∧ l ≠ [] ∧ s.running_tasks = l.length ∧ ∃ c ∈ l, s.curr_task = some c

instance (s : State) (l : List Nat) : Decidable (WellFormed s l) := by
  unfold WellFormed; infer_instance

/-- The pointer `list_head` designates the first record of `l`. -/
def HeadOk (s : State) (l : List Nat) : Prop :=
  s.list_head = l.head?

instance (s : State) (l : List Nat) : Decidable (HeadOk s l) := by
  unfold HeadOk; infer_instance

/-- The pointer `list_tail` designates the last record of `l`. -/
def TailOk (s : State) (l : List Nat) : Prop :=
  s.list_tail = l.getLast?

instance (s : State) (l : List Nat) : Decidable (TailOk s l) := by
  unfold TailOk; infer_instance

/-- A record of the example registries: address of the successor and of the
predecessor are given as numbers. -/
def mkCell (no pid : Int) (p : prio) (next prev : Nat) : Cell :=
  { val := { task_no := no, task_pid := pid, exec_name := [], priority := p,
             next := some next, prev := some prev },
    live := true }

/-- An example registry of three records, the current one is the first, the last
one has priority HIGH. -/
def exampleHigh : State :=
  { mem := [mkCell 0 100 prio.LOW 1 2, mkCell 1 101 prio.LOW 2 0, mkCell 2 102 prio.HIGH 0 1],
    list_head := some 0, list_tail := some 2, curr_task := some 0,
    running_tasks := 3, created_tasks := 3, trace := [] }

/-- An example registry of three records of priority LOW, the current one is the
second. -/
def exampleLow : State :=
  { mem := [mkCell 0 100 prio.LOW 1 2, mkCell 1 101 prio.LOW 2 0, mkCell 2 102 prio.LOW 0 1],
    list_head := some 0, list_tail := some 2, curr_task := some 1,
    running_tasks := 3, created_tasks := 3, trace := [] }

/-! ## Reachable states -/

/-- The number of records that are allocated and not freed. -/
def liveCount (m : List Cell) : Nat :=
  m.countP (fun c => c.live)

/-- The process id `pid` belongs to a registered task: a record that has not been
freed carries it. -/
def registered (s : State) (pid : Int) : Prop :=
  ∃ c ∈ s.mem, c.live = true ∧ c.val.task_pid = pid

instance (s : State) (pid : Int) : Decidable (registered s pid) := by
  unfold registered; infer_instance

/-- What `fork` may return in the scheduler process when it succeeds: a positive
process id that no record of the heap carries. -/
def freshPid (s : State) (pid : Int) : Prop :=
  0 < pid ∧ ∀ c ∈ s.mem, c.val.task_pid ≠ pid

instance (s : State) (pid : Int) : Decidable (freshPid s pid) := by
  unfold freshPid; infer_instance

/-- The state in which an operation ends. -/
def Outcome.state {α : Type} : Outcome α → State
  | Outcome.ret _ s => s
  | Outcome.exit _ s => s

/-- One transition of the running scheduler: a request of the shell is served, a
state change of a registered child is handled, or the quantum expires. -/
inductive Step (K : request_codes) : State → State → Prop where
  | request (s s1 : State) (rq : request_struct) (pid : Int) (r : Int) :
      freshPid s pid → process_request K s rq pid = some (Outcome.ret r s1) → Step K s s1
  | child (s s1 : State) (fuel : Nat) (pid : Int) (st : wstatus) :
      registered s pid → sigchld_step fuel s pid st = some (Outcome.ret () s1) → Step K s s1
  | quantum (s s1 : State) :
      sigalrm_handler s = some s1 → Step K s s1

/-- The states the scheduler reaches: the state in which `main` enters the request
loop, for pairwise different process ids, and the states reached from there by
transitions. -/
inductive Reachable (K : request_codes) : State → Prop where
  | boot (argv : List (List Nat)) (shell_pid : Int) (pids : List Int) (s : State) :
      (shell_pid :: pids).Nodup → main argv shell_pid pids = some (Outcome.ret () s) →
      Reachable K s
  | step (s s1 : State) : Reachable K s → Step K s s1 → Reachable K s1

/-- The request codes of the examples. -/
def exampleCodes : request_codes :=
  { REQ_PRINT_TASKS := 0, REQ_KILL_TASK := 1, REQ_EXEC_TASK := 2, REQ_HIGH_TASK := 3,
    REQ_LOW_TASK := 4 }

/-- The state after `main` has started the shell (process 100) and one task
(process 101, named by the byte 65). -/
def bootOne : State :=
  { mem := [{ val := { task_no := 0, task_pid := 100, exec_name := SHELL_EXECUTABLE_NAME,
                       priority := prio.LOW, next := some 1, prev := some 1 }, live := true },
            { val := { task_no := 1, task_pid := 101, exec_name := [65],
                       priority := prio.LOW, next := some 0, prev := some 0 }, live := true }],
    list_head := some 0, list_tail := some 1, curr_task := some 0,
    running_tasks := 2, created_tasks := 2,
    trace := [Sys.alarm 2, Sys.kill 100 Signal.SIGCONT] }

/-- The state `bootOne` after the exit of the task 101 has been handled. -/
def bootOneReaped : State :=
  { mem := [{ val := { task_no := 0, task_pid := 100, exec_name := SHELL_EXECUTABLE_NAME,
                       priority := prio.LOW, next := some 0, prev := some 0 }, live := true },
            { val := { task_no := 1, task_pid := 101, exec_name := [65],
                       priority := prio.LOW, next := some 0, prev := some 0 }, live := false }],
    list_head := some 0, list_tail := some 1, curr_task := some 0,
    running_tasks := 1, created_tasks := 2,
    trace := [Sys.alarm 2, Sys.kill 100 Signal.SIGCONT, Sys.kill 100 Signal.SIGCONT,
              Sys.alarm 2] }

/-- The state `bootOne` after the exit of the shell (process 100), the current
task and the head of the list, has been handled. -/
def shellGone : State :=
  { mem := [{ val := { task_no := 0, task_pid := 100, exec_name := SHELL_EXECUTABLE_NAME,
                       priority := prio.LOW, next := some 1, prev := some 1 }, live := false },
            { val := { task_no := 1, task_pid := 101, exec_name := [65],
                       priority := prio.LOW, next := some 1, prev := some 1 }, live := true }],
    list_head := some 0, list_tail := some 1, curr_task := some 1,
    running_tasks := 1, created_tasks := 2,
    trace := [Sys.alarm 2, Sys.kill 100 Signal.SIGCONT, Sys.kill 101 Signal.SIGCONT,
              Sys.alarm 2] }

/-- The state `shellGone` after an exec-task request for the executable named by
the byte 66 has been served, `fork` having returned 102. -/
def shellGoneExec : State :=
  { mem := [{ val := { task_no := 0, task_pid := 100, exec_name := SHELL_EXECUTABLE_NAME,
                       priority := prio.LOW, next := some 1, prev := some 2 }, live := false },
            { val := { task_no := 1, task_pid := 101, exec_name := [65],
                       priority := prio.LOW, next := some 2, prev := some 1 }, live := true },
            { val := { task_no := 2, task_pid := 102, exec_name := [66],
                       priority := prio.LOW, next := some 0, prev := some 1 }, live := true }],
    list_head := some 0, list_tail := some 2, curr_task := some 1,
    running_tasks := 2, created_tasks := 3,
    trace := [Sys.alarm 2, Sys.kill 100 Signal.SIGCONT, Sys.kill 101 Signal.SIGCONT,
              Sys.alarm 2] }

/-! ## Traversals -/

/-- The fields of a record other than the two links. -/
structure Fields where
  task_no : Int
  task_pid : Int
  exec_name : List Nat
  priority : prio
deriving DecidableEq, Repr

/-- The fields of a record other than the two links. -/
def task_t.fields (t : task_t) : Fields :=
  { task_no := t.task_no, task_pid := t.task_pid, exec_name := t.exec_name,
    priority := t.priority }

/-- The fields of the record at address `a`. -/
def fieldsAt (m : List Cell) (a : Nat) : Option Fields :=
  (load m (some a)).map task_t.fields

/-- The records met from `p` on when following `next` for `k` records, as the
loops of `sched_print_tasks`, `sched_kill_task_by_id` and `prioritize_task` do. -/
def traverse (m : List Cell) : Nat → Ptr → Option (List Fields)
  | 0, _ => some []
  | k + 1, p =>
    match load m p with
    | none => none
    | some t => (traverse m k t.next).map (fun rest => t.fields :: rest)

/-- The head-to-tail traversal of the registry: `running_tasks` records from
`list_head` on. -/
def registry (s : State) : Option (List Fields) :=
  traverse s.mem s.running_tasks.toNat s.list_head

/-- Two consecutive records of a list: `next` leads from `a` to `b` and `prev`
leads back. -/
def Link (m : List Cell) (a b : Nat) : Prop :=
  nextOf m a = some b ∧ prevOf m b = some a

instance (m : List Cell) (a b : Nat) : Decidable (Link m a b) := by
  unfold Link; infer_instance

/-- The process id stored in the record at address `a`. -/
def pidAt (m : List Cell) (a : Nat) : Option Int :=
  (load m (some a)).map (fun t => t.task_pid)

/-- The serial id stored in the record at address `a`. -/
def noAt (m : List Cell) (a : Nat) : Option Int :=
  (load m (some a)).map (fun t => t.task_no)

/-- The records `l` carry pairwise different process ids. -/
def DistinctPids (m : List Cell) (l : List Nat) : Prop :=
  (l.map (pidAt m)).Nodup

instance (m : List Cell) (l : List Nat) : Decidable (DistinctPids m l) := by
  unfold DistinctPids; infer_instance

/-- The registry `exampleHigh` with the priority of its last record set to LOW. -/
def exampleHighLowered : State :=
  { mem := [mkCell 0 100 prio.LOW 1 2, mkCell 1 101 prio.LOW 2 0, mkCell 2 102 prio.LOW 0 1],
    list_head := some 0, list_tail := some 2, curr_task := some 0,
    running_tasks := 3, created_tasks := 3, trace := [] }

/-! ## Further example states -/

/-- A heap cell given by all its fields. -/
def mkRec (no pid : Int) (name : List Nat) (p : prio) (next prev : Nat) (live : Bool) : Cell :=
  { val := { task_no := no, task_pid := pid, exec_name := name, priority := p,
             next := some next, prev := some prev },
    live := live }

/-- The state after `main` has started the shell (process 100) and two tasks
(processes 101 and 102, named by the bytes 65 and 66). -/
def bootTwo : State :=
  { mem := [mkRec 0 100 SHELL_EXECUTABLE_NAME prio.LOW 1 2 true,
            mkRec 1 101 [65] prio.LOW 2 0 true,
            mkRec 2 102 [66] prio.LOW 0 1 true],
    list_head := some 0, list_tail := some 2, curr_task := some 0,
    running_tasks := 3, created_tasks := 3,
    trace := [Sys.alarm 2, Sys.kill 100 Signal.SIGCONT] }

/-- The state `bootTwo` after the exit of the shell has been handled. -/
def bootTwoShellGone : State :=
  { mem := [mkRec 0 100 SHELL_EXECUTABLE_NAME prio.LOW 1 2 false,
            mkRec 1 101 [65] prio.LOW 2 2 true,
            mkRec 2 102 [66] prio.LOW 1 1 true],
    list_head := some 0, list_tail := some 2, curr_task := some 1,
    running_tasks := 2, created_tasks := 3,
    trace := [Sys.alarm 2, Sys.kill 100 Signal.SIGCONT, Sys.kill 101 Signal.SIGCONT,
              Sys.alarm 2] }

/-- The state `bootTwoShellGone` after the exit of the task 102, the last record
of the list, has been handled. -/
def bootTwoOnlyA : State :=
  { mem := [mkRec 0 100 SHELL_EXECUTABLE_NAME prio.LOW 1 2 false,
            mkRec 1 101 [65] prio.LOW 1 1 true,
            mkRec 2 102 [66] prio.LOW 1 1 false],
    list_head := some 0, list_tail := some 2, curr_task := some 1,
    running_tasks := 1, created_tasks := 3,
    trace := [Sys.alarm 2, Sys.kill 100 Signal.SIGCONT, Sys.kill 101 Signal.SIGCONT,
              Sys.alarm 2, Sys.kill 101 Signal.SIGCONT, Sys.alarm 2] }

/-- The state `bootTwoOnlyA` after an exec-task request for the executable named
by the byte 67 has been served, `fork` having returned 103. -/
def bootTwoOrphan : State :=
  { mem := [mkRec 0 100 SHELL_EXECUTABLE_NAME prio.LOW 1 3 false,
            mkRec 1 101 [65] prio.LOW 1 1 true,
            mkRec 2 102 [66] prio.LOW 3 1 false,
            mkRec 3 103 [67] prio.LOW 0 2 true],
    list_head := some 0, list_tail := some 3, curr_task := some 1,
    running_tasks := 2, created_tasks := 4,
    trace := [Sys.alarm 2, Sys.kill 100 Signal.SIGCONT, Sys.kill 101 Signal.SIGCONT,
              Sys.alarm 2, Sys.kill 101 Signal.SIGCONT, Sys.alarm 2] }

/-- The serial ids follow the order of creation: the record at address `a`, the
`a`-th record allocated, carries the serial id `a`, and `created_tasks` is the
number of records allocated so far. -/
def IdsInOrder (s : State) : Prop :=
  s.created_tasks = s.mem.length ∧ ∀ a, a < s.mem.length → noAt s.mem a = some (a : Int)

instance (s : State) : Decidable (IdsInOrder s) := by
  unfold IdsInOrder; infer_instance

/-- The state after `main` has started the shell (process 100) and no task. -/
def bootZero : State :=
  { mem := [mkRec 0 100 SHELL_EXECUTABLE_NAME prio.LOW 0 0 true],
    list_head := some 0, list_tail := some 0, curr_task := some 0,
    running_tasks := 1, created_tasks := 1,
    trace := [Sys.alarm SCHED_TQ_SEC, Sys.kill 100 Signal.SIGCONT] }

/-- An example registry of three records in which the current task, the first
record, is the only one with priority HIGH. -/
def exampleCurrHigh : State :=
  { mem := [mkCell 0 100 prio.HIGH 1 2, mkCell 1 101 prio.LOW 2 0, mkCell 2 102 prio.LOW 0 1],
    list_head := some 0, list_tail := some 2, curr_task := some 0,
    running_tasks := 3, created_tasks := 3, trace := [] }

/-! ## Sequences of events -/

/-- The values of `curr_task` after each of the child events `events`, handled
one after the other by `sigchld_step`; `none` if a pass faults or ends the
program. -/
def sigchld_currents (fuel : Nat) (s : State) : List (Int × wstatus) → Option (List Ptr)
  | [] => some []
  | (pid, st) :: rest =>
    match sigchld_step fuel s pid st with
    | some (Outcome.ret _ s1) =>
      (sigchld_currents fuel s1 rest).map (fun cs => s1.curr_task :: cs)
    | _ => none

/-- What happens to a child process, as far as running and being stopped goes. -/
inductive Hist where
  | resumed (pid : Int)
  | stopped (pid : Int)
  | gone (pid : Int)
deriving DecidableEq, Repr

/-- What a system call of the scheduler does to a child: SIGCONT resumes it,
SIGSTOP stops it, SIGKILL ends it. -/
def Sys.hist : Sys → List Hist
  | Sys.kill pid Signal.SIGCONT => [Hist.resumed pid]
  | Sys.kill pid Signal.SIGSTOP => [Hist.stopped pid]
  | Sys.kill pid Signal.SIGKILL => [Hist.gone pid]
  | Sys.alarm _ => []

/-- The history made by the system calls that a transition has added to the log. -/
def observe (old new : List Sys) : List Hist :=
  (new.drop old.length).foldr (fun c acc => c.hist ++ acc) []

/-- The processes that, by the history, have been resumed and have neither been
stopped nor ended since. -/
def running (h : List Hist) : List Int :=
  h.foldl (fun acc e =>
    match e with
    | Hist.resumed p => if p ∈ acc then acc else acc ++ [p]
    | Hist.stopped p => acc.erase p
    | Hist.gone p => acc.erase p) []

/-- An input of the running scheduler: a request of the shell (with the value
`fork` returns should the request fork), a child reported by `waitpid`, or the
expiry of the quantum. -/
inductive Input where
  | request (rq : request_struct) (pid : Int)
  | child (pid : Int) (st : wstatus)
  | quantum
deriving DecidableEq, Repr

/-- The scheduler run on a sequence of inputs, together with the history of the
children: a child event is entered into the history when it is reported, the
signals the scheduler sends when they are sent. -/
def simulate (K : request_codes) (fuel : Nat) :
    State → List Hist → List Input → Option (State × List Hist)
  | s, h, [] => some (s, h)
  | s, h, Input.request rq pid :: rest =>
    match process_request K s rq pid with
    | some (Outcome.ret _ s1) => simulate K fuel s1 (h ++ observe s.trace s1.trace) rest
    | _ => none
  | s, h, Input.child pid st :: rest =>
    match sigchld_step fuel s pid st with
    | some (Outcome.ret _ s1) =>
      simulate K fuel s1
        (h ++ [if st.terminated then Hist.gone pid else Hist.stopped pid]
           ++ observe s.trace s1.trace) rest
    | _ => none
  | s, h, Input.quantum :: rest =>
    match sigalrm_handler s with
    | some s1 => simulate K fuel s1 (h ++ observe s.trace s1.trace) rest
    | none => none

/-- The state `bootTwo` after a child-stopped event has been handled: the current
task is the process 101, which has been resumed. -/
def bootTwoAdvanced : State :=
  { bootTwo with
    curr_task := some 1,
    trace := [Sys.alarm 2, Sys.kill 100 Signal.SIGCONT, Sys.kill 101 Signal.SIGCONT,
              Sys.alarm 2] }

end Scheduler

/-! # Properties -/

namespace Scheduler

/-! ## Reading a ring -/

theorem cyc_mod (l : List Nat) (i : Nat) : cyc l (i % l.length) = cyc l i := by
  simp [cyc, Nat.mod_mod]

theorem cyc_succ_mod (l : List Nat) (i : Nat) : cyc l (i % l.length + 1) = cyc l (i + 1) := by
  simp [cyc, Nat.add_mod]

theorem cyc_add_length (l : List Nat) (i : Nat) : cyc l (i + l.length) = cyc l i := by
  simp [cyc]

theorem cyc_of_lt (l : List Nat) (i : Nat) (h : i < l.length) : cyc l i = l[i] := by
  simp [cyc, Nat.mod_eq_of_lt h, List.getD_eq_getElem?_getD, h]

theorem cyc_mem (l : List Nat) (h : l ≠ []) (i : Nat) : cyc l i ∈ l := by
  have hpos : 0 < l.length := List.length_pos.mpr h
  have hlt : i % l.length < l.length := Nat.mod_lt _ hpos
  rw [← cyc_mod, cyc_of_lt l _ hlt]
  exact List.getElem_mem _

theorem exists_cyc_of_mem (l : List Nat) (a : Nat) (h : a ∈ l) :
    ∃ i, i < l.length ∧ cyc l i = a := by
  obtain ⟨i, hi, rfl⟩ := List.getElem_of_mem h
  exact ⟨i, hi, cyc_of_lt l i hi⟩

theorem cyc_inj (l : List Nat) (hn : l.Nodup) (i j : Nat) (hi : i < l.length)
    (hj : j < l.length) (h : cyc l i = cyc l j) : i = j := by
  rw [cyc_of_lt l i hi, cyc_of_lt l j hj] at h
  exact (List.Nodup.getElem_inj_iff hn).mp h

theorem liveAt_iff (m : List Cell) (a : Nat) :
    liveAt m a = true ↔ ∃ c, m[a]? = some c ∧ c.live = true := by
  unfold liveAt
  cases h : m[a]? <;> simp

theorem load_some (m : List Cell) (a : Nat) (c : Cell) (h : m[a]? = some c) :
    load m (some a) = some c.val := by
  simp [load, h]

theorem nextOf_some (m : List Cell) (a : Nat) (c : Cell) (h : m[a]? = some c) :
    nextOf m a = c.val.next := by
  simp [nextOf, h]

theorem prevOf_some (m : List Cell) (a : Nat) (c : Cell) (h : m[a]? = some c) :
    prevOf m a = c.val.prev := by
  simp [prevOf, h]

/-- In a non-empty ring the conditions on `next`, `prev` and `live` hold at every
position, read cyclically. -/
theorem IsRing.at (m : List Cell) (l : List Nat) (h : IsRing m l) (hne : l ≠ []) (i : Nat) :
    liveAt m (cyc l i) = true ∧ nextOf m (cyc l i) = some (cyc l (i + 1)) ∧
    prevOf m (cyc l (i + 1)) = some (cyc l i) := by
  have hpos : 0 < l.length := List.length_pos.mpr hne
  have := h.2.1 (i % l.length) (Nat.mod_lt _ hpos)
  rwa [cyc_mod, cyc_succ_mod] at this

/-- The record at a position of a non-empty ring can be read, and its `next`
field is the address at the following position. -/
theorem IsRing.next_at (m : List Cell) (l : List Nat) (h : IsRing m l) (hne : l ≠ []) (i : Nat) :
    ∃ t, load m (some (cyc l i)) = some t ∧ t.next = some (cyc l (i + 1)) := by
  obtain ⟨hl, hn, _⟩ := h.at m l hne i
  obtain ⟨c, hc, _⟩ := (liveAt_iff _ _).mp hl
  refine ⟨c.val, load_some _ _ _ hc, ?_⟩
  rw [← nextOf_some _ _ _ hc]; exact hn

theorem IsRing.prev_at (m : List Cell) (l : List Nat) (h : IsRing m l) (hne : l ≠ [])
    (i : Nat) :
    ∃ t, load m (some (cyc l (i + 1))) = some t ∧ t.prev = some (cyc l i) := by
  obtain ⟨hl, _, _⟩ := h.at m l hne (i + 1)
  obtain ⟨_, _, hp⟩ := h.at m l hne i
  obtain ⟨c, hc, _⟩ := (liveAt_iff _ _).mp hl
  refine ⟨c.val, load_some _ _ _ hc, ?_⟩
  rw [← prevOf_some _ _ _ hc]; exact hp

/-- Following `next` for `k` steps in a ring moves `k` positions forward. -/
theorem follow_ring (m : List Cell) (l : List Nat) (h : IsRing m l) (hne : l ≠ [])
    (k i : Nat) : follow m k (some (cyc l i)) = some (cyc l (i + k)) := by
  induction k generalizing i with
  | zero => rfl
  | succ k ih =>
    have hn := (h.at m l hne i).2.1
    simp only [follow, Option.bind, hn]
    rw [ih (i + 1)]
    congr 2; omega

/-! ## The scan of `next_task` -/

/-- The loop of `next_task` runs to its end when the `k` records it visits have
priority LOW. -/
theorem next_task_scan_low (m : List Cell) (l : List Nat) (h : IsRing m l) (hne : l ≠ [])
    (k j : Nat) (hlow : ∀ t, t < k → prioAt m (some (cyc l (j + t))) = some prio.LOW) :
    next_task_scan m k (some (cyc l j)) = some none := by
  induction k generalizing j with
  | zero => rfl
  | succ k ih =>
    obtain ⟨r, hr, hnext⟩ := h.next_at m l hne j
    have h0 := hlow 0 (Nat.succ_pos _)
    simp only [prioAt, Nat.add_zero, hr, Option.map_some'] at h0
    have hp : r.priority = prio.LOW := by simpa using h0
    simp only [next_task_scan, hr, hp, hnext]
    simp only [reduceCtorEq, if_false]
    apply ih
    intro t ht
    have := hlow (t + 1) (by omega)
    rwa [show j + (t + 1) = j + 1 + t by omega] at this

/-- The loop of `next_task` returns the first record of priority HIGH it visits. -/
theorem next_task_scan_high (m : List Cell) (l : List Nat) (h : IsRing m l) (hne : l ≠ [])
    (k j d : Nat) (hd : d < k)
    (hlow : ∀ t, t < d → prioAt m (some (cyc l (j + t))) = some prio.LOW)
    (hhigh : prioAt m (some (cyc l (j + d))) = some prio.HIGH) :
    next_task_scan m k (some (cyc l j)) = some (some (some (cyc l (j + d)))) := by
  induction d generalizing j k with
  | zero =>
    obtain ⟨k, rfl⟩ : ∃ k', k = k' + 1 := ⟨k - 1, by omega⟩
    obtain ⟨r, hr, _⟩ := h.next_at m l hne j
    simp only [prioAt, Nat.add_zero, hr, Option.map_some'] at hhigh
    have hp : r.priority = prio.HIGH := by simpa using hhigh
    simp [next_task_scan, hr, hp]
  | succ d ih =>
    obtain ⟨k, rfl⟩ : ∃ k', k = k' + 1 := ⟨k - 1, by omega⟩
    obtain ⟨r, hr, hnext⟩ := h.next_at m l hne j
    have h0 := hlow 0 (Nat.succ_pos _)
    simp only [prioAt, Nat.add_zero, hr, Option.map_some'] at h0
    have hp : r.priority = prio.LOW := by simpa using h0
    simp only [next_task_scan, hr, hp, hnext]
    simp only [reduceCtorEq, if_false]
    rw [ih (k := k) (j := j + 1) (by omega)]
    · congr 4; omega
    · intro t ht
      have := hlow (t + 1) (by omega)
      rwa [show j + (t + 1) = j + 1 + t by omega] at this
    · rwa [show j + 1 + d = j + (d + 1) by omega]

end Scheduler

namespace Scheduler

theorem prioAt_ring (m : List Cell) (l : List Nat) (h : IsRing m l) (hne : l ≠ []) (i : Nat) :
    prioAt m (some (cyc l i)) = some prio.LOW ∨ prioAt m (some (cyc l i)) = some prio.HIGH := by
  obtain ⟨r, hr, _⟩ := h.next_at m l hne i
  simp only [prioAt, hr, Option.map_some']
  cases r.priority <;> simp

/-- If a record of a non-empty ring has priority HIGH, there is a first one in
the walk that starts at position `j`, at a distance below the length. -/
theorem exists_first_high (m : List Cell) (l : List Nat) (h : IsRing m l) (hne : l ≠ [])
    (j : Nat) (hex : ∃ a ∈ l, prioAt m (some a) = some prio.HIGH) :
    ∃ d, d < l.length ∧ prioAt m (some (cyc l (j + d))) = some prio.HIGH ∧
      ∀ t, t < d → prioAt m (some (cyc l (j + t))) = some prio.LOW := by
  classical
  have hpos : 0 < l.length := List.length_pos.mpr hne
  obtain ⟨a, ha, hhigh⟩ := hex
  obtain ⟨i, hi, rfl⟩ := exists_cyc_of_mem l a ha
  -- a distance from position `j` to position `i`
  have hsome : ∃ d, d < l.length ∧ prioAt m (some (cyc l (j + d))) = some prio.HIGH := by
    refine ⟨(i + l.length - j % l.length) % l.length, Nat.mod_lt _ hpos, ?_⟩
    have hj : j % l.length < l.length := Nat.mod_lt _ hpos
    have : cyc l (j + (i + l.length - j % l.length) % l.length) = cyc l i := by
      rw [← cyc_mod l (j + _), Nat.add_mod_mod, ← Nat.mod_add_mod,
        show j % l.length + (i + l.length - j % l.length) = i + l.length by omega,
        cyc_mod, cyc_add_length]
    rw [this]; exact hhigh
  refine ⟨Nat.find hsome, (Nat.find_spec hsome).1, (Nat.find_spec hsome).2, ?_⟩
  intro t ht
  have hmin := Nat.find_min hsome ht
  have hlt : t < l.length := lt_trans ht (Nat.find_spec hsome).1
  rcases prioAt_ring m l h hne (j + t) with hl | hh
  · exact hl
  · exact absurd ⟨hlt, hh⟩ hmin

/-- The result of `next_task` when the first record of priority HIGH after the
current one is known. -/
theorem next_task_of_first_high (s : State) (l : List Nat) (hwf : WellFormed s l) (i d : Nat)
    (hc : s.curr_task = some (cyc l i)) (hd : d < l.length)
    (hlow : ∀ t, t < d → prioAt s.mem (some (cyc l (i + 1 + t))) = some prio.LOW)
    (hhigh : prioAt s.mem (some (cyc l (i + 1 + d))) = some prio.HIGH) :
    next_task s = some (some (cyc l (i + 1 + d))) := by
  obtain ⟨hring, hne, hrun, _⟩ := hwf
  obtain ⟨c, hcl, hcn⟩ := hring.next_at s.mem l hne i
  have hk : (s.running_tasks + 1).toNat = l.length + 1 := by rw [hrun]; omega
  have hscan := next_task_scan_high s.mem l hring hne (l.length + 1) (i + 1) d (by omega)
    hlow hhigh
  simp [next_task, hc, hcl, hcn, hk, hscan]

/-- The result of `next_task` when no record has priority HIGH. -/
theorem next_task_of_all_low (s : State) (l : List Nat) (hwf : WellFormed s l) (i : Nat)
    (hc : s.curr_task = some (cyc l i))
    (hlow : ∀ a ∈ l, prioAt s.mem (some a) = some prio.LOW) :
    next_task s = some (some (cyc l (i + 1))) := by
  obtain ⟨hring, hne, hrun, _⟩ := hwf
  obtain ⟨c, hcl, hcn⟩ := hring.next_at s.mem l hne i
  have hk : (s.running_tasks + 1).toNat = l.length + 1 := by rw [hrun]; omega
  have hscan := next_task_scan_low s.mem l hring hne (l.length + 1) (i + 1)
    (fun t _ => hlow _ (cyc_mem l hne _))
  simp [next_task, hc, hcl, hcn, hk, hscan]

theorem WellFormed.curr (s : State) (l : List Nat) (hwf : WellFormed s l) :
    ∃ i, i < l.length ∧ s.curr_task = some (cyc l i) := by
  obtain ⟨c, hcl, hc⟩ := hwf.2.2.2
  obtain ⟨i, hi, rfl⟩ := exists_cyc_of_mem l c hcl
  exact ⟨i, hi, hc⟩

/-- C1: in a well-formed registry (a circular ring of `n >= 1` records,
`running_tasks = n`, `curr_task` a registered record), if a record within
`running_tasks` steps of `curr_task` has priority HIGH then `next_task` returns a
registered record of priority HIGH, and if no registered record has priority HIGH
then `next_task` returns the immediate successor of `curr_task`. -/
theorem next_task_high_or_successor (s : State) (l : List Nat) (hwf : WellFormed s l) :
    ((∃ k, k ≤ s.running_tasks.toNat ∧
        prioAt s.mem (follow s.mem k s.curr_task) = some prio.HIGH) →
      ∃ p, next_task s = some (some p) ∧ p ∈ l ∧ prioAt s.mem (some p) = some prio.HIGH) ∧
    ((∀ a ∈ l, prioAt s.mem (some a) = some prio.LOW) →
      next_task s = some (follow s.mem 1 s.curr_task) ∧
      ∃ c, load s.mem s.curr_task = some c ∧ next_task s = some c.next) := by
  obtain ⟨i, _, hc⟩ := hwf.curr
  have hring := hwf.1
  have hne := hwf.2.1
  constructor
  · rintro ⟨k, _, hk⟩
    rw [hc, follow_ring s.mem l hring hne] at hk
    obtain ⟨d, hd, hhigh, hlow⟩ := exists_first_high s.mem l hring hne (i + 1)
      ⟨_, cyc_mem l hne _, hk⟩
    exact ⟨_, next_task_of_first_high s l hwf i d hc hd hlow hhigh, cyc_mem l hne _, hhigh⟩
  · intro hlow
    have hres := next_task_of_all_low s l hwf i hc hlow
    obtain ⟨c, hcl, hcn⟩ := hring.next_at s.mem l hne i
    refine ⟨?_, c, ?_, ?_⟩
    · rw [hres, hc, follow_ring s.mem l hring hne]
    · rw [hc]; exact hcl
    · rw [hres, hcn]

/-- C1, at an example: the registry `exampleHigh` is well formed, and the two
parts of the statement hold for it. -/
theorem next_task_high_or_successor_witness :
    WellFormed exampleHigh [0, 1, 2] ∧
    (((∃ k, k ≤ exampleHigh.running_tasks.toNat ∧
        prioAt exampleHigh.mem (follow exampleHigh.mem k exampleHigh.curr_task)
          = some prio.HIGH) →
      ∃ p, next_task exampleHigh = some (some p) ∧ p ∈ [0, 1, 2] ∧
        prioAt exampleHigh.mem (some p) = some prio.HIGH) ∧
    ((∀ a ∈ [0, 1, 2], prioAt exampleHigh.mem (some a) = some prio.LOW) →
      next_task exampleHigh = some (follow exampleHigh.mem 1 exampleHigh.curr_task) ∧
      ∃ c, load exampleHigh.mem exampleHigh.curr_task = some c ∧
        next_task exampleHigh = some c.next)) :=
  ⟨by decide, next_task_high_or_successor exampleHigh [0, 1, 2] (by decide)⟩

/-- C2: in a well-formed registry with at least one record of priority HIGH,
`next_task` returns the first record of priority HIGH met when walking forward
from the successor of `curr_task`: the record `k` steps after `curr_task`, with
`1 <= k <= n`, where every record fewer than `k` steps after `curr_task` has
priority LOW. -/
theorem next_task_first_high (s : State) (l : List Nat) (hwf : WellFormed s l)
    (hex : ∃ a ∈ l, prioAt s.mem (some a) = some prio.HIGH) :
    ∃ k, 1 ≤ k ∧ k ≤ l.length ∧
      next_task s = some (follow s.mem k s.curr_task) ∧
      prioAt s.mem (follow s.mem k s.curr_task) = some prio.HIGH ∧
      ∀ j, 1 ≤ j → j < k → prioAt s.mem (follow s.mem j s.curr_task) = some prio.LOW := by
  obtain ⟨i, _, hc⟩ := hwf.curr
  have hring := hwf.1
  have hne := hwf.2.1
  obtain ⟨d, hd, hhigh, hlow⟩ := exists_first_high s.mem l hring hne (i + 1) hex
  refine ⟨d + 1, by omega, by omega, ?_, ?_, ?_⟩
  · rw [next_task_of_first_high s l hwf i d hc hd hlow hhigh, hc,
      follow_ring s.mem l hring hne, show i + (d + 1) = i + 1 + d by omega]
  · rw [hc, follow_ring s.mem l hring hne]
    rwa [show i + (d + 1) = i + 1 + d by omega]
  · intro j hj1 hjk
    rw [hc, follow_ring s.mem l hring hne]
    have := hlow (j - 1) (by omega)
    rwa [show i + 1 + (j - 1) = i + j by omega] at this

/-- C2, at an example: in `exampleHigh` the record of priority HIGH is met after
two steps. -/
theorem next_task_first_high_witness :
    (∃ a ∈ [0, 1, 2], prioAt exampleHigh.mem (some a) = some prio.HIGH) ∧
    ∃ k, 1 ≤ k ∧ k ≤ [0, 1, 2].length ∧
      next_task exampleHigh = some (follow exampleHigh.mem k exampleHigh.curr_task) ∧
      prioAt exampleHigh.mem (follow exampleHigh.mem k exampleHigh.curr_task)
        = some prio.HIGH ∧
      ∀ j, 1 ≤ j → j < k →
        prioAt exampleHigh.mem (follow exampleHigh.mem j exampleHigh.curr_task)
          = some prio.LOW :=
  ⟨by decide, next_task_first_high exampleHigh [0, 1, 2] (by decide) (by decide)⟩

end Scheduler

namespace Scheduler

/-! ## The heap under `store` and `free` -/

theorem store_spec (m m1 : List Cell) (p : Ptr) (f : task_t → task_t)
    (h : store m p f = some m1) :
    ∃ a c, p = some a ∧ m[a]? = some c ∧ m1 = m.set a { c with val := f c.val } := by
  unfold store at h
  cases p with
  | none => simp at h
  | some a =>
    cases hc : m[a]? with
    | none => simp [hc] at h
    | some c =>
      simp only [hc, Option.some.injEq] at h
      exact ⟨a, c, rfl, hc, h.symm⟩

theorem free_spec (m m1 : List Cell) (a : Nat) (h : free m (some a) = some m1) :
    ∃ c, m[a]? = some c ∧ c.live = true ∧ m1 = m.set a { c with live := false } := by
  unfold free at h
  cases hc : m[a]? with
  | none => simp [hc] at h
  | some c =>
    simp only [hc] at h
    by_cases hl : c.live = true
    · simp only [hl, if_true, Option.some.injEq] at h
      exact ⟨c, rfl, hl, h.symm⟩
    · simp [hl] at h

theorem liveCount_set_same (m : List Cell) (a : Nat) (c c1 : Cell) (h : m[a]? = some c)
    (hl : c1.live = c.live) : liveCount (m.set a c1) = liveCount m := by
  induction m generalizing a with
  | nil => simp at h
  | cons x xs ih =>
    cases a with
    | zero =>
      simp only [List.getElem?_cons_zero, Option.some.injEq] at h
      subst h
      simp [liveCount, List.countP_cons, hl]
    | succ a =>
      simp only [List.getElem?_cons_succ] at h
      have := ih a h
      simp only [liveCount, List.set_cons_succ, List.countP_cons] at this ⊢
      omega

theorem liveCount_set_dead (m : List Cell) (a : Nat) (c c1 : Cell) (h : m[a]? = some c)
    (hc : c.live = true) (hl : c1.live = false) :
    liveCount (m.set a c1) + 1 = liveCount m := by
  induction m generalizing a with
  | nil => simp at h
  | cons x xs ih =>
    cases a with
    | zero =>
      simp only [List.getElem?_cons_zero, Option.some.injEq] at h
      subst h
      simp [liveCount, List.countP_cons, hl, hc]
    | succ a =>
      simp only [List.getElem?_cons_succ] at h
      have := ih a h
      simp only [liveCount, List.set_cons_succ, List.countP_cons] at this ⊢
      omega

theorem store_liveCount (m m1 : List Cell) (p : Ptr) (f : task_t → task_t)
    (h : store m p f = some m1) : liveCount m1 = liveCount m := by
  obtain ⟨a, c, _, hc, rfl⟩ := store_spec m m1 p f h
  exact liveCount_set_same m a c _ hc rfl

theorem free_liveCount (m m1 : List Cell) (a : Nat) (h : free m (some a) = some m1) :
    liveCount m1 + 1 = liveCount m := by
  obtain ⟨c, hc, hl, rfl⟩ := free_spec m m1 a h
  exact liveCount_set_dead m a c _ hc hl rfl

theorem load_ptr (m : List Cell) (p : Ptr) (t : task_t) (h : load m p = some t) :
    ∃ a, p = some a := by
  cases p with
  | none => simp [load] at h
  | some a => exact ⟨a, rfl⟩

/-! ## The counters -/

/-- What `add_task` does to the counters and to the number of records. -/
theorem add_task_counts (s s1 : State) (number pid : Int) (name : List Nat)
    (h : add_task s number pid name = some s1) :
    s1.running_tasks = s.running_tasks + 1 ∧ s1.created_tasks = s.created_tasks + 1 ∧
    liveCount s1.mem = liveCount s.mem + 1 ∧ s1.curr_task = s.curr_task ∧
    s1.trace = s.trace := by
  unfold add_task at h
  simp only [bind, Option.bind_eq_some, pure] at h
  obtain ⟨⟨m1, head1⟩, h1, m2, h2, m3, h3, h⟩ := h
  simp only [Option.some.injEq] at h
  subst h
  refine ⟨rfl, rfl, ?_, rfl, rfl⟩
  simp only
  rw [store_liveCount _ _ _ _ h3, store_liveCount _ _ _ _ h2]
  have h0 : ∀ c : Cell, c.live = true → liveCount (s.mem ++ [c]) = liveCount s.mem + 1 := by
    intro c hc
    simp [liveCount, List.countP_append, hc]
  cases ht : s.list_tail with
  | none =>
    simp only [ht, Option.some.injEq, Prod.mk.injEq] at h1
    rw [← h1.1]; exact h0 _ rfl
  | some t =>
    simp only [ht, Option.map_eq_some'] at h1
    obtain ⟨m, hm, he⟩ := h1
    simp only [Prod.mk.injEq] at he
    rw [← he.1, store_liveCount _ _ _ _ hm]; exact h0 _ rfl

/-- What `remove_task` does to the counters and to the number of records. -/
theorem remove_task_counts (fuel : Nat) (s s1 : State) (pid : Int)
    (h : remove_task fuel s pid = some s1) :
    s1.running_tasks = s.running_tasks ∧ s1.created_tasks = s.created_tasks ∧
    liveCount s1.mem + 1 = liveCount s.mem ∧ s1.curr_task = s.curr_task ∧
    s1.list_head = s.list_head ∧ s1.list_tail = s.list_tail ∧ s1.trace = s.trace := by
  unfold remove_task at h
  simp only [bind, Option.bind_eq_some, pure] at h
  obtain ⟨temp, _, t, ht, m1, h1, t1, ht1, m2, h2, m3, h3, h⟩ := h
  simp only [Option.some.injEq] at h
  subst h
  refine ⟨rfl, rfl, ?_, rfl, rfl, rfl, rfl⟩
  obtain ⟨a, rfl⟩ := load_ptr _ _ _ ht
  have e3 := free_liveCount _ _ _ h3
  have e1 : liveCount m1 = liveCount s.mem := by
    cases hn : t.next with
    | none => simp only [hn, Option.some.injEq] at h1; rw [h1]
    | some n => simp only [hn] at h1; exact store_liveCount _ _ _ _ h1
  have e2 : liveCount m2 = liveCount m1 := by
    cases hp : t1.prev with
    | none => simp only [hp, Option.some.injEq] at h2; rw [h2]
    | some n => simp only [hp] at h2; exact store_liveCount _ _ _ _ h2
  simp only
  omega

end Scheduler

namespace Scheduler

theorem next_task_scan_ptr (m : List Cell) (k : Nat) (p : Ptr) (q : Ptr)
    (h : next_task_scan m k p = some (some q)) : ∃ a, q = some a := by
  induction k generalizing p with
  | zero => simp [next_task_scan] at h
  | succ k ih =>
    unfold next_task_scan at h
    cases ht : load m p with
    | none => simp [ht] at h
    | some t =>
      simp only [ht] at h
      split at h
      · simp only [Option.some.injEq] at h
        subst h
        exact load_ptr _ _ _ ht
      · exact ih _ h

/-- What reaping a child does to `running_tasks` and to the number of records. -/
theorem sigchld_reap_counts (fuel : Nat) (s : State) (pid : Int) (o : Outcome Unit)
    (h : sigchld_reap fuel s pid = some o) :
    o.state.running_tasks = s.running_tasks - 1 ∧
    liveCount o.state.mem + 1 = liveCount s.mem ∧
    o.state.created_tasks = s.created_tasks := by
  unfold sigchld_reap at h
  simp only [bind, Option.bind_eq_some, pure] at h
  obtain ⟨c, _, cn, _, h⟩ := h
  split at h
  · simp only [Option.bind_eq_some, Option.some.injEq] at h
    obtain ⟨s1, h1, p, _, rfl⟩ := h
    obtain ⟨hr, hc, hl, _⟩ := remove_task_counts _ _ _ _ h1
    exact ⟨hr, hl, hc⟩
  · split at h
    · simp only [Option.bind_eq_some, Option.some.injEq] at h
      obtain ⟨s1, h1, rfl⟩ := h
      obtain ⟨hr, hc, hl, _⟩ := remove_task_counts _ _ _ _ h1
      exact ⟨hr, hl, hc⟩
    · simp only [Option.bind_eq_some, Option.some.injEq] at h
      obtain ⟨s1, h1, rfl⟩ := h
      obtain ⟨hr, hc, hl, _⟩ := remove_task_counts _ _ _ _ h1
      exact ⟨hr, hl, hc⟩

/-- What one pass of `sigchld_handler` does to `running_tasks` and to the number
of records: a terminated child takes one off both, a stopped child changes
neither. -/
theorem sigchld_step_counts (fuel : Nat) (s : State) (pid : Int) (st : wstatus)
    (o : Outcome Unit) (h : sigchld_step fuel s pid st = some o) :
    (st.terminated = true → o.state.running_tasks = s.running_tasks - 1 ∧
      liveCount o.state.mem + 1 = liveCount s.mem) ∧
    (st.terminated = false → o.state.running_tasks = s.running_tasks ∧
      o.state.mem = s.mem) ∧
    o.state.created_tasks = s.created_tasks := by
  unfold sigchld_step at h
  simp only [bind, Option.bind_eq_some, pure] at h
  obtain ⟨o1, h1, h⟩ := h
  have key : (st.terminated = true → o1.state.running_tasks = s.running_tasks - 1 ∧
      liveCount o1.state.mem + 1 = liveCount s.mem) ∧
      (st.terminated = false → o1.state.running_tasks = s.running_tasks ∧
        o1.state.mem = s.mem) ∧ o1.state.created_tasks = s.created_tasks := by
    cases ht : st.terminated with
    | true =>
      simp only [ht, if_true] at h1
      obtain ⟨hr, hl, hc⟩ := sigchld_reap_counts _ _ _ _ h1
      simp [hr, hl, hc]
    | false =>
      simp only [ht] at h1
      simp only [Bool.false_eq_true, if_false, Option.some.injEq] at h1
      subst h1
      simp [Outcome.state]
  cases o1 with
  | exit c s1 =>
    simp only [Option.some.injEq] at h
    subst h
    exact key
  | ret u s1 =>
    simp only [Option.bind_eq_some, Option.some.injEq] at h
    obtain ⟨s2, h2, c, _, rfl⟩ := h
    have e2 : s2.running_tasks = s1.running_tasks ∧ s2.mem = s1.mem ∧
        s2.created_tasks = s1.created_tasks := by
      split at h2
      · simp only [Option.map_eq_some'] at h2
        obtain ⟨p, _, rfl⟩ := h2
        exact ⟨rfl, rfl, rfl⟩
      · simp only [Option.some.injEq] at h2
        subst h2
        exact ⟨rfl, rfl, rfl⟩
    simp only [Outcome.state] at key ⊢
    rw [e2.1, e2.2.1, e2.2.2]
    exact key

/-- What `sched_kill_task_by_id` leaves unchanged: everything but the log of
system calls. -/
theorem sched_kill_task_by_id_frame (s s1 : State) (id r : Int)
    (h : sched_kill_task_by_id s id = some (r, s1)) :
    s1.mem = s.mem ∧ s1.list_head = s.list_head ∧ s1.list_tail = s.list_tail ∧
    s1.curr_task = s.curr_task ∧ s1.running_tasks = s.running_tasks ∧
    s1.created_tasks = s.created_tasks := by
  unfold sched_kill_task_by_id at h
  simp only [bind, Option.bind_eq_some, pure] at h
  obtain ⟨x, _, h⟩ := h
  cases x with
  | none =>
    simp only [Option.some.injEq, Prod.mk.injEq] at h
    obtain ⟨_, rfl⟩ := h
    simp
  | some q =>
    simp only [Option.some.injEq, Prod.mk.injEq] at h
    obtain ⟨_, rfl⟩ := h
    simp

/-- What `prioritize_task` leaves unchanged. -/
theorem prioritize_task_frame (s s1 : State) (id r : Int) (np : prio)
    (h : prioritize_task s id np = some (r, s1)) :
    liveCount s1.mem = liveCount s.mem ∧ s1.list_head = s.list_head ∧
    s1.list_tail = s.list_tail ∧ s1.curr_task = s.curr_task ∧
    s1.running_tasks = s.running_tasks ∧ s1.created_tasks = s.created_tasks ∧
    s1.trace = s.trace := by
  unfold prioritize_task at h
  simp only [bind, Option.bind_eq_some, pure] at h
  obtain ⟨x, _, h⟩ := h
  cases x with
  | none =>
    simp only [Option.some.injEq, Prod.mk.injEq] at h
    obtain ⟨_, rfl⟩ := h
    simp
  | some q =>
    simp only [Option.bind_eq_some, Option.some.injEq, Prod.mk.injEq] at h
    obtain ⟨m, hm, _, rfl⟩ := h
    simp [store_liveCount _ _ _ _ hm]

/-- What `sched_create_task` does to the counters when it returns. -/
theorem sched_create_task_counts (s s1 : State) (executable : List Nat) (pid : Int)
    (h : sched_create_task s executable pid = some (Outcome.ret () s1)) :
    s1.running_tasks = s.running_tasks + 1 ∧ s1.created_tasks = s.created_tasks + 1 ∧
    liveCount s1.mem = liveCount s.mem + 1 ∧ s1.curr_task = s.curr_task ∧
    s1.trace = s.trace := by
  unfold sched_create_task at h
  split at h
  · simp at h
  · split at h
    · simp at h
    · simp only [bind, Option.bind_eq_some, pure, Option.some.injEq, Outcome.ret.injEq,
        true_and] at h
      obtain ⟨t, _, s2, h2, rfl⟩ := h
      exact add_task_counts { s with list_tail := t.prev } _ _ _ _ h2

/-- A request that is served leaves `running_tasks` and the number of records as
they are, or adds one to both. -/
theorem process_request_counts (K : request_codes) (s s1 : State) (rq : request_struct)
    (pid r : Int) (h : process_request K s rq pid = some (Outcome.ret r s1)) :
    (s1.running_tasks = s.running_tasks ∧ liveCount s1.mem = liveCount s.mem) ∨
    (s1.running_tasks = s.running_tasks + 1 ∧ liveCount s1.mem = liveCount s.mem + 1) := by
  unfold process_request at h
  split at h
  · simp only [Option.map_eq_some', Option.some.injEq, Outcome.ret.injEq] at h
    obtain ⟨_, _, _, rfl⟩ := h
    exact Or.inl ⟨rfl, rfl⟩
  · split at h
    · simp only [Option.map_eq_some', Option.some.injEq, Outcome.ret.injEq] at h
      obtain ⟨⟨r1, s2⟩, h2, _, rfl⟩ := h
      obtain ⟨hm, _, _, _, hr, _⟩ := sched_kill_task_by_id_frame _ _ _ _ h2
      exact Or.inl ⟨hr, by simp only [hm]⟩
    · split at h
      · simp only [Option.map_eq_some'] at h
        obtain ⟨o, ho, h⟩ := h
        cases o with
        | exit c s2 => simp at h
        | ret u s2 =>
          simp only [Outcome.ret.injEq] at h
          obtain ⟨_, rfl⟩ := h
          obtain ⟨hr, _, hl, _⟩ := sched_create_task_counts _ _ _ _ ho
          exact Or.inr ⟨hr, hl⟩
      · split at h
        · simp only [Option.map_eq_some', Option.some.injEq, Outcome.ret.injEq] at h
          obtain ⟨⟨r1, s2⟩, h2, _, rfl⟩ := h
          obtain ⟨hl, _, _, _, hr, _⟩ := prioritize_task_frame _ _ _ _ _ h2
          exact Or.inl ⟨hr, hl⟩
        · split at h
          · simp only [Option.map_eq_some', Option.some.injEq, Outcome.ret.injEq] at h
            obtain ⟨⟨r1, s2⟩, h2, _, rfl⟩ := h
            obtain ⟨hl, _, _, _, hr, _⟩ := prioritize_task_frame _ _ _ _ _ h2
            exact Or.inl ⟨hr, hl⟩
          · simp only [Option.some.injEq, Outcome.ret.injEq] at h
            obtain ⟨_, rfl⟩ := h
            exact Or.inl ⟨rfl, rfl⟩

theorem sigalrm_handler_frame (s s1 : State) (h : sigalrm_handler s = some s1) :
    s1.mem = s.mem ∧ s1.list_head = s.list_head ∧ s1.list_tail = s.list_tail ∧
    s1.curr_task = s.curr_task ∧ s1.running_tasks = s.running_tasks ∧
    s1.created_tasks = s.created_tasks := by
  unfold sigalrm_handler at h
  simp only [bind, Option.bind_eq_some, pure, Option.some.injEq] at h
  obtain ⟨c, _, rfl⟩ := h
  simp

/-- The loop of `main` keeps `running_tasks` equal to the number of records. -/
theorem main_loop_counts (s : State) (i : Int) (args : List (List Nat)) (pids : List Int)
    (o : Outcome Unit) (h : main_loop s i args pids = some o)
    (hs : s.running_tasks = liveCount s.mem) :
    o.state.running_tasks = liveCount o.state.mem := by
  induction args generalizing s i pids with
  | nil =>
    simp only [main_loop, Option.some.injEq] at h
    subst h; exact hs
  | cons arg args ih =>
    cases pids with
    | nil => simp [main_loop] at h
    | cons pid pids =>
      simp only [main_loop] at h
      split at h
      · simp only [Option.some.injEq] at h
        subst h; exact hs
      · split at h
        · simp at h
        · cases ha : add_task s i pid arg with
          | none => simp [ha] at h
          | some s1 =>
            simp only [ha] at h
            obtain ⟨hr, _, hl, _⟩ := add_task_counts _ _ _ _ _ ha
            exact ih s1 (i + 1) pids h (by rw [hr, hl, hs]; simp)

/-- When `main` enters the request loop, `running_tasks` is the number of records. -/
theorem main_counts (argv : List (List Nat)) (shell_pid : Int) (pids : List Int) (s : State)
    (h : main argv shell_pid pids = some (Outcome.ret () s)) :
    s.running_tasks = liveCount s.mem := by
  unfold main at h
  simp only at h
  split at h
  · simp at h
  · split at h
    · simp at h
    · simp only [bind, Option.bind_eq_some, pure] at h
      obtain ⟨s1, h1, o, ho, h⟩ := h
      obtain ⟨hr, _, hl, _⟩ := add_task_counts _ _ _ _ _ h1
      have hinv := main_loop_counts _ _ _ _ _ ho
        (by rw [hr, hl]; simp [State.init, liveCount])
      cases o with
      | exit c s2 => simp at h
      | ret u s2 =>
        simp only at h
        split at h
        · simp at h
        · simp only [Option.bind_eq_some, Option.some.injEq, Outcome.ret.injEq,
            true_and] at h
          obtain ⟨c, _, rfl⟩ := h
          exact hinv

/-- In every reachable state `running_tasks` is the number of records. -/
theorem reachable_counts (K : request_codes) (s : State) (h : Reachable K s) :
    s.running_tasks = liveCount s.mem := by
  induction h with
  | boot argv shell_pid pids s _ hm => exact main_counts _ _ _ _ hm
  | step s s1 _ hstep ih =>
    cases hstep with
    | request rq pid r _ hp =>
      rcases process_request_counts _ _ _ _ _ _ hp with ⟨hr, hl⟩ | ⟨hr, hl⟩
      · rw [hr, hl, ih]
      · rw [hr, hl, ih]; simp
    | child fuel pid st _ hc =>
      obtain ⟨ht, hf, _⟩ := sigchld_step_counts _ _ _ _ _ hc
      cases hst : st.terminated with
      | true =>
        obtain ⟨hr, hl⟩ := ht hst
        simp only [Outcome.state] at hr hl
        rw [hr, ih]; omega
      | false =>
        obtain ⟨hr, hm⟩ := hf hst
        simp only [Outcome.state] at hr hm
        rw [hr, hm, ih]
    | quantum hq =>
      obtain ⟨hm, _, _, _, hr, _⟩ := sigalrm_handler_frame _ _ hq
      rw [hr, hm, ih]

end Scheduler

namespace Scheduler

/-- C3: in every state reachable from the start of the program through shell
requests (among them exec-task), child exit/kill/stop events for registered
process ids and quantum expiries, `running_tasks` equals the number of records
in the registry and is not negative.  Handling an exit or a kill takes exactly
one off `running_tasks` (also when the handler ends the program), and no other
transition decreases it: a stop event and a quantum expiry leave it unchanged, a
request never decreases it, `add_task` adds one. -/
theorem running_tasks_counts_records (K : request_codes) (s : State) (h : Reachable K s) :
    s.running_tasks = liveCount s.mem ∧ 0 ≤ s.running_tasks ∧
    (∀ fuel pid st o, registered s pid → sigchld_step fuel s pid st = some o →
      (st.terminated = true → o.state.running_tasks = s.running_tasks - 1) ∧
      (st.terminated = false → o.state.running_tasks = s.running_tasks) ∧
      o.state.running_tasks = liveCount o.state.mem ∧ 0 ≤ o.state.running_tasks) ∧
    (∀ rq pid r s1, process_request K s rq pid = some (Outcome.ret r s1) →
      s.running_tasks ≤ s1.running_tasks) ∧
    (∀ s1, sigalrm_handler s = some s1 → s1.running_tasks = s.running_tasks) ∧
    (∀ number pid name s1, add_task s number pid name = some s1 →
      s1.running_tasks = s.running_tasks + 1) := by
  have hinv := reachable_counts K s h
  refine ⟨hinv, by rw [hinv]; exact Int.natCast_nonneg _, ?_, ?_, ?_, ?_⟩
  · intro fuel pid st o _ ho
    obtain ⟨ht, hf, _⟩ := sigchld_step_counts _ _ _ _ _ ho
    have hcount : o.state.running_tasks = liveCount o.state.mem := by
      cases hst : st.terminated with
      | true =>
        obtain ⟨hr, hl⟩ := ht hst
        rw [hr, hinv]; omega
      | false =>
        obtain ⟨hr, hm⟩ := hf hst
        rw [hr, hm, hinv]
    exact ⟨fun hst => (ht hst).1, fun hst => (hf hst).1, hcount,
      by rw [hcount]; exact Int.natCast_nonneg _⟩
  · intro rq pid r s1 hp
    rcases process_request_counts _ _ _ _ _ _ hp with ⟨hr, _⟩ | ⟨hr, _⟩ <;> omega
  · intro s1 hq
    exact (sigalrm_handler_frame _ _ hq).2.2.2.2.1
  · intro number pid name s1 ha
    exact (add_task_counts _ _ _ _ _ ha).1

/-- C3, at an example: the state reached when `main` has started the shell and
one task and the exit of that task has been handled. -/
theorem running_tasks_counts_records_witness :
    Reachable exampleCodes bootOneReaped ∧
    (bootOneReaped.running_tasks = liveCount bootOneReaped.mem ∧
    0 ≤ bootOneReaped.running_tasks ∧
    (∀ fuel pid st o, registered bootOneReaped pid →
      sigchld_step fuel bootOneReaped pid st = some o →
      (st.terminated = true → o.state.running_tasks = bootOneReaped.running_tasks - 1) ∧
      (st.terminated = false → o.state.running_tasks = bootOneReaped.running_tasks) ∧
      o.state.running_tasks = liveCount o.state.mem ∧ 0 ≤ o.state.running_tasks) ∧
    (∀ rq pid r s1, process_request exampleCodes bootOneReaped rq pid
        = some (Outcome.ret r s1) →
      bootOneReaped.running_tasks ≤ s1.running_tasks) ∧
    (∀ s1, sigalrm_handler bootOneReaped = some s1 →
      s1.running_tasks = bootOneReaped.running_tasks) ∧
    (∀ number pid name s1, add_task bootOneReaped number pid name = some s1 →
      s1.running_tasks = bootOneReaped.running_tasks + 1)) :=
  have hreach : Reachable exampleCodes bootOneReaped :=
    Reachable.step bootOne bootOneReaped
      (Reachable.boot [[1], [65]] 100 [101] bootOne (by decide) (by decide))
      (Step.child bootOne bootOneReaped 2 101 (wstatus.exited 0) (by decide) (by decide))
  ⟨hreach, running_tasks_counts_records exampleCodes bootOneReaped hreach⟩

end Scheduler

namespace Scheduler

/-- C4 fails on the code.  `main` starts the shell (process 100) and one task
(process 101); the shell, which is the head of the list, exits and is removed by
`sigchld_handler`; an exec-task request is then served by `sched_create_task`
(process 102).  `remove_task` has left `list_head` pointing to the freed record
of the shell, so `add_task` links the new record to it: in the resulting state
the two registered records are at the addresses 1 and 2 and `running_tasks` is 2,
but two steps of `next` from record 1 lead to the freed record 0, and the `prev`
of record 1 is record 1 itself while its `next` is record 2. -/
theorem circularity_lost_after_head_removal :
    main [[1], [65]] 100 [101] = some (Outcome.ret () bootOne) ∧
    registered bootOne 100 ∧
    sigchld_step 2 bootOne 100 (wstatus.exited 0) = some (Outcome.ret () shellGone) ∧
    sched_create_task shellGone [66] 102 = some (Outcome.ret () shellGoneExec) ∧
    Reachable exampleCodes shellGoneExec ∧
    shellGoneExec.running_tasks = 2 ∧
    liveAt shellGoneExec.mem 1 = true ∧ liveAt shellGoneExec.mem 2 = true ∧
    liveAt shellGoneExec.mem 0 = false ∧
    follow shellGoneExec.mem 2 (some 1) = some 0 ∧
    follow shellGoneExec.mem 2 (some 1) ≠ some 1 ∧
    nextOf shellGoneExec.mem 1 = some 2 ∧ prevOf shellGoneExec.mem 2 = some 1 ∧
    prevOf shellGoneExec.mem 1 = some 1 ∧ nextOf shellGoneExec.mem 2 = some 0 := by
  refine ⟨by decide, by decide, by decide, by decide, ?_, by decide, by decide, by decide,
    by decide, by decide, by decide, by decide, by decide, by decide, by decide⟩
  exact Reachable.step shellGone shellGoneExec
    (Reachable.step bootOne shellGone
      (Reachable.boot [[1], [65]] 100 [101] bootOne (by decide) (by decide))
      (Step.child bootOne shellGone 2 100 (wstatus.exited 0) (by decide) (by decide)))
    (Step.request shellGone shellGoneExec
      { request_no := 2, task_arg := 0, exec_task_arg := [66] } 102 0
      (by decide) (by decide))

end Scheduler

namespace Scheduler

/-! ## Rings as lists of linked records -/

/-- A ring, described without modular arithmetic. -/
theorem isRing_iff_links (m : List Cell) (l : List Nat) :
    IsRing m l ↔
      l.Nodup ∧ (∀ i, i < l.length → liveAt m (l.getD i 0) = true) ∧
      (∀ i, i + 1 < l.length → Link m (l.getD i 0) (l.getD (i + 1) 0)) ∧
      (0 < l.length → Link m (l.getD (l.length - 1) 0) (l.getD 0 0)) ∧
      (∀ a, a < m.length → liveAt m a = true → a ∈ l) := by
  have hc : ∀ i, i < l.length → cyc l i = l.getD i 0 := fun i hi => by
    simp [cyc, Nat.mod_eq_of_lt hi]
  constructor
  · rintro ⟨hn, hr, hcl⟩
    refine ⟨hn, fun i hi => ?_, fun i hi => ?_, fun hpos => ?_, hcl⟩
    · rw [← hc i hi]; exact (hr i hi).1
    · have := hr i (by omega)
      rw [hc i (by omega), hc (i + 1) hi] at this
      exact ⟨this.2.1, this.2.2⟩
    · have := hr (l.length - 1) (by omega)
      rw [hc _ (by omega), show l.length - 1 + 1 = 0 + l.length by omega, cyc_add_length,
        hc 0 hpos] at this
      exact ⟨this.2.1, this.2.2⟩
  · rintro ⟨hn, hl, hk, hw, hcl⟩
    refine ⟨hn, fun i hi => ?_, hcl⟩
    rw [hc i hi]
    refine ⟨hl i hi, ?_⟩
    by_cases hlast : i + 1 < l.length
    · rw [hc (i + 1) hlast]; exact hk i hlast
    · have hi1 : i = l.length - 1 := by omega
      rw [show i + 1 = 0 + l.length by omega, cyc_add_length, hc 0 (by omega), hi1]
      exact hw (by omega)

theorem cyc_rotate (l : List Nat) (k i : Nat) : cyc (l.rotate k) i = cyc l (i + k) := by
  by_cases hl : l = []
  · subst hl; simp [cyc]
  have hpos : 0 < l.length := List.length_pos.mpr hl
  have hlt : i % l.length < (l.rotate k).length := by
    rw [List.length_rotate]; exact Nat.mod_lt _ hpos
  have h1 : cyc (l.rotate k) i = (l.rotate k)[i % l.length] := by
    rw [← cyc_mod, List.length_rotate, cyc_of_lt _ _ hlt]
  rw [h1, List.getElem_rotate, ← cyc_of_lt l _ (Nat.mod_lt _ hpos), cyc_mod,
    ← cyc_mod l (i + k), ← cyc_mod l (i % l.length + k), Nat.mod_add_mod]

/-- A rotation of a ring is a ring. -/
theorem IsRing.rotate (m : List Cell) (l : List Nat) (h : IsRing m l) (k : Nat) :
    IsRing m (l.rotate k) := by
  by_cases hl : l = []
  · subst hl; simpa using h
  refine ⟨List.nodup_rotate.mpr h.1, fun i _ => ?_, fun a ha hlive => ?_⟩
  · rw [cyc_rotate, cyc_rotate, show i + 1 + k = i + k + 1 by omega]
    exact h.at m l hl (i + k)
  · exact List.mem_rotate.mpr (h.2.2 a ha hlive)

theorem IsRing.of_isRotated (m : List Cell) (l l1 : List Nat) (h : IsRing m l)
    (hr : l ~r l1) : IsRing m l1 := by
  obtain ⟨k, rfl⟩ := hr
  exact h.rotate m l k

end Scheduler

namespace Scheduler

/-! ## The heap after `add_task` -/

theorem lt_length_of_liveAt (m : List Cell) (a : Nat) (h : liveAt m a = true) :
    a < m.length := by
  obtain ⟨c, hc, _⟩ := (liveAt_iff m a).mp h
  exact (List.getElem?_eq_some.mp hc).1

theorem nextOf_eq_load (m : List Cell) (a : Nat) :
    nextOf m a = (load m (some a)).bind (fun t => t.next) := by
  unfold nextOf load
  cases h : m[a]? <;> simp [h]

theorem prevOf_eq_load (m : List Cell) (a : Nat) :
    prevOf m a = (load m (some a)).bind (fun t => t.prev) := by
  unfold prevOf load
  cases h : m[a]? <;> simp [h]

theorem load_of_lt (m : List Cell) (a : Nat) (h : a < m.length) :
    ∃ t, load m (some a) = some t := by
  simp [load, List.getElem?_eq_getElem h]

theorem load_lt (m : List Cell) (a : Nat) (t : task_t) (h : load m (some a) = some t) :
    a < m.length := by
  simp only [load, Option.map_eq_some'] at h
  obtain ⟨c, hc, _⟩ := h
  exact (List.getElem?_eq_some.mp hc).1

/-- A successful `store` changes the record it is applied to and nothing else. -/
theorem store_load (m m1 : List Cell) (a : Nat) (f : task_t → task_t)
    (h : store m (some a) f = some m1) :
    m1.length = m.length ∧ (∀ b, liveAt m1 b = liveAt m b) ∧
    ∀ b, load m1 (some b) = if b = a then (load m (some a)).map f else load m (some b) := by
  obtain ⟨a1, c, ha, hc, rfl⟩ := store_spec m m1 (some a) f h
  simp only [Option.some.injEq] at ha
  subst ha
  have hlt : a < m.length := (List.getElem?_eq_some.mp hc).1
  refine ⟨by simp, fun b => ?_, fun b => ?_⟩
  · by_cases hb : a = b
    · subst hb; simp [liveAt, hc, hlt]
    · simp [liveAt, List.getElem?_set, hb]
  · by_cases hb : b = a
    · subst hb; simp [load, hc, hlt]
    · have hb2 : ¬ a = b := fun h => hb h.symm
      simp [load, List.getElem?_set, hb, hb2]

theorem store_isSome (m : List Cell) (a : Nat) (f : task_t → task_t) (h : a < m.length) :
    ∃ m1, store m (some a) f = some m1 := by
  simp [store, List.getElem?_eq_getElem h]

theorem load_append (m : List Cell) (c : Cell) (b : Nat) :
    load (m ++ [c]) (some b) =
      if b < m.length then load m (some b) else if b = m.length then some c.val else none := by
  by_cases hb : b < m.length
  · simp [load, List.getElem?_append, hb]
  · by_cases hb2 : b = m.length
    · subst hb2; simp [load]
    · have : m.length + 1 ≤ b := by omega
      simp [load, hb, hb2, List.getElem?_eq_none, this]

theorem liveAt_append (m : List Cell) (c : Cell) (b : Nat) :
    liveAt (m ++ [c]) b =
      if b < m.length then liveAt m b else if b = m.length then c.live else false := by
  by_cases hb : b < m.length
  · simp [liveAt, List.getElem?_append, hb]
  · by_cases hb2 : b = m.length
    · subst hb2; simp [liveAt]
    · have : m.length + 1 ≤ b := by omega
      simp [liveAt, hb, hb2, List.getElem?_eq_none, this]

/-- The function `add_task` returns on a list with head `hd` and tail `tl`. -/
theorem add_task_isSome (s : State) (number pid : Int) (name : List Nat) (hd tl : Nat)
    (hh : s.list_head = some hd) (ht : s.list_tail = some tl)
    (hhl : hd < s.mem.length) (htl : tl < s.mem.length) :
    ∃ s1, add_task s number pid name = some s1 := by
  unfold add_task
  simp only [hh, ht, bind, pure]
  obtain ⟨m1, h1⟩ := store_isSome (s.mem ++ [new_record number pid name (some tl)]) tl
    (fun r => { r with next := some s.mem.length }) (by simp; omega)
  have l1 := (store_load _ _ _ _ h1).1
  obtain ⟨m2, h2⟩ := store_isSome m1 s.mem.length (fun r => { r with next := some hd })
    (by rw [l1]; simp)
  have l2 := (store_load _ _ _ _ h2).1
  obtain ⟨m3, h3⟩ := store_isSome m2 hd (fun r => { r with prev := some s.mem.length })
    (by rw [l2, l1]; simp; omega)
  simp [h1, h2, h3]

/-- The heap and the globals after `add_task` on a list with head `hd` and
tail `tl`. -/
theorem add_task_nonempty (s s1 : State) (number pid : Int) (name : List Nat) (hd tl : Nat)
    (hh : s.list_head = some hd) (ht : s.list_tail = some tl)
    (hhl : hd < s.mem.length) (htl : tl < s.mem.length)
    (h : add_task s number pid name = some s1) :
    s1.list_head = some hd ∧ s1.list_tail = some s.mem.length ∧
    s1.mem.length = s.mem.length + 1 ∧
    (∀ b, b < s.mem.length →
      liveAt s1.mem b = liveAt s.mem b ∧ fieldsAt s1.mem b = fieldsAt s.mem b ∧
      nextOf s1.mem b = (if b = tl then some s.mem.length else nextOf s.mem b) ∧
      prevOf s1.mem b = (if b = hd then some s.mem.length else prevOf s.mem b)) ∧
    liveAt s1.mem s.mem.length = true ∧
    fieldsAt s1.mem s.mem.length =
      some { task_no := number, task_pid := pid, exec_name := name.take TASK_NAME_SZ,
             priority := prio.LOW } ∧
    nextOf s1.mem s.mem.length = some hd ∧ prevOf s1.mem s.mem.length = some tl := by
  unfold add_task at h
  simp only [hh, ht, bind, pure, Option.bind_eq_some, Option.map_eq_some', Option.some.injEq]
    at h
  obtain ⟨⟨m1, hd1⟩, ⟨m1', h1, he⟩, m2, h2, m3, h3, rfl⟩ := h
  simp only [Prod.mk.injEq] at he
  obtain ⟨rfl, rfl⟩ := he
  obtain ⟨l1, v1, g1⟩ := store_load _ _ _ _ h1
  obtain ⟨l2, v2, g2⟩ := store_load _ _ _ _ h2
  obtain ⟨l3, v3, g3⟩ := store_load _ _ _ _ h3
  have hne1 : tl ≠ s.mem.length := by omega
  have hne2 : hd ≠ s.mem.length := by omega
  have hne3 : s.mem.length ≠ tl := by omega
  have hne4 : s.mem.length ≠ hd := by omega
  -- the records of the old heap
  have old : ∀ b t, b < s.mem.length → load s.mem (some b) = some t →
      load m3 (some b) = some { t with next := if b = tl then some s.mem.length else t.next,
                                       prev := if b = hd then some s.mem.length else t.prev } := by
    intro b t hb htb
    have hb1 : b ≠ s.mem.length := by omega
    have e1 : load m1' (some b) =
        some { t with next := if b = tl then some s.mem.length else t.next } := by
      rw [g1]
      by_cases hbt : b = tl
      · subst hbt; simp [load_append, hb, htb]
      · simp [load_append, hb, htb, hbt]
    have e2 : load m2 (some b) = load m1' (some b) := by rw [g2]; simp [hb1]
    rw [g3]
    by_cases hbh : b = hd
    · subst hbh; simp [e2, e1]
    · simp [hbh, e2, e1]
  have new : load m3 (some s.mem.length) =
      some { (new_record number pid name (some tl)).val with next := some hd } := by
    rw [g3, if_neg hne4, g2, if_pos rfl, g1, if_neg hne3]
    simp [load_append]
  refine ⟨rfl, rfl, by simp [l3, l2, l1], ?_, ?_, ?_, ?_, ?_⟩
  · intro b hb
    obtain ⟨t, htb⟩ := load_of_lt s.mem b hb
    have hm := old b t hb htb
    refine ⟨?_, ?_, ?_, ?_⟩
    · simp [v3, v2, v1, liveAt_append, hb]
    · simp [fieldsAt, hm, htb, task_t.fields]
    · simp only [nextOf_eq_load, hm, htb, Option.bind]
    · simp only [prevOf_eq_load, hm, htb, Option.bind]
  · simp [v3, v2, v1, liveAt_append, new_record]
  · simp [fieldsAt, new, task_t.fields, new_record]
  · simp [nextOf_eq_load, new]
  · simp [prevOf_eq_load, new, new_record]

end Scheduler

namespace Scheduler

/-- The heap and the globals after `add_task` on the empty list. -/
theorem add_task_empty (s : State) (number pid : Int) (name : List Nat)
    (ht : s.list_tail = none) :
    ∃ s1, add_task s number pid name = some s1 ∧
      s1.list_head = some s.mem.length ∧ s1.list_tail = some s.mem.length ∧
      s1.mem.length = s.mem.length + 1 ∧
      (∀ b, b < s.mem.length →
        liveAt s1.mem b = liveAt s.mem b ∧ fieldsAt s1.mem b = fieldsAt s.mem b) ∧
      liveAt s1.mem s.mem.length = true ∧
      fieldsAt s1.mem s.mem.length =
        some { task_no := number, task_pid := pid, exec_name := name.take TASK_NAME_SZ,
               priority := prio.LOW } ∧
      nextOf s1.mem s.mem.length = some s.mem.length ∧
      prevOf s1.mem s.mem.length = some s.mem.length := by
  obtain ⟨m2, h2⟩ := store_isSome (s.mem ++ [new_record number pid name none]) s.mem.length
    (fun r => { r with next := some s.mem.length }) (by simp)
  obtain ⟨l2, v2, g2⟩ := store_load _ _ _ _ h2
  obtain ⟨m3, h3⟩ := store_isSome m2 s.mem.length
    (fun r => { r with prev := some s.mem.length }) (by rw [l2]; simp)
  obtain ⟨l3, v3, g3⟩ := store_load _ _ _ _ h3
  have new : load m3 (some s.mem.length) =
      some { (new_record number pid name none).val with
               next := some s.mem.length, prev := some s.mem.length } := by
    rw [g3, if_pos rfl, g2, if_pos rfl]
    simp [load_append]
  refine ⟨{ s with mem := m3, list_head := some s.mem.length,
                   list_tail := some s.mem.length,
                   running_tasks := s.running_tasks + 1,
                   created_tasks := s.created_tasks + 1 }, ?_, rfl, rfl,
    by simp [l3, l2], ?_, ?_, ?_, ?_, ?_⟩
  · simp [add_task, ht, bind, pure, h2, h3]
  · intro b hb
    have hb1 : b ≠ s.mem.length := by omega
    refine ⟨by simp [v3, v2, liveAt_append, hb], ?_⟩
    simp [fieldsAt, g3, g2, hb1, load_append, hb]
  · simp [v3, v2, liveAt_append, new_record]
  · simp [fieldsAt, new, task_t.fields, new_record]
  · simp [nextOf_eq_load, new]
  · simp [prevOf_eq_load, new]

theorem getD_inj (l : List Nat) (hn : l.Nodup) (i j : Nat) (hi : i < l.length)
    (hj : j < l.length) (h : l.getD i 0 = l.getD j 0) : i = j := by
  apply cyc_inj l hn i j hi hj
  simpa [cyc, Nat.mod_eq_of_lt hi, Nat.mod_eq_of_lt hj] using h

theorem getD_mem (l : List Nat) (i : Nat) (hi : i < l.length) : l.getD i 0 ∈ l := by
  rw [List.getD_eq_getElem _ _ hi]
  exact List.getElem_mem _

theorem head?_eq_getD (l : List Nat) (h : l ≠ []) : l.head? = some (l.getD 0 0) := by
  cases l with
  | nil => exact absurd rfl h
  | cons x xs => rfl

theorem getLast?_eq_getD (l : List Nat) (h : l ≠ []) :
    l.getLast? = some (l.getD (l.length - 1) 0) := by
  have hpos : 0 < l.length := List.length_pos.mpr h
  rw [List.getLast?_eq_getElem?, List.getD_eq_getElem?_getD,
    List.getElem?_eq_getElem (by omega)]
  rfl

/-- The loops that follow `next` from a record of a ring visit the records of the
ring in order. -/
theorem traverse_ring (m : List Cell) (l : List Nat) (h : IsRing m l) (hne : l ≠ [])
    (k j : Nat) :
    ∃ fs, traverse m k (some (cyc l j)) = some fs ∧ fs.length = k ∧
      ∀ t, t < k → fs[t]? = fieldsAt m (cyc l (j + t)) := by
  induction k generalizing j with
  | zero => exact ⟨[], rfl, rfl, fun t ht => absurd ht (Nat.not_lt_zero _)⟩
  | succ k ih =>
    obtain ⟨r, hr, hnext⟩ := h.next_at m l hne j
    obtain ⟨fs, hfs, hlen, hget⟩ := ih (j + 1)
    refine ⟨r.fields :: fs, ?_, by simp [hlen], ?_⟩
    · simp [traverse, hr, hnext, hfs]
    · intro t ht
      cases t with
      | zero => simp [fieldsAt, hr]
      | succ t =>
        rw [List.getElem?_cons_succ, hget t (by omega)]
        congr 2; omega

/-- The head-to-tail traversal of a registry lists the fields of its records. -/
theorem registry_ring (s : State) (l : List Nat) (h : IsRing s.mem l)
    (hrun : s.running_tasks = l.length) (hh : HeadOk s l) :
    ∃ fs, registry s = some fs ∧ fs.length = l.length ∧
      ∀ t, t < l.length → fs[t]? = fieldsAt s.mem (l.getD t 0) := by
  by_cases hne : l = []
  · subst hne
    refine ⟨[], ?_, rfl, fun t ht => absurd ht (Nat.not_lt_zero _)⟩
    simp [registry, hrun, traverse]
  · obtain ⟨fs, hfs, hlen, hget⟩ := traverse_ring s.mem l h hne l.length 0
    have hpos : 0 < l.length := List.length_pos.mpr hne
    refine ⟨fs, ?_, hlen, fun t ht => ?_⟩
    · unfold registry
      rw [hh, head?_eq_getD l hne, hrun]
      simpa [cyc, Nat.mod_eq_of_lt hpos] using hfs
    · rw [hget t ht]
      simp [cyc, Nat.mod_eq_of_lt ht]

end Scheduler

namespace Scheduler

theorem getD_append_last (l : List Nat) (x : Nat) : (l ++ [x]).getD l.length 0 = x := by
  simp [List.getD_eq_getElem?_getD]

theorem getD_append_lt (l : List Nat) (x i : Nat) (hi : i < l.length) :
    (l ++ [x]).getD i 0 = l.getD i 0 := by
  simp [List.getD_eq_getElem?_getD, List.getElem?_append, hi]

/-- The ring after `add_task`: the new record is appended to the list. -/
theorem add_task_ring (s : State) (l : List Nat) (number pid : Int) (name : List Nat)
    (hring : IsRing s.mem l) (hh : HeadOk s l) (ht : TailOk s l) :
    ∃ s1, add_task s number pid name = some s1 ∧
      IsRing s1.mem (l ++ [s.mem.length]) ∧ HeadOk s1 (l ++ [s.mem.length]) ∧
      TailOk s1 (l ++ [s.mem.length]) ∧
      (∀ a ∈ l, fieldsAt s1.mem a = fieldsAt s.mem a) ∧
      fieldsAt s1.mem s.mem.length =
        some { task_no := number, task_pid := pid, exec_name := name.take TASK_NAME_SZ,
               priority := prio.LOW } := by
  have hlinks := (isRing_iff_links s.mem l).mp hring
  obtain ⟨hn, hl, hk, hw, hcl⟩ := hlinks
  have hbound : ∀ a ∈ l, a < s.mem.length := by
    intro a ha
    obtain ⟨i, hi, rfl⟩ := List.getElem_of_mem ha
    have := hl i hi
    rw [List.getD_eq_getElem _ _ hi] at this
    exact lt_length_of_liveAt _ _ this
  have hnew : s.mem.length ∉ l := fun hmem => Nat.lt_irrefl _ (hbound _ hmem)
  have hnodup : (l ++ [s.mem.length]).Nodup := by
    rw [List.nodup_append]
    refine ⟨hn, List.nodup_singleton _, ?_⟩
    intro a ha hb
    simp only [List.mem_singleton] at hb
    subst hb
    exact hnew ha
  by_cases hne : l = []
  · subst hne
    obtain ⟨s1, hs1, h1, h2, hlen, hold, hlive, hf, hnx, hpv⟩ :=
      add_task_empty s number pid name (by simpa [TailOk] using ht)
    refine ⟨s1, hs1, ?_, by simpa [HeadOk] using h1, by simpa [TailOk] using h2,
      by simp, hf⟩
    rw [isRing_iff_links]
    refine ⟨by simp, ?_, ?_, ?_, ?_⟩
    · intro i hi
      simp only [List.nil_append, List.length_singleton, Nat.lt_one_iff] at hi
      subst hi; simpa using hlive
    · intro i hi; simp at hi
    · intro _; simpa [Link] using ⟨hnx, hpv⟩
    · intro a ha hlv
      rw [hlen] at ha
      by_cases hlt : a < s.mem.length
      · rw [(hold a hlt).1] at hlv
        exact absurd (hcl a hlt hlv) (by simp)
      · simp; omega
  · have hpos : 0 < l.length := List.length_pos.mpr hne
    have hhd : s.list_head = some (l.getD 0 0) := by
      rw [← head?_eq_getD l hne]; exact hh
    have htl : s.list_tail = some (l.getD (l.length - 1) 0) := by
      rw [← getLast?_eq_getD l hne]; exact ht
    have hhdl := hbound _ (getD_mem l 0 hpos)
    have htll := hbound _ (getD_mem l (l.length - 1) (by omega))
    obtain ⟨s1, hs1⟩ := add_task_isSome s number pid name _ _ hhd htl hhdl htll
    obtain ⟨h1, h2, hlen, hold, hlive, hf, hnx, hpv⟩ :=
      add_task_nonempty s s1 number pid name _ _ hhd htl hhdl htll hs1
    refine ⟨s1, hs1, ?_, ?_, ?_, ?_, hf⟩
    · rw [isRing_iff_links]
      refine ⟨hnodup, ?_, ?_, ?_, ?_⟩
      · intro i hi
        simp only [List.length_append, List.length_singleton] at hi
        by_cases hlt : i < l.length
        · rw [getD_append_lt l _ i hlt, (hold _ (hbound _ (getD_mem l i hlt))).1]
          exact hl i hlt
        · have : i = l.length := by omega
          subst this
          rw [getD_append_last]; exact hlive
      · intro i hi
        simp only [List.length_append, List.length_singleton] at hi
        have hi1 : i < l.length := by omega
        rw [getD_append_lt l _ i hi1]
        by_cases hlt : i + 1 < l.length
        · rw [getD_append_lt l _ (i + 1) hlt]
          obtain ⟨_, _, hnx1, _⟩ := hold _ (hbound _ (getD_mem l i hi1))
          obtain ⟨_, _, _, hpv1⟩ := hold _ (hbound _ (getD_mem l (i + 1) hlt))
          have hne1 : l.getD i 0 ≠ l.getD (l.length - 1) 0 := fun he => by
            have := getD_inj l hn _ _ hi1 (by omega) he
            omega
          have hne2 : l.getD (i + 1) 0 ≠ l.getD 0 0 := fun he => by
            have := getD_inj l hn _ _ hlt hpos he
            omega
          rw [Link, hnx1, hpv1, if_neg hne1, if_neg hne2]
          exact hk i hlt
        · have hi2 : i = l.length - 1 := by omega
          rw [show i + 1 = l.length by omega, getD_append_last, hi2]
          obtain ⟨_, _, hnx1, _⟩ := hold _ htll
          rw [Link, hnx1, if_pos rfl]
          exact ⟨rfl, hpv⟩
      · intro _
        simp only [List.length_append, List.length_singleton, Nat.add_sub_cancel]
        rw [getD_append_last, getD_append_lt l _ 0 hpos]
        obtain ⟨_, _, _, hpv1⟩ := hold _ hhdl
        rw [Link, hpv1, if_pos rfl]
        exact ⟨hnx, rfl⟩
      · intro a ha hlv
        rw [hlen] at ha
        by_cases hlt : a < s.mem.length
        · rw [(hold a hlt).1] at hlv
          exact List.mem_append_left _ (hcl a hlt hlv)
        · have : a = s.mem.length := by omega
          subst this; simp
    · rw [HeadOk, h1, List.head?_append_of_ne_nil _ hne, head?_eq_getD l hne]
    · rw [TailOk, h2]; simp
    · intro a ha
      exact (hold a (hbound a ha)).2.1

/-- C5: on a registry with the records `l` in head-to-tail order (a ring with
`list_head` at its first and `list_tail` at its last record, or the empty
registry), `add_task` returns; the head-to-tail traversal of the new registry is
the old traversal followed by one record with the given number and process id,
the name cut to `TASK_NAME_SZ` bytes and priority LOW; the records of the new
registry are the old ones, in the same order and with the same fields, followed
by the new one, and they form a ring again; `running_tasks` and `created_tasks`
have each grown by one and `curr_task` is unchanged. -/
theorem add_task_appends (s : State) (l : List Nat) (number pid : Int) (name : List Nat)
    (hring : IsRing s.mem l) (hrun : s.running_tasks = l.length)
    (hh : HeadOk s l) (ht : TailOk s l) :
    ∃ s1 old, add_task s number pid name = some s1 ∧
      registry s = some old ∧
      registry s1 = some (old ++ [{ task_no := number, task_pid := pid,
                                    exec_name := name.take TASK_NAME_SZ,
                                    priority := prio.LOW }]) ∧
      IsRing s1.mem (l ++ [s.mem.length]) ∧ HeadOk s1 (l ++ [s.mem.length]) ∧
      TailOk s1 (l ++ [s.mem.length]) ∧
      (∀ a ∈ l, fieldsAt s1.mem a = fieldsAt s.mem a) ∧
      s1.running_tasks = s.running_tasks + 1 ∧ s1.created_tasks = s.created_tasks + 1 ∧
      s1.curr_task = s.curr_task := by
  obtain ⟨s1, hs1, hring1, hh1, ht1, hold, hnew⟩ :=
    add_task_ring s l number pid name hring hh ht
  obtain ⟨hr, hc, _, hcur, _⟩ := add_task_counts _ _ _ _ _ hs1
  obtain ⟨old, hreg, hlen, hget⟩ := registry_ring s l hring hrun hh
  obtain ⟨fs, hreg1, hlen1, hget1⟩ := registry_ring s1 (l ++ [s.mem.length]) hring1
    (by rw [hr, hrun]; simp) hh1
  refine ⟨s1, old, hs1, hreg, ?_, hring1, hh1, ht1, hold, hr, hc, hcur⟩
  rw [hreg1]
  congr 1
  apply List.ext_getElem?
  intro t
  simp only [List.length_append, List.length_singleton] at hlen1 hget1
  by_cases h1 : t < l.length
  · rw [hget1 t (by omega), getD_append_lt l _ t h1, hold _ (getD_mem l t h1),
      List.getElem?_append_left (by omega), hget t h1]
  · by_cases h2 : t = l.length
    · subst h2
      rw [hget1 _ (by omega), getD_append_last, hnew, ← hlen]
      simp
    · rw [List.getElem?_eq_none (by omega), List.getElem?_eq_none (by simp; omega)]

/-- C5, at an example: a fourth record is added to the registry `exampleLow`. -/
theorem add_task_appends_witness :
    (IsRing exampleLow.mem [0, 1, 2] ∧
      exampleLow.running_tasks = ([0, 1, 2] : List Nat).length ∧
      HeadOk exampleLow [0, 1, 2] ∧ TailOk exampleLow [0, 1, 2]) ∧
    ∃ s1 old, add_task exampleLow 3 103 [67] = some s1 ∧
      registry exampleLow = some old ∧
      registry s1 = some (old ++ [{ task_no := 3, task_pid := 103,
                                    exec_name := [67].take TASK_NAME_SZ,
                                    priority := prio.LOW }]) ∧
      IsRing s1.mem ([0, 1, 2] ++ [exampleLow.mem.length]) ∧
      HeadOk s1 ([0, 1, 2] ++ [exampleLow.mem.length]) ∧
      TailOk s1 ([0, 1, 2] ++ [exampleLow.mem.length]) ∧
      (∀ a ∈ [0, 1, 2], fieldsAt s1.mem a = fieldsAt exampleLow.mem a) ∧
      s1.running_tasks = exampleLow.running_tasks + 1 ∧
      s1.created_tasks = exampleLow.created_tasks + 1 ∧
      s1.curr_task = exampleLow.curr_task :=
  ⟨by decide, add_task_appends exampleLow [0, 1, 2] 3 103 [67] (by decide) (by decide)
    (by decide) (by decide)⟩

end Scheduler

namespace Scheduler

/-! ## The heap after `remove_task` -/

theorem free_load (m m1 : List Cell) (a : Nat) (h : free m (some a) = some m1) :
    m1.length = m.length ∧ liveAt m1 a = false ∧
    (∀ b, b ≠ a → liveAt m1 b = liveAt m b) ∧ ∀ b, load m1 (some b) = load m (some b) := by
  obtain ⟨c, hc, _, rfl⟩ := free_spec m m1 a h
  have hlt : a < m.length := (List.getElem?_eq_some.mp hc).1
  refine ⟨by simp, by simp [liveAt, hlt], fun b hb => ?_, fun b => ?_⟩
  · simp [liveAt, List.getElem?_set, Ne.symm hb]
  · by_cases hb : a = b
    · subst hb; simp [load, hc, hlt]
    · simp [load, List.getElem?_set, hb]

theorem free_isSome (m : List Cell) (a : Nat) (h : liveAt m a = true) :
    ∃ m1, free m (some a) = some m1 := by
  obtain ⟨c, hc, hl⟩ := (liveAt_iff m a).mp h
  simp [free, hc, hl]

/-- The heap and the globals after `remove_task`, when its loop stops at the
record `a` whose neighbours are `nx` and `pv`. -/
theorem remove_task_mem (fuel : Nat) (s : State) (pid : Int) (a nx pv : Nat) (t : task_t)
    (hfind : remove_task_find s.mem pid fuel s.curr_task = some (some a))
    (hload : load s.mem (some a) = some t) (hnx : t.next = some nx) (hpv : t.prev = some pv)
    (hnxl : nx < s.mem.length) (hpvl : pv < s.mem.length) (hlive : liveAt s.mem a = true) :
    ∃ s1, remove_task fuel s pid = some s1 ∧
      s1.list_head = s.list_head ∧ s1.list_tail = s.list_tail ∧
      s1.curr_task = s.curr_task ∧ s1.running_tasks = s.running_tasks ∧
      s1.created_tasks = s.created_tasks ∧ s1.trace = s.trace ∧
      s1.mem.length = s.mem.length ∧ liveAt s1.mem a = false ∧
      (∀ b, b ≠ a → liveAt s1.mem b = liveAt s.mem b) ∧
      ∀ b, fieldsAt s1.mem b = fieldsAt s.mem b ∧
        nextOf s1.mem b = (if b = pv then some nx else nextOf s.mem b) ∧
        prevOf s1.mem b = (if b = nx then some pv else prevOf s.mem b) := by
  obtain ⟨m1, h1⟩ := store_isSome s.mem nx (fun r => { r with prev := some pv }) hnxl
  obtain ⟨l1, v1, g1⟩ := store_load _ _ _ _ h1
  have ht1 : load m1 (some a) = some t := by
    rw [g1]
    by_cases han : a = nx
    · subst han
      simp only [if_true, hload, Option.map_some', Option.some.injEq]
      cases t
      simp only [task_t.mk.injEq, true_and] at hpv ⊢
      exact hpv.symm
    · simp [han, hload]
  obtain ⟨m2, h2⟩ := store_isSome m1 pv (fun r => { r with next := some nx })
    (by rw [l1]; exact hpvl)
  obtain ⟨l2, v2, g2⟩ := store_load _ _ _ _ h2
  obtain ⟨m3, h3⟩ := free_isSome m2 a (by rw [v2, v1]; exact hlive)
  obtain ⟨l3, d3, v3, g3⟩ := free_load _ _ _ h3
  refine ⟨{ s with mem := m3 }, ?_, rfl, rfl, rfl, rfl, rfl, rfl, by simp [l3, l2, l1], d3,
    fun b hb => by simp [v3 b hb, v2, v1], fun b => ?_⟩
  · simp [remove_task, hfind, hload, hnx, hpv, h1, ht1, h2, h3, bind, pure]
  · have key : load m3 (some b) = (load s.mem (some b)).map (fun r =>
        { r with next := if b = pv then some nx else r.next,
                 prev := if b = nx then some pv else r.prev }) := by
      rw [g3, g2]
      by_cases hbp : b = pv
      · subst hbp
        rw [if_pos rfl, g1]
        by_cases hbn : b = nx
        · subst hbn
          cases load s.mem (some b) <;> simp
        · simp [hbn]
      · rw [if_neg hbp, g1]
        by_cases hbn : b = nx
        · subst hbn; simp [hbp]
        · simp [hbn, hbp]
    refine ⟨?_, ?_, ?_⟩
    · simp only [fieldsAt, key, Option.map_map]
      cases load s.mem (some b) <;> simp [task_t.fields]
    · simp only [nextOf_eq_load, key]
      cases hlb : load s.mem (some b) with
      | none =>
        have : ¬ b < s.mem.length := fun hlt => by
          obtain ⟨r, hr⟩ := load_of_lt s.mem b hlt
          simp [hr] at hlb
        have hbp : b ≠ pv := fun he => this (he ▸ hpvl)
        simp [hbp]
      | some r => simp
    · simp only [prevOf_eq_load, key]
      cases hlb : load s.mem (some b) with
      | none =>
        have : ¬ b < s.mem.length := fun hlt => by
          obtain ⟨r, hr⟩ := load_of_lt s.mem b hlt
          simp [hr] at hlb
        have hbn : b ≠ nx := fun he => this (he ▸ hnxl)
        simp [hbn]
      | some r => simp

end Scheduler

namespace Scheduler

/-! ## The search of `remove_task` -/

/-- The loop of `remove_task` stops at the first record that carries `pid`. -/
theorem remove_task_find_ring (m : List Cell) (l : List Nat) (h : IsRing m l) (hne : l ≠ [])
    (pid : Int) (d i fuel : Nat) (hfuel : d < fuel)
    (hno : ∀ t, t < d → pidAt m (cyc l (i + t)) ≠ some pid)
    (hyes : pidAt m (cyc l (i + d)) = some pid) :
    remove_task_find m pid fuel (some (cyc l i)) = some (some (cyc l (i + d))) := by
  induction d generalizing i fuel with
  | zero =>
    obtain ⟨fuel, rfl⟩ : ∃ f, fuel = f + 1 := ⟨fuel - 1, by omega⟩
    obtain ⟨r, hr, _⟩ := h.next_at m l hne i
    simp only [pidAt, Nat.add_zero, hr, Option.map_some', Option.some.injEq] at hyes
    simp [remove_task_find, hr, hyes]
  | succ d ih =>
    obtain ⟨fuel, rfl⟩ : ∃ f, fuel = f + 1 := ⟨fuel - 1, by omega⟩
    obtain ⟨r, hr, hnext⟩ := h.next_at m l hne i
    have h0 := hno 0 (Nat.succ_pos _)
    simp only [pidAt, Nat.add_zero, hr, Option.map_some', ne_eq, Option.some.injEq] at h0
    simp only [remove_task_find, hr, h0, if_false, hnext]
    rw [ih (i + 1) fuel (by omega)]
    · rw [show i + 1 + d = i + (d + 1) by omega]
    · intro t ht
      have := hno (t + 1) (by omega)
      rwa [show i + (t + 1) = i + 1 + t by omega] at this
    · rwa [show i + 1 + d = i + (d + 1) by omega]

/-- The loop of `remove_task` does not end in a ring without a record that
carries `pid`: it returns for no amount of fuel. -/
theorem remove_task_find_none (m : List Cell) (l : List Nat) (h : IsRing m l) (hne : l ≠ [])
    (pid : Int) (hno : ∀ b ∈ l, pidAt m b ≠ some pid) (fuel i : Nat) :
    remove_task_find m pid fuel (some (cyc l i)) = none := by
  induction fuel generalizing i with
  | zero => rfl
  | succ fuel ih =>
    obtain ⟨r, hr, hnext⟩ := h.next_at m l hne i
    have h0 := hno _ (cyc_mem l hne i)
    simp only [pidAt, hr, Option.map_some', ne_eq, Option.some.injEq] at h0
    simp only [remove_task_find, hr, h0, if_false, hnext]
    exact ih (i + 1)

/-- From a position of a ring every other position is reached within fewer steps
than the ring has records, and not before. -/
theorem exists_distance (l : List Nat) (hn : l.Nodup) (i j : Nat) (hi : i < l.length)
    (hj : j < l.length) :
    ∃ d, d < l.length ∧ cyc l (i + d) = cyc l j ∧ ∀ t, t < d → cyc l (i + t) ≠ cyc l j := by
  have hmin : ∀ t, t < l.length → cyc l (i + t) = cyc l j → i + t = j ∨ i + t = j + l.length := by
    intro t ht he
    by_cases hlt : i + t < l.length
    · exact Or.inl (cyc_inj l hn _ _ hlt hj he)
    · have he2 : cyc l (i + t - l.length) = cyc l j := by
        rw [← cyc_add_length l (i + t - l.length), show i + t - l.length + l.length = i + t by omega]
        exact he
      have := cyc_inj l hn _ _ (by omega) hj he2
      exact Or.inr (by omega)
  by_cases hij : i ≤ j
  · refine ⟨j - i, by omega, by rw [show i + (j - i) = j by omega], fun t ht he => ?_⟩
    rcases hmin t (by omega) he with h1 | h1 <;> omega
  · refine ⟨j + l.length - i, by omega, ?_, fun t ht he => ?_⟩
    · rw [show i + (j + l.length - i) = j + l.length by omega, cyc_add_length]
    · rcases hmin t (by omega) he with h1 | h1 <;> omega

/-! ## Removing a record from a ring -/

theorem erase_isRotated (l rest : List Nat) (a j : Nat) (hn : l.Nodup) (hj : j < l.length)
    (hrot : l.rotate j = a :: rest) : l.erase a ~r rest := by
  rw [List.rotate_eq_drop_append_take (le_of_lt hj)] at hrot
  have hdrop : l.drop j ≠ [] := by
    intro he
    have := congrArg List.length he
    simp at this; omega
  obtain ⟨x, d, hd⟩ := List.exists_cons_of_ne_nil hdrop
  rw [hd, List.cons_append, List.cons.injEq] at hrot
  obtain ⟨rfl, rfl⟩ := hrot
  have hl : l = l.take j ++ x :: d := by rw [← hd, List.take_append_drop]
  have hnot : x ∉ l.take j := by
    rw [hl] at hn
    have := (List.nodup_append.mp hn).2.2
    intro hx
    exact this hx (List.mem_cons_self _ _)
  have herase : l.erase x = l.take j ++ d := by
    conv_lhs => rw [hl]
    rw [List.erase_append_right _ hnot, List.erase_cons_head]
  rw [herase]
  exact ⟨(l.take j).length, List.rotate_append_length_eq _ _⟩

/-- Unlinking the first record of a ring leaves the ring of the other records. -/
theorem ring_remove_head (m m3 : List Cell) (a : Nat) (rest : List Nat) (nx pv : Nat)
    (hring : IsRing m (a :: rest)) (hnx : nextOf m a = some nx) (hpv : prevOf m a = some pv)
    (hlen : m3.length = m.length) (hdead : liveAt m3 a = false)
    (hlive : ∀ b, b ≠ a → liveAt m3 b = liveAt m b)
    (hnext : ∀ b, nextOf m3 b = if b = pv then some nx else nextOf m b)
    (hprev : ∀ b, prevOf m3 b = if b = nx then some pv else prevOf m b) :
    IsRing m3 rest := by
  obtain ⟨hn, hl, hk, hw, hcl⟩ := (isRing_iff_links m (a :: rest)).mp hring
  have hnr : rest.Nodup := (List.nodup_cons.mp hn).2
  have hna : a ∉ rest := (List.nodup_cons.mp hn).1
  have hg : ∀ i, (a :: rest).getD (i + 1) 0 = rest.getD i 0 := fun i => by
    simp [List.getD_eq_getElem?_getD]
  have hg0 : (a :: rest).getD 0 0 = a := rfl
  rw [isRing_iff_links]
  have hclose : ∀ b, b < m3.length → liveAt m3 b = true → b ∈ rest := by
    intro b hb hlv
    have hba : b ≠ a := fun he => by rw [he, hdead] at hlv; exact absurd hlv (by simp)
    rw [hlive b hba] at hlv
    rcases List.mem_cons.mp (hcl b (hlen ▸ hb) hlv) with h1 | h1
    · exact absurd h1 hba
    · exact h1
  by_cases hne : rest = []
  · subst hne
    exact ⟨hnr, fun i hi => absurd hi (Nat.not_lt_zero _), fun i hi => by simp at hi,
      fun h0 => absurd h0 (by simp), hclose⟩
  have hpos : 0 < rest.length := List.length_pos.mpr hne
  -- the neighbours of `a`
  have hnx1 : nx = rest.getD 0 0 := by
    have := (hk 0 (by simp; omega)).1
    rw [hg0, hg, hnx] at this
    exact Option.some.inj this
  have hpv1 : pv = rest.getD (rest.length - 1) 0 := by
    have := (hw (by simp)).2
    have e : (a :: rest).getD ((a :: rest).length - 1) 0 = rest.getD (rest.length - 1) 0 := by
      have e1 : (a :: rest).length - 1 = rest.length - 1 + 1 := by
        simp only [List.length_cons]; omega
      rw [e1, hg]
    rw [e, hg0, hpv] at this
    exact Option.some.inj this
  refine ⟨hnr, fun i hi => ?_, fun i hi => ?_, fun _ => ?_, hclose⟩
  · have hmem := getD_mem rest i hi
    rw [hlive _ (fun he => hna (he ▸ hmem)), ← hg]
    exact hl (i + 1) (by simp; omega)
  · have hne1 : rest.getD i 0 ≠ pv := fun he => by
      rw [hpv1] at he
      have := getD_inj rest hnr _ _ (by omega) (by omega) he
      omega
    have hne2 : rest.getD (i + 1) 0 ≠ nx := fun he => by
      rw [hnx1] at he
      have := getD_inj rest hnr _ _ hi hpos he
      omega
    rw [Link, hnext, hprev, if_neg hne1, if_neg hne2, ← hg, ← hg (i + 1)]
    exact hk (i + 1) (by simp; omega)
  · rw [Link, hnext, hprev, ← hpv1, ← hnx1, if_pos rfl, if_pos rfl]
    exact ⟨rfl, rfl⟩

end Scheduler

namespace Scheduler

theorem pidAt_eq_fieldsAt (m : List Cell) (a : Nat) :
    pidAt m a = (fieldsAt m a).map (fun f => f.task_pid) := by
  simp only [pidAt, fieldsAt, Option.map_map]
  rfl

/-- The function `remove_task` on a well-formed registry with pairwise different
process ids, for the process id of the record `a`: it returns when the fuel is at
least the number of records, the other records form a ring in the old order, and
the record `a` is freed with its fields left in place. -/
theorem remove_task_ring (s : State) (l : List Nat) (pid : Int) (a fuel : Nat)
    (hwf : WellFormed s l) (hd : DistinctPids s.mem l) (ha : a ∈ l)
    (hpid : pidAt s.mem a = some pid) (hfuel : l.length ≤ fuel) :
    ∃ s1, remove_task fuel s pid = some s1 ∧
      s1.list_head = s.list_head ∧ s1.list_tail = s.list_tail ∧
      s1.curr_task = s.curr_task ∧ s1.running_tasks = s.running_tasks ∧
      s1.created_tasks = s.created_tasks ∧ s1.trace = s.trace ∧
      IsRing s1.mem (l.erase a) ∧ liveAt s1.mem a = false ∧
      (∀ b, fieldsAt s1.mem b = fieldsAt s.mem b) ∧
      nextOf s1.mem a = nextOf s.mem a := by
  obtain ⟨hring, hne, hrun, _⟩ := hwf
  obtain ⟨i0, hi0, hcur⟩ := WellFormed.curr s l ⟨hring, hne, hrun, ‹_›⟩
  obtain ⟨j, hj, rfl⟩ := exists_cyc_of_mem l a ha
  have hn := hring.1
  obtain ⟨d, hdl, hdeq, hdmin⟩ := exists_distance l hn i0 j hi0 hj
  -- the search stops at the record
  have hfind : remove_task_find s.mem pid fuel s.curr_task = some (some (cyc l j)) := by
    rw [hcur, remove_task_find_ring s.mem l hring hne pid d i0 fuel (by omega) ?_
      (by rw [hdeq]; exact hpid), hdeq]
    intro t ht he
    have hx : cyc l (i0 + t) ∈ l := cyc_mem l hne _
    have := List.inj_on_of_nodup_map hd hx (cyc_mem l hne j) (by rw [he, hpid])
    exact hdmin t ht this
  -- its neighbours
  obtain ⟨t, hload, hnext⟩ := hring.next_at s.mem l hne j
  have hpos : 0 < l.length := List.length_pos.mpr hne
  obtain ⟨t1, hload1, hprev⟩ := hring.prev_at s.mem l hne (j + l.length - 1)
  rw [show j + l.length - 1 + 1 = j + l.length by omega, cyc_add_length, hload] at hload1
  simp only [Option.some.injEq] at hload1
  subst hload1
  have hlv : ∀ i, cyc l i < s.mem.length := fun i =>
    lt_length_of_liveAt _ _ (hring.at s.mem l hne i).1
  obtain ⟨s1, hs1, g1, g2, g3, g4, g5, g6, hlen, hdead, hlive, hmem⟩ :=
    remove_task_mem fuel s pid (cyc l j) (cyc l (j + 1)) (cyc l (j + l.length - 1)) t
      hfind hload hnext hprev (hlv _) (hlv _) (hring.at s.mem l hne j).1
  refine ⟨s1, hs1, g1, g2, g3, g4, g5, g6, ?_, hdead, fun b => (hmem b).1, ?_⟩
  · -- the ring, rotated so that it starts with the record
    have hrne : l.rotate j ≠ [] := by
      intro he
      have := congrArg List.length he
      rw [List.length_rotate, List.length_nil] at this
      omega
    obtain ⟨x, rest, hrot⟩ := List.exists_cons_of_ne_nil hrne
    have hx : x = cyc l j := by
      have h0 : cyc (l.rotate j) 0 = x := by
        rw [hrot]; simp [cyc, List.getD_eq_getElem?_getD]
      rw [← h0, cyc_rotate, Nat.zero_add]
    subst hx
    have hr := hring.rotate s.mem l j
    rw [hrot] at hr
    have hrest := ring_remove_head s.mem s1.mem (cyc l j) rest _ _ hr
      (by rw [nextOf_eq_load, hload]; exact hnext)
      (by rw [prevOf_eq_load, hload]; exact hprev)
      hlen hdead hlive (fun b => (hmem b).2.1) (fun b => (hmem b).2.2)
    exact hrest.of_isRotated s1.mem rest _ (erase_isRotated l rest _ j hn hj hrot).symm
  · rw [(hmem _).2.1]
    split
    · rw [nextOf_eq_load, hload]; exact hnext.symm
    · rfl

/-- C6: on a well-formed registry whose records carry pairwise different process
ids, `remove_task` called with the process id of a registered record `a` returns
(the fuel being at least the number of records) and unlinks exactly that record:
the other records, in their old circular order, form the ring of the new heap and
keep their fields, the record `a` is freed, and the globals are as before.
No record of the new registry carries the process id, and the search for it from
any record of the new registry finds no record, with whatever fuel. -/
theorem remove_task_unlinks (s : State) (l : List Nat) (pid : Int) (a fuel : Nat)
    (hwf : WellFormed s l) (hd : DistinctPids s.mem l) (ha : a ∈ l)
    (hpid : pidAt s.mem a = some pid) (hfuel : l.length ≤ fuel) :
    ∃ s1, remove_task fuel s pid = some s1 ∧
      IsRing s1.mem (l.erase a) ∧ liveAt s1.mem a = false ∧
      (∀ b ∈ l.erase a, fieldsAt s1.mem b = fieldsAt s.mem b) ∧
      (∀ b ∈ l.erase a, pidAt s1.mem b ≠ some pid) ∧
      (∀ b ∈ l.erase a, ∀ fuel1, remove_task_find s1.mem pid fuel1 (some b) = none) ∧
      s1.list_head = s.list_head ∧ s1.list_tail = s.list_tail ∧
      s1.curr_task = s.curr_task ∧ s1.running_tasks = s.running_tasks ∧
      s1.created_tasks = s.created_tasks ∧ s1.trace = s.trace := by
  obtain ⟨s1, hs1, g1, g2, g3, g4, g5, g6, hring1, hdead, hf, _⟩ :=
    remove_task_ring s l pid a fuel hwf hd ha hpid hfuel
  have hn := hwf.1.1
  have hnopid : ∀ b ∈ l.erase a, pidAt s1.mem b ≠ some pid := by
    intro b hb he
    rw [pidAt_eq_fieldsAt, hf b, ← pidAt_eq_fieldsAt] at he
    have hbl : b ∈ l := List.mem_of_mem_erase hb
    have hba : b = a := List.inj_on_of_nodup_map hd hbl ha (by rw [he, hpid])
    rw [hba] at hb
    exact (List.Nodup.not_mem_erase hn) hb
  refine ⟨s1, hs1, hring1, hdead, fun b _ => hf b, hnopid, ?_, g1, g2, g3, g4, g5, g6⟩
  intro b hb fuel1
  have hne1 : l.erase a ≠ [] := List.ne_nil_of_mem hb
  obtain ⟨i, _, rfl⟩ := exists_cyc_of_mem _ b hb
  exact remove_task_find_none s1.mem _ hring1 hne1 pid hnopid fuel1 i

/-- C6, at an example: the record of process 102 is removed from `exampleLow`. -/
theorem remove_task_unlinks_witness :
    (WellFormed exampleLow [0, 1, 2] ∧ DistinctPids exampleLow.mem [0, 1, 2] ∧
      2 ∈ [0, 1, 2] ∧ pidAt exampleLow.mem 2 = some 102 ∧
      ([0, 1, 2] : List Nat).length ≤ 3) ∧
    ∃ s1, remove_task 3 exampleLow 102 = some s1 ∧
      IsRing s1.mem ([0, 1, 2].erase 2) ∧ liveAt s1.mem 2 = false ∧
      (∀ b ∈ [0, 1, 2].erase 2, fieldsAt s1.mem b = fieldsAt exampleLow.mem b) ∧
      (∀ b ∈ [0, 1, 2].erase 2, pidAt s1.mem b ≠ some 102) ∧
      (∀ b ∈ [0, 1, 2].erase 2, ∀ fuel1,
        remove_task_find s1.mem 102 fuel1 (some b) = none) ∧
      s1.list_head = exampleLow.list_head ∧ s1.list_tail = exampleLow.list_tail ∧
      s1.curr_task = exampleLow.curr_task ∧
      s1.running_tasks = exampleLow.running_tasks ∧
      s1.created_tasks = exampleLow.created_tasks ∧ s1.trace = exampleLow.trace :=
  ⟨by decide, remove_task_unlinks exampleLow [0, 1, 2] 102 2 3 (by decide) (by decide)
    (by decide) (by decide) (by decide)⟩

end Scheduler

namespace Scheduler

/-- The state `shellGone` is reached when `main` has started the shell and one
task and the exit of the shell has been handled. -/
theorem reachable_shellGone : Reachable exampleCodes shellGone :=
  Reachable.step bootOne shellGone
    (Reachable.boot [[1], [65]] 100 [101] bootOne (by decide) (by decide))
    (Step.child bootOne shellGone 2 100 (wstatus.exited 0) (by decide) (by decide))

/-- C7 fails on the code.  `main` starts the shell (process 100, serial id 0) and
one task (process 101, serial id 1); the shell exits and `sigchld_handler`
removes its record, which is the head of the list.  `remove_task` leaves
`list_head` pointing to the freed record, so in the state reached the scan from
`list_head` over `running_tasks = 1` records visits the freed record of the shell
and not the record of the registered task: `sched_print_tasks` prints the line
of the shell, the lookup of the serial id 1 of the registered task fails (both
`sched_kill_task_by_id` and `prioritize_task` return 1), and the lookup of the
serial id 0, which no registered task carries, succeeds (`sched_kill_task_by_id`
returns 0 and sends SIGKILL to process 100). -/
theorem scan_from_freed_head :
    Reachable exampleCodes shellGone ∧
    shellGone.list_head = some 0 ∧ liveAt shellGone.mem 0 = false ∧
    liveAt shellGone.mem 1 = true ∧ noAt shellGone.mem 1 = some 1 ∧
    (∀ a, liveAt shellGone.mem a = true → noAt shellGone.mem a ≠ some 0) ∧
    registry shellGone = some [{ task_no := 0, task_pid := 100,
                                 exec_name := SHELL_EXECUTABLE_NAME,
                                 priority := prio.LOW }] ∧
    sched_print_tasks shellGone = some [{ task_no := 0, task_pid := 100,
                                          exec_name := SHELL_EXECUTABLE_NAME,
                                          priority := prio.LOW,
                                          currently_running := false }] ∧
    sched_kill_task_by_id shellGone 1 = some (1, shellGone) ∧
    prioritize_task shellGone 1 prio.HIGH = some (1, shellGone) ∧
    sched_kill_task_by_id shellGone 0 =
      some (0, { shellGone with
                   trace := shellGone.trace ++ [Sys.kill 100 Signal.SIGKILL] }) := by
  refine ⟨reachable_shellGone, by decide, by decide, by decide, by decide, ?_, by decide,
    by decide, by decide, by decide, by decide⟩
  intro a ha
  have hlt := lt_length_of_liveAt _ _ ha
  have h2 : a < 2 := hlt
  interval_cases a
  · exact absurd ha (by decide)
  · decide

end Scheduler

namespace Scheduler

/-! ## The scans from `list_head` -/

/-- In the walk that starts at position `j` of a non-empty ring, a property that
some record has is met for the first time at a distance below the length. -/
theorem exists_first (l : List Nat) (hne : l ≠ []) (P : Nat → Prop) (j : Nat)
    (hex : ∃ a ∈ l, P a) :
    ∃ d, d < l.length ∧ P (cyc l (j + d)) ∧ ∀ t, t < d → ¬ P (cyc l (j + t)) := by
  classical
  have hpos : 0 < l.length := List.length_pos.mpr hne
  obtain ⟨a, ha, hP⟩ := hex
  obtain ⟨i, hi, rfl⟩ := exists_cyc_of_mem l a ha
  have hsome : ∃ d, d < l.length ∧ P (cyc l (j + d)) := by
    refine ⟨(i + l.length - j % l.length) % l.length, Nat.mod_lt _ hpos, ?_⟩
    have hj : j % l.length < l.length := Nat.mod_lt _ hpos
    have : cyc l (j + (i + l.length - j % l.length) % l.length) = cyc l i := by
      rw [← cyc_mod l (j + _), Nat.add_mod_mod, ← Nat.mod_add_mod,
        show j % l.length + (i + l.length - j % l.length) = i + l.length by omega,
        cyc_mod, cyc_add_length]
    rw [this]; exact hP
  refine ⟨Nat.find hsome, (Nat.find_spec hsome).1, (Nat.find_spec hsome).2, ?_⟩
  intro t ht hPt
  exact Nat.find_min hsome ht ⟨lt_trans ht (Nat.find_spec hsome).1, hPt⟩

theorem noAt_ring (m : List Cell) (l : List Nat) (h : IsRing m l) (hne : l ≠ []) (i : Nat) :
    ∃ r, load m (some (cyc l i)) = some r ∧ r.next = some (cyc l (i + 1)) ∧
      noAt m (cyc l i) = some r.task_no ∧ pidAt m (cyc l i) = some r.task_pid := by
  obtain ⟨r, hr, hnext⟩ := h.next_at m l hne i
  exact ⟨r, hr, hnext, by simp [noAt, hr], by simp [pidAt, hr]⟩

/-- The loop of `sched_kill_task_by_id` runs to its end when none of the `k`
records it visits carries the serial id. -/
theorem sched_kill_task_by_id_loop_none (m : List Cell) (l : List Nat) (h : IsRing m l)
    (hne : l ≠ []) (id : Int) (k j : Nat)
    (hno : ∀ t, t < k → noAt m (cyc l (j + t)) ≠ some id) :
    sched_kill_task_by_id_loop m id k (some (cyc l j)) = some none := by
  induction k generalizing j with
  | zero => rfl
  | succ k ih =>
    obtain ⟨r, hr, hnext, hno0, _⟩ := noAt_ring m l h hne j
    have h0 := hno 0 (Nat.succ_pos _)
    rw [Nat.add_zero, hno0] at h0
    have h1 : ¬ r.task_no = id := fun he => h0 (by rw [he])
    simp only [sched_kill_task_by_id_loop, hr, h1, if_false, hnext]
    apply ih
    intro t ht
    have := hno (t + 1) (by omega)
    rwa [show j + (t + 1) = j + 1 + t by omega] at this

/-- The loop of `sched_kill_task_by_id` stops at the first record that carries
the serial id and yields its process id. -/
theorem sched_kill_task_by_id_loop_found (m : List Cell) (l : List Nat) (h : IsRing m l)
    (hne : l ≠ []) (id : Int) (k j d : Nat) (hd : d < k)
    (hno : ∀ t, t < d → noAt m (cyc l (j + t)) ≠ some id)
    (hyes : noAt m (cyc l (j + d)) = some id) :
    ∃ q, pidAt m (cyc l (j + d)) = some q ∧
      sched_kill_task_by_id_loop m id k (some (cyc l j)) = some (some q) := by
  induction d generalizing j k with
  | zero =>
    obtain ⟨k, rfl⟩ : ∃ k1, k = k1 + 1 := ⟨k - 1, by omega⟩
    obtain ⟨r, hr, hnext, hno0, hpid0⟩ := noAt_ring m l h hne j
    rw [Nat.add_zero, hno0, Option.some.injEq] at hyes
    exact ⟨r.task_pid, hpid0, by simp [sched_kill_task_by_id_loop, hr, hyes]⟩
  | succ d ih =>
    obtain ⟨k, rfl⟩ : ∃ k1, k = k1 + 1 := ⟨k - 1, by omega⟩
    obtain ⟨r, hr, hnext, hno0, _⟩ := noAt_ring m l h hne j
    have h0 := hno 0 (Nat.succ_pos _)
    rw [Nat.add_zero, hno0] at h0
    have h1 : ¬ r.task_no = id := fun he => h0 (by rw [he])
    obtain ⟨q, hq, hloop⟩ := ih (k := k) (j := j + 1) (by omega)
      (fun t ht => by
        have := hno (t + 1) (by omega)
        rwa [show j + (t + 1) = j + 1 + t by omega] at this)
      (by rwa [show j + 1 + d = j + (d + 1) by omega])
    refine ⟨q, by rwa [show j + (d + 1) = j + 1 + d by omega], ?_⟩
    simp only [sched_kill_task_by_id_loop, hr, h1, if_false, hnext]
    exact hloop

/-- The loop of `prioritize_task` runs to its end when none of the `k` records it
visits carries the serial id. -/
theorem prioritize_task_loop_none (m : List Cell) (l : List Nat) (h : IsRing m l)
    (hne : l ≠ []) (id : Int) (k j : Nat)
    (hno : ∀ t, t < k → noAt m (cyc l (j + t)) ≠ some id) :
    prioritize_task_loop m id k (some (cyc l j)) = some none := by
  induction k generalizing j with
  | zero => rfl
  | succ k ih =>
    obtain ⟨r, hr, hnext, hno0, _⟩ := noAt_ring m l h hne j
    have h0 := hno 0 (Nat.succ_pos _)
    rw [Nat.add_zero, hno0] at h0
    have h1 : ¬ r.task_no = id := fun he => h0 (by rw [he])
    simp only [prioritize_task_loop, hr, h1, if_false, hnext]
    apply ih
    intro t ht
    have := hno (t + 1) (by omega)
    rwa [show j + (t + 1) = j + 1 + t by omega] at this

/-- The loop of `prioritize_task` stops at the first record that carries the
serial id. -/
theorem prioritize_task_loop_found (m : List Cell) (l : List Nat) (h : IsRing m l)
    (hne : l ≠ []) (id : Int) (k j d : Nat) (hd : d < k)
    (hno : ∀ t, t < d → noAt m (cyc l (j + t)) ≠ some id)
    (hyes : noAt m (cyc l (j + d)) = some id) :
    prioritize_task_loop m id k (some (cyc l j)) = some (some (some (cyc l (j + d)))) := by
  induction d generalizing j k with
  | zero =>
    obtain ⟨k, rfl⟩ : ∃ k1, k = k1 + 1 := ⟨k - 1, by omega⟩
    obtain ⟨r, hr, hnext, hno0, _⟩ := noAt_ring m l h hne j
    rw [Nat.add_zero, hno0, Option.some.injEq] at hyes
    simp [prioritize_task_loop, hr, hyes]
  | succ d ih =>
    obtain ⟨k, rfl⟩ : ∃ k1, k = k1 + 1 := ⟨k - 1, by omega⟩
    obtain ⟨r, hr, hnext, hno0, _⟩ := noAt_ring m l h hne j
    have h0 := hno 0 (Nat.succ_pos _)
    rw [Nat.add_zero, hno0] at h0
    have h1 : ¬ r.task_no = id := fun he => h0 (by rw [he])
    simp only [prioritize_task_loop, hr, h1, if_false, hnext]
    rw [ih (k := k) (j := j + 1) (by omega)
      (fun t ht => by
        have := hno (t + 1) (by omega)
        rwa [show j + (t + 1) = j + 1 + t by omega] at this)
      (by rwa [show j + 1 + d = j + (d + 1) by omega]),
      show j + 1 + d = j + (d + 1) by omega]

/-- The loop of `sched_print_tasks` over the records of a ring returns. -/
theorem sched_print_tasks_loop_ring (s : State) (l : List Nat) (h : IsRing s.mem l)
    (hne : l ≠ []) (c : task_t) (hc : load s.mem s.curr_task = some c) (k j : Nat) :
    ∃ lines, sched_print_tasks_loop s k (some (cyc l j)) = some lines ∧ lines.length = k := by
  induction k generalizing j with
  | zero => exact ⟨[], rfl, rfl⟩
  | succ k ih =>
    obtain ⟨r, hr, hnext⟩ := h.next_at s.mem l hne j
    obtain ⟨lines, hl, hlen⟩ := ih (j + 1)
    refine ⟨{ task_no := r.task_no, task_pid := r.task_pid, exec_name := r.exec_name,
              priority := r.priority,
              currently_running := decide (r.task_no = c.task_no) } :: lines, ?_, ?_⟩
    · simp [sched_print_tasks_loop, hr, hc, hnext, hl, bind, pure]
    · simp [hlen]

/-- In a well-formed registry whose head is `list_head`, the head is the record
at position 0 and `running_tasks` is the length. -/
theorem WellFormed.head (s : State) (l : List Nat) (hwf : WellFormed s l)
    (hh : HeadOk s l) :
    s.list_head = some (cyc l 0) ∧ s.running_tasks.toNat = l.length := by
  obtain ⟨_, hne, hrun, _⟩ := hwf
  have hpos : 0 < l.length := List.length_pos.mpr hne
  refine ⟨?_, by rw [hrun]; simp⟩
  rw [hh, head?_eq_getD l hne]
  simp [cyc, Nat.mod_eq_of_lt hpos]

end Scheduler

namespace Scheduler

/-- C8: on a well-formed registry whose head is `list_head`, for a serial id that
no registered task carries, `sched_kill_task_by_id` returns 1 and the state is
the one before the call: no `kill` has been logged in `trace`, and the heap,
`list_head`, `list_tail`, `curr_task`, `running_tasks` and `created_tasks` are
unchanged. -/
theorem sched_kill_task_by_id_not_found (s : State) (l : List Nat) (id : Int)
    (hwf : WellFormed s l) (hh : HeadOk s l) (hno : ∀ a ∈ l, noAt s.mem a ≠ some id) :
    sched_kill_task_by_id s id = some (1, s) := by
  obtain ⟨hhead, hrun⟩ := hwf.head s l hh
  have hloop := sched_kill_task_by_id_loop_none s.mem l hwf.1 hwf.2.1 id l.length 0
    (fun t _ => hno _ (cyc_mem l hwf.2.1 _))
  simp [sched_kill_task_by_id, hhead, hrun, hloop, bind, pure]

/-- C8, at an example: no record of `exampleLow` carries the serial id 7. -/
theorem sched_kill_task_by_id_not_found_witness :
    (WellFormed exampleLow [0, 1, 2] ∧ HeadOk exampleLow [0, 1, 2] ∧
      ∀ a ∈ [0, 1, 2], noAt exampleLow.mem a ≠ some 7) ∧
    sched_kill_task_by_id exampleLow 7 = some (1, exampleLow) :=
  ⟨by decide, sched_kill_task_by_id_not_found exampleLow [0, 1, 2] 7 (by decide) (by decide)
    (by decide)⟩

/-! ## Changing a priority -/

/-- Setting the priority of a record changes that priority and nothing else. -/
theorem store_priority (m m1 : List Cell) (p : Nat) (np : prio)
    (h : store m (some p) (fun t => { t with priority := np }) = some m1) :
    m1.length = m.length ∧
    (∀ b, liveAt m1 b = liveAt m b ∧ nextOf m1 b = nextOf m b ∧ prevOf m1 b = prevOf m b ∧
      noAt m1 b = noAt m b ∧ pidAt m1 b = pidAt m b) ∧
    prioAt m1 (some p) = some np ∧
    (∀ b, b ≠ p → load m1 (some b) = load m (some b)) := by
  obtain ⟨hlen, hlive, hload⟩ := store_load _ _ _ _ h
  obtain ⟨r, hr⟩ : ∃ r, load m (some p) = some r := by
    obtain ⟨a, c, ha, hc, _⟩ := store_spec _ _ _ _ h
    simp only [Option.some.injEq] at ha
    subst ha
    exact ⟨_, load_some _ _ _ hc⟩
  refine ⟨hlen, fun b => ⟨hlive b, ?_, ?_, ?_, ?_⟩, ?_, fun b hb => by rw [hload, if_neg hb]⟩
  · rw [nextOf_eq_load, nextOf_eq_load, hload]
    split
    · subst_vars; simp [hr]
    · rfl
  · rw [prevOf_eq_load, prevOf_eq_load, hload]
    split
    · subst_vars; simp [hr]
    · rfl
  · simp only [noAt, hload]
    split
    · subst_vars; simp [hr]
    · rfl
  · simp only [pidAt, hload]
    split
    · subst_vars; simp [hr]
    · rfl
  · simp [prioAt, hload, hr]

/-- A heap with the same links and the same allocated records has the same rings. -/
theorem IsRing.congr (m m1 : List Cell) (l : List Nat) (h : IsRing m l)
    (hlen : m1.length = m.length)
    (hsame : ∀ b, liveAt m1 b = liveAt m b ∧ nextOf m1 b = nextOf m b ∧
      prevOf m1 b = prevOf m b) : IsRing m1 l := by
  refine ⟨h.1, fun i hi => ?_, fun a ha hl => ?_⟩
  · rw [(hsame _).1, (hsame _).2.1, (hsame _).2.2]
    exact h.2.1 i hi
  · rw [(hsame a).1] at hl
    exact h.2.2 a (hlen ▸ ha) hl

/-- On a well-formed registry whose head is `list_head`, `prioritize_task` for a
registered serial id sets the priority of the first record that carries it, and
returns 0. -/
theorem prioritize_task_found (s : State) (l : List Nat) (id : Int) (np : prio)
    (hwf : WellFormed s l) (hh : HeadOk s l) (hreg : ∃ a ∈ l, noAt s.mem a = some id) :
    ∃ d m1, d < l.length ∧ noAt s.mem (cyc l d) = some id ∧
      (∀ t, t < d → noAt s.mem (cyc l t) ≠ some id) ∧
      store s.mem (some (cyc l d)) (fun t => { t with priority := np }) = some m1 ∧
      prioritize_task s id np = some (0, { s with mem := m1 }) := by
  obtain ⟨hhead, hrun⟩ := hwf.head s l hh
  obtain ⟨d, hd, hyes, hno⟩ := exists_first l hwf.2.1 (fun a => noAt s.mem a = some id) 0 hreg
  simp only [Nat.zero_add] at hyes hno
  have hloop := prioritize_task_loop_found s.mem l hwf.1 hwf.2.1 id l.length 0 d hd
    (by simpa using hno) (by simpa using hyes)
  rw [Nat.zero_add] at hloop
  obtain ⟨m1, hm1⟩ := store_isSome s.mem (cyc l d) (fun t => { t with priority := np })
    (lt_length_of_liveAt _ _ (hwf.1.at s.mem l hwf.2.1 d).1)
  refine ⟨d, m1, hd, hyes, hno, hm1, ?_⟩
  simp [prioritize_task, hhead, hrun, hloop, hm1, bind, pure]

/-- On a well-formed registry whose head is `list_head`, `prioritize_task` for a
serial id that no registered task carries returns 1 and changes nothing. -/
theorem prioritize_task_not_found (s : State) (l : List Nat) (id : Int) (np : prio)
    (hwf : WellFormed s l) (hh : HeadOk s l) (hno : ∀ a ∈ l, noAt s.mem a ≠ some id) :
    prioritize_task s id np = some (1, s) := by
  obtain ⟨hhead, hrun⟩ := hwf.head s l hh
  have hloop := prioritize_task_loop_none s.mem l hwf.1 hwf.2.1 id l.length 0
    (fun t _ => hno _ (cyc_mem l hwf.2.1 _))
  simp [prioritize_task, hhead, hrun, hloop, bind, pure]

theorem set_same (m : List Cell) (a : Nat) (c : Cell) (h : m[a]? = some c) :
    m.set a c = m := by
  apply List.ext_getElem?
  intro i
  rw [List.getElem?_set]
  split
  · subst_vars
    have hlt := (List.getElem?_eq_some.mp h).1
    simp [hlt, h]
  · rfl

end Scheduler

namespace Scheduler

theorem request_codes.ne (K : request_codes) (hK : K.distinct) :
    K.REQ_KILL_TASK ≠ K.REQ_PRINT_TASKS ∧ K.REQ_EXEC_TASK ≠ K.REQ_PRINT_TASKS ∧
    K.REQ_EXEC_TASK ≠ K.REQ_KILL_TASK ∧ K.REQ_HIGH_TASK ≠ K.REQ_PRINT_TASKS ∧
    K.REQ_HIGH_TASK ≠ K.REQ_KILL_TASK ∧ K.REQ_HIGH_TASK ≠ K.REQ_EXEC_TASK ∧
    K.REQ_LOW_TASK ≠ K.REQ_PRINT_TASKS ∧ K.REQ_LOW_TASK ≠ K.REQ_KILL_TASK ∧
    K.REQ_LOW_TASK ≠ K.REQ_EXEC_TASK ∧ K.REQ_LOW_TASK ≠ K.REQ_HIGH_TASK := by
  simp only [request_codes.distinct, List.nodup_cons, List.mem_cons, List.mem_singleton,
    not_or, List.not_mem_nil, not_false_eq_true, List.nodup_nil, and_true] at hK
  obtain ⟨⟨h1, h2, h3, h4⟩, ⟨h5, h6, h7⟩, ⟨h8, h9⟩, h10⟩ := hK
  exact ⟨Ne.symm h1, Ne.symm h2, Ne.symm h5, Ne.symm h3, Ne.symm h6, Ne.symm h8, Ne.symm h4,
    Ne.symm h7, Ne.symm h9, Ne.symm h10⟩

theorem process_request_high (K : request_codes) (hK : K.distinct) (s : State) (id : Int)
    (arg : List Nat) (pid : Int) :
    process_request K s { request_no := K.REQ_HIGH_TASK, task_arg := id,
                          exec_task_arg := arg } pid =
      (prioritize_task s id prio.HIGH).map (fun r => Outcome.ret r.1 r.2) := by
  obtain ⟨_, _, _, h4, h5, h6, _⟩ := K.ne hK
  simp [process_request, h4, h5, h6]

theorem process_request_low (K : request_codes) (hK : K.distinct) (s : State) (id : Int)
    (arg : List Nat) (pid : Int) :
    process_request K s { request_no := K.REQ_LOW_TASK, task_arg := id,
                          exec_task_arg := arg } pid =
      (prioritize_task s id prio.LOW).map (fun r => Outcome.ret r.1 r.2) := by
  obtain ⟨_, _, _, _, _, _, h7, h8, h9, h10⟩ := K.ne hK
  simp [process_request, h7, h8, h9, h10]

/-- C9, as amended: on a well-formed registry whose head is `list_head`, for a
registered serial id, a raise-priority request followed by a lower-priority
request both reply 0; they act on the same record `p`, the first one that
carries the serial id, which has priority HIGH in between and LOW at the end,
and no other record is changed.  If the priority of `p` was LOW before the raise,
the final state is the state before the raise, and `next_task` returns the same
record as before. -/
theorem raise_then_lower (K : request_codes) (hK : K.distinct) (s : State) (l : List Nat)
    (id : Int) (arg1 arg2 : List Nat) (pid1 pid2 : Int)
    (hwf : WellFormed s l) (hh : HeadOk s l) (hreg : ∃ a ∈ l, noAt s.mem a = some id) :
    ∃ s1 s2 p,
      process_request K s { request_no := K.REQ_HIGH_TASK, task_arg := id,
                            exec_task_arg := arg1 } pid1 = some (Outcome.ret 0 s1) ∧
      process_request K s1 { request_no := K.REQ_LOW_TASK, task_arg := id,
                             exec_task_arg := arg2 } pid2 = some (Outcome.ret 0 s2) ∧
      p ∈ l ∧ noAt s.mem p = some id ∧
      prioAt s1.mem (some p) = some prio.HIGH ∧ prioAt s2.mem (some p) = some prio.LOW ∧
      (∀ b, b ≠ p → load s2.mem (some b) = load s.mem (some b)) ∧
      (prioAt s.mem (some p) = some prio.LOW → s2 = s ∧ next_task s2 = next_task s) := by
  obtain ⟨d, m1, hd, hyes, hno, hm1, hp1⟩ :=
    prioritize_task_found s l id prio.HIGH hwf hh hreg
  obtain ⟨hlen1, hsame1, hprio1, hother1⟩ := store_priority _ _ _ _ hm1
  have hwf1 : WellFormed { s with mem := m1 } l :=
    ⟨hwf.1.congr s.mem m1 l hlen1 (fun b => ⟨(hsame1 b).1, (hsame1 b).2.1, (hsame1 b).2.2.1⟩),
      hwf.2.1, hwf.2.2.1, hwf.2.2.2⟩
  have hh1 : HeadOk { s with mem := m1 } l := hh
  obtain ⟨d2, m2, hd2, hyes2, hno2, hm2, hp2⟩ :=
    prioritize_task_found { s with mem := m1 } l id prio.LOW hwf1 hh1
      ⟨cyc l d, cyc_mem l hwf.2.1 d, by rw [(hsame1 _).2.2.2.1]; exact hyes⟩
  have hdd : d2 = d := by
    rcases Nat.lt_trichotomy d2 d with h | h | h
    · exact absurd (by rw [← (hsame1 _).2.2.2.1]; exact hyes2) (hno d2 h)
    · exact h
    · exact absurd (by rw [(hsame1 _).2.2.2.1]; exact hyes) (hno2 d h)
  subst hdd
  simp only at hm2 hp2 hyes2
  obtain ⟨hlen2, hsame2, hprio2, hother2⟩ := store_priority _ _ _ _ hm2
  refine ⟨{ s with mem := m1 }, { s with mem := m2 }, cyc l d2, ?_, ?_, cyc_mem l hwf.2.1 d2,
    hyes, hprio1, hprio2, fun b hb => by rw [hother2 b hb, hother1 b hb], ?_⟩
  · rw [process_request_high K hK, hp1]; rfl
  · rw [process_request_low K hK, hp2]; rfl
  · intro hlow
    have hm : m2 = s.mem := by
      obtain ⟨a, c, ha, hc, e1⟩ := store_spec _ _ _ _ hm1
      obtain ⟨a2, c2, ha2, hc2, e2⟩ := store_spec _ _ _ _ hm2
      simp only [Option.some.injEq] at ha ha2
      subst ha ha2
      have hlt : cyc l d2 < s.mem.length := (List.getElem?_eq_some.mp hc).1
      rw [e1, List.getElem?_set_self hlt, Option.some.injEq] at hc2
      subst hc2
      rw [e2, e1, List.set_set]
      simp only [prioAt, load, hc, Option.map_some', Option.some.injEq] at hlow
      apply set_same _ _ _
      rw [hc]
      congr 1
      cases c with
      | mk v lv =>
        cases v
        simp only at hlow
        simp [hlow]
    have hs : ({ s with mem := m2 } : State) = s := by rw [hm]
    exact ⟨hs, by rw [hs]⟩

/-- C9, at an example: the serial id 1 of `exampleLow`. -/
theorem raise_then_lower_witness :
    (exampleCodes.distinct ∧ WellFormed exampleLow [0, 1, 2] ∧ HeadOk exampleLow [0, 1, 2] ∧
      ∃ a ∈ [0, 1, 2], noAt exampleLow.mem a = some 1) ∧
    ∃ s1 s2 p,
      process_request exampleCodes exampleLow
        { request_no := exampleCodes.REQ_HIGH_TASK, task_arg := 1,
          exec_task_arg := [] } 0 = some (Outcome.ret 0 s1) ∧
      process_request exampleCodes s1
        { request_no := exampleCodes.REQ_LOW_TASK, task_arg := 1,
          exec_task_arg := [] } 0 = some (Outcome.ret 0 s2) ∧
      p ∈ [0, 1, 2] ∧ noAt exampleLow.mem p = some 1 ∧
      prioAt s1.mem (some p) = some prio.HIGH ∧ prioAt s2.mem (some p) = some prio.LOW ∧
      (∀ b, b ≠ p → load s2.mem (some b) = load exampleLow.mem (some b)) ∧
      (prioAt exampleLow.mem (some p) = some prio.LOW →
        s2 = exampleLow ∧ next_task s2 = next_task exampleLow) :=
  ⟨by decide, raise_then_lower exampleCodes (by decide) exampleLow [0, 1, 2] 1 [] [] 0 0
    (by decide) (by decide) (by decide)⟩

/-- C9 as stated fails: in the well-formed registry `exampleHigh` the task with
the serial id 2 has priority HIGH.  The raise-priority and the lower-priority
request for it both reply 0 and leave it with priority LOW, but the registry is
not the one before the raise, and `next_task`, which returned the record 2
before the raise, now returns the record 1. -/
theorem raise_then_lower_differs :
    exampleCodes.distinct ∧ WellFormed exampleHigh [0, 1, 2] ∧ HeadOk exampleHigh [0, 1, 2] ∧
    (∃ a ∈ [0, 1, 2], noAt exampleHigh.mem a = some 2) ∧
    process_request exampleCodes exampleHigh
      { request_no := exampleCodes.REQ_HIGH_TASK, task_arg := 2,
        exec_task_arg := [] } 0 = some (Outcome.ret 0 exampleHigh) ∧
    process_request exampleCodes exampleHigh
      { request_no := exampleCodes.REQ_LOW_TASK, task_arg := 2,
        exec_task_arg := [] } 0 = some (Outcome.ret 0 exampleHighLowered) ∧
    prioAt exampleHighLowered.mem (some 2) = some prio.LOW ∧
    exampleHighLowered ≠ exampleHigh ∧
    next_task exampleHigh = some (some 2) ∧
    next_task exampleHighLowered = some (some 1) ∧
    next_task exampleHighLowered ≠ next_task exampleHigh := by
  decide

end Scheduler

namespace Scheduler

/-! ## The replies of `process_request` -/

/-- On a well-formed registry whose head is `list_head`, `sched_kill_task_by_id`
for a registered serial id returns 0. -/
theorem sched_kill_task_by_id_found (s : State) (l : List Nat) (id : Int)
    (hwf : WellFormed s l) (hh : HeadOk s l) (hreg : ∃ a ∈ l, noAt s.mem a = some id) :
    ∃ q, sched_kill_task_by_id s id =
      some (0, { s with trace := s.trace ++ [Sys.kill q Signal.SIGKILL] }) := by
  obtain ⟨hhead, hrun⟩ := hwf.head s l hh
  obtain ⟨d, hd, hyes, hno⟩ := exists_first l hwf.2.1 (fun a => noAt s.mem a = some id) 0 hreg
  obtain ⟨q, _, hloop⟩ := sched_kill_task_by_id_loop_found s.mem l hwf.1 hwf.2.1 id l.length
    0 d hd hno hyes
  exact ⟨q, by simp [sched_kill_task_by_id, hhead, hrun, hloop, bind, pure]⟩

/-- On a well-formed registry whose head is `list_head`, `sched_print_tasks`
returns. -/
theorem sched_print_tasks_returns (s : State) (l : List Nat) (hwf : WellFormed s l)
    (hh : HeadOk s l) : ∃ lines, sched_print_tasks s = some lines := by
  obtain ⟨hhead, hrun⟩ := hwf.head s l hh
  obtain ⟨i, _, hc⟩ := hwf.curr
  obtain ⟨c, hcl, _⟩ := hwf.1.next_at s.mem l hwf.2.1 i
  obtain ⟨lines, hl, _⟩ := sched_print_tasks_loop_ring s l hwf.1 hwf.2.1 c
    (by rw [hc]; exact hcl) l.length 0
  exact ⟨lines, by rw [sched_print_tasks, hhead, hrun]; exact hl⟩

/-- On a well-formed registry whose head is `list_head`, `sched_create_task`
returns when `fork` has returned a positive process id. -/
theorem sched_create_task_returns (s : State) (l : List Nat) (executable : List Nat)
    (pid : Int) (hwf : WellFormed s l) (hh : HeadOk s l) (hpid : 0 < pid) :
    ∃ s1, sched_create_task s executable pid = some (Outcome.ret () s1) := by
  obtain ⟨hhead, _⟩ := hwf.head s l hh
  have hne := hwf.2.1
  have hpos : 0 < l.length := List.length_pos.mpr hne
  obtain ⟨h, hload, hprev⟩ := hwf.1.prev_at s.mem l hne (l.length - 1)
  rw [show l.length - 1 + 1 = 0 + l.length by omega, cyc_add_length] at hload
  have hlv : ∀ i, cyc l i < s.mem.length := fun i =>
    lt_length_of_liveAt _ _ (hwf.1.at s.mem l hne i).1
  obtain ⟨s1, hs1⟩ := add_task_isSome { s with list_tail := h.prev } s.created_tasks pid
    executable (cyc l 0) (cyc l (l.length - 1)) hhead hprev (hlv _) (hlv _)
  refine ⟨s1, ?_⟩
  have h1 : ¬ pid < 0 := by omega
  have h2 : ¬ pid = 0 := by omega
  rw [hhead] at hs1
  simp [sched_create_task, h1, h2, hhead, hload, hs1, bind, pure]

/-- C10: on a well-formed registry whose head is `list_head`, the reply of
`process_request` follows the protocol table.  A print-tasks request is answered
by 0 and leaves the state as it is.  An exec-task request is answered by 0 when
`fork` succeeds (when `fork` fails the scheduler exits with code 1 and there is
no reply).  A kill, raise-priority or lower-priority request is answered by 0 if
a registered task carries the serial id and by 1, with the state unchanged, if
none does.  A request of any other kind is answered by `-ENOSYS`, a negative
integer, and leaves the state unchanged. -/
theorem process_request_reply (K : request_codes) (hK : K.distinct) (s : State)
    (l : List Nat) (rq : request_struct) (pid : Int)
    (hwf : WellFormed s l) (hh : HeadOk s l) :
    (rq.request_no = K.REQ_PRINT_TASKS →
      process_request K s rq pid = some (Outcome.ret 0 s)) ∧
    (rq.request_no = K.REQ_EXEC_TASK →
      (0 < pid → ∃ s1, process_request K s rq pid = some (Outcome.ret 0 s1)) ∧
      (pid < 0 → process_request K s rq pid = some (Outcome.exit 1 s))) ∧
    (rq.request_no = K.REQ_KILL_TASK →
      ((∃ a ∈ l, noAt s.mem a = some rq.task_arg) →
        ∃ s1, process_request K s rq pid = some (Outcome.ret 0 s1)) ∧
      ((∀ a ∈ l, noAt s.mem a ≠ some rq.task_arg) →
        process_request K s rq pid = some (Outcome.ret 1 s))) ∧
    (rq.request_no = K.REQ_HIGH_TASK →
      ((∃ a ∈ l, noAt s.mem a = some rq.task_arg) →
        ∃ s1, process_request K s rq pid = some (Outcome.ret 0 s1)) ∧
      ((∀ a ∈ l, noAt s.mem a ≠ some rq.task_arg) →
        process_request K s rq pid = some (Outcome.ret 1 s))) ∧
    (rq.request_no = K.REQ_LOW_TASK →
      ((∃ a ∈ l, noAt s.mem a = some rq.task_arg) →
        ∃ s1, process_request K s rq pid = some (Outcome.ret 0 s1)) ∧
      ((∀ a ∈ l, noAt s.mem a ≠ some rq.task_arg) →
        process_request K s rq pid = some (Outcome.ret 1 s))) ∧
    (rq.request_no ∉ [K.REQ_PRINT_TASKS, K.REQ_KILL_TASK, K.REQ_EXEC_TASK, K.REQ_HIGH_TASK,
        K.REQ_LOW_TASK] →
      process_request K s rq pid = some (Outcome.ret (-ENOSYS) s) ∧ -ENOSYS < 0) := by
  obtain ⟨k1, k2, k3, k4, k5, k6, k7, k8, k9, k10⟩ := K.ne hK
  refine ⟨fun hrq => ?_, fun hrq => ⟨fun hpid => ?_, fun hpid => ?_⟩,
    fun hrq => ⟨fun hreg => ?_, fun hno => ?_⟩, fun hrq => ⟨fun hreg => ?_, fun hno => ?_⟩,
    fun hrq => ⟨fun hreg => ?_, fun hno => ?_⟩, fun hrq => ?_⟩
  · obtain ⟨lines, hl⟩ := sched_print_tasks_returns s l hwf hh
    simp [process_request, hrq, hl]
  · obtain ⟨s1, hs1⟩ := sched_create_task_returns s l rq.exec_task_arg pid hwf hh hpid
    exact ⟨s1, by simp [process_request, hrq, k2, k3, hs1]⟩
  · simp [process_request, hrq, k2, k3, sched_create_task, hpid]
  · obtain ⟨q, hq⟩ := sched_kill_task_by_id_found s l rq.task_arg hwf hh hreg
    exact ⟨{ s with trace := s.trace ++ [Sys.kill q Signal.SIGKILL] },
      by simp [process_request, hrq, k1, hq]⟩
  · have := sched_kill_task_by_id_not_found s l rq.task_arg hwf hh hno
    simp [process_request, hrq, k1, this]
  · obtain ⟨d, m1, _, _, _, _, hp⟩ := prioritize_task_found s l rq.task_arg prio.HIGH hwf hh hreg
    exact ⟨{ s with mem := m1 }, by simp [process_request, hrq, k4, k5, k6, hp]⟩
  · have := prioritize_task_not_found s l rq.task_arg prio.HIGH hwf hh hno
    simp [process_request, hrq, k4, k5, k6, this]
  · obtain ⟨d, m1, _, _, _, _, hp⟩ := prioritize_task_found s l rq.task_arg prio.LOW hwf hh hreg
    exact ⟨{ s with mem := m1 }, by simp [process_request, hrq, k7, k8, k9, k10, hp]⟩
  · have := prioritize_task_not_found s l rq.task_arg prio.LOW hwf hh hno
    simp [process_request, hrq, k7, k8, k9, k10, this]
  · simp only [List.mem_cons, List.mem_singleton, List.not_mem_nil, or_false, not_or] at hrq
    obtain ⟨h1, h2, h3, h4, h5⟩ := hrq
    exact ⟨by simp [process_request, h1, h2, h3, h4, h5], by decide⟩

/-- C10, at an example: a request of the unknown kind 9 on `exampleLow`. -/
theorem process_request_reply_witness :
    (exampleCodes.distinct ∧ WellFormed exampleLow [0, 1, 2] ∧ HeadOk exampleLow [0, 1, 2] ∧
      (9 : Int) ∉ [exampleCodes.REQ_PRINT_TASKS, exampleCodes.REQ_KILL_TASK,
        exampleCodes.REQ_EXEC_TASK, exampleCodes.REQ_HIGH_TASK,
        exampleCodes.REQ_LOW_TASK]) ∧
    process_request exampleCodes exampleLow
      { request_no := 9, task_arg := 0, exec_task_arg := [] } 0
        = some (Outcome.ret (-ENOSYS) exampleLow) ∧ -ENOSYS < 0 :=
  ⟨by decide,
    (process_request_reply exampleCodes (by decide) exampleLow [0, 1, 2]
      { request_no := 9, task_arg := 0, exec_task_arg := [] } 0 (by decide)
      (by decide)).2.2.2.2.2 (by decide)⟩

end Scheduler

namespace Scheduler

/-! ## Requests to execute a task -/

/-- On a well-formed registry whose head is `list_head`, `sched_create_task`
appends a record to the ring, also when `list_tail` is stale: the head-to-tail
traversal grows by one record of priority LOW with serial id `created_tasks`,
the old records keep their fields, and `curr_task` is unchanged. -/
theorem sched_create_task_appends (s : State) (l : List Nat) (executable : List Nat)
    (pid : Int) (hwf : WellFormed s l) (hh : HeadOk s l) (hpid : 0 < pid) :
    ∃ s1 old, sched_create_task s executable pid = some (Outcome.ret () s1) ∧
      registry s = some old ∧
      registry s1 = some (old ++ [{ task_no := s.created_tasks, task_pid := pid,
                                    exec_name := executable.take TASK_NAME_SZ,
                                    priority := prio.LOW }]) ∧
      WellFormed s1 (l ++ [s.mem.length]) ∧ HeadOk s1 (l ++ [s.mem.length]) ∧
      TailOk s1 (l ++ [s.mem.length]) ∧
      (∀ a ∈ l, fieldsAt s1.mem a = fieldsAt s.mem a) ∧
      s1.curr_task = s.curr_task ∧ s1.created_tasks = s.created_tasks + 1 := by
  obtain ⟨hhead, _⟩ := hwf.head s l hh
  obtain ⟨hring, hne, hrun, c, hc, hcur⟩ := hwf
  have hpos : 0 < l.length := List.length_pos.mpr hne
  obtain ⟨h, hload, hprev⟩ := hring.prev_at s.mem l hne (l.length - 1)
  rw [show l.length - 1 + 1 = 0 + l.length by omega, cyc_add_length] at hload
  have htail : TailOk { s with list_tail := h.prev } l := by
    rw [TailOk, getLast?_eq_getD l hne]
    simp only [hprev]
    congr 1
    simp [cyc, Nat.mod_eq_of_lt (show l.length - 1 < l.length by omega)]
  obtain ⟨s1, hs1, hring1, hh1, ht1, hold, hnew⟩ :=
    add_task_ring { s with list_tail := h.prev } l s.created_tasks pid executable hring hh htail
  obtain ⟨hr, hcr, _, hcur1, _⟩ := add_task_counts _ _ _ _ _ hs1
  obtain ⟨old, hreg, hlen, hget⟩ := registry_ring s l hring hrun hh
  have hrun1 : s1.running_tasks = ((l ++ [s.mem.length]).length : Nat) := by
    rw [hr]; simp [hrun]
  obtain ⟨fs, hreg1, hlen1, hget1⟩ := registry_ring s1 (l ++ [s.mem.length]) hring1 hrun1 hh1
  have h1 : ¬ pid < 0 := by omega
  have h2 : ¬ pid = 0 := by omega
  refine ⟨s1, old, ?_, hreg, ?_, ⟨hring1, by simp, hrun1, c, List.mem_append_left _ hc, ?_⟩,
    hh1, ht1, hold, hcur1, hcr⟩
  · rw [hhead] at hs1
    simp [sched_create_task, h1, h2, hhead, hload, hs1, bind, pure]
  · rw [hreg1]
    congr 1
    apply List.ext_getElem?
    intro t
    simp only [List.length_append, List.length_singleton] at hlen1 hget1
    by_cases h1 : t < l.length
    · rw [hget1 t (by omega), getD_append_lt l _ t h1, hold _ (getD_mem l t h1),
        List.getElem?_append_left (by omega), hget t h1]
    · by_cases h2 : t = l.length
      · subst h2
        rw [hget1 _ (by omega), getD_append_last, hnew, ← hlen]
        simp
      · rw [List.getElem?_eq_none (by omega), List.getElem?_eq_none (by simp; omega)]
  · rw [hcur1]; exact hcur

theorem follow_fixed (m : List Cell) (a : Nat) (h : nextOf m a = some a) (k : Nat) :
    follow m k (some a) = some a := by
  induction k with
  | zero => rfl
  | succ k ih => simp only [follow, Option.bind, h]; exact ih

/-- C11 fails on the code, in the states in which the shell, the head of the
list, has been reaped: `list_head` still points to its freed record.
First case: `main` starts the shell (process 100) and the task 101, the shell
exits, and an exec-task request is served (process 102).  The new record is
linked to the freed record of the shell, and the traversal from `list_head`
shows the freed record and the record of 101, not the new record: the lookup of
its serial id 2 fails.
Second case: `main` starts the shell and the tasks 101 and 102; the shell exits,
then the task 102, the last record of the list, exits, and an exec-task request
is served (process 103).  The `prev` of the freed head is the freed record of
102, so `sched_create_task` sets `list_tail` to a freed record and `add_task`
links the new record between the two freed records.  The new record carries the
serial id 3, but it is not appended to the registry: the only record registered
before, at address 1, is still its own successor, the new record is reached from
`curr_task` by no number of `next` steps, and the search of `remove_task` for
process 103 does not end. -/
theorem exec_after_head_reaped :
    (Reachable exampleCodes shellGone ∧
      process_request exampleCodes shellGone
        { request_no := exampleCodes.REQ_EXEC_TASK, task_arg := 0, exec_task_arg := [66] }
        102 = some (Outcome.ret 0 shellGoneExec) ∧
      liveAt shellGoneExec.mem 2 = true ∧ noAt shellGoneExec.mem 2 = some 2 ∧
      nextOf shellGoneExec.mem 2 = some 0 ∧ liveAt shellGoneExec.mem 0 = false ∧
      registry shellGone =
        some [{ task_no := 0, task_pid := 100, exec_name := SHELL_EXECUTABLE_NAME,
                priority := prio.LOW }] ∧
      registry shellGoneExec =
        some [{ task_no := 0, task_pid := 100, exec_name := SHELL_EXECUTABLE_NAME,
                priority := prio.LOW },
              { task_no := 1, task_pid := 101, exec_name := [65], priority := prio.LOW }] ∧
      prioritize_task shellGoneExec 2 prio.HIGH = some (1, shellGoneExec)) ∧
    main [[1], [65], [66]] 100 [101, 102] = some (Outcome.ret () bootTwo) ∧
    sigchld_step 3 bootTwo 100 (wstatus.exited 0) = some (Outcome.ret () bootTwoShellGone) ∧
    sigchld_step 3 bootTwoShellGone 102 (wstatus.exited 0)
      = some (Outcome.ret () bootTwoOnlyA) ∧
    process_request exampleCodes bootTwoOnlyA
      { request_no := exampleCodes.REQ_EXEC_TASK, task_arg := 0, exec_task_arg := [67] } 103
      = some (Outcome.ret 0 bootTwoOrphan) ∧
    Reachable exampleCodes bootTwoOnlyA ∧
    liveAt bootTwoOrphan.mem 3 = true ∧ noAt bootTwoOrphan.mem 3 = some 3 ∧
    liveAt bootTwoOrphan.mem 1 = true ∧ nextOf bootTwoOrphan.mem 1 = some 1 ∧
    prevOf bootTwoOrphan.mem 3 = some 2 ∧ liveAt bootTwoOrphan.mem 2 = false ∧
    nextOf bootTwoOrphan.mem 3 = some 0 ∧ liveAt bootTwoOrphan.mem 0 = false ∧
    (∀ k, follow bootTwoOrphan.mem k bootTwoOrphan.curr_task ≠ some 3) ∧
    registry bootTwoOrphan =
      some [{ task_no := 0, task_pid := 100, exec_name := SHELL_EXECUTABLE_NAME,
              priority := prio.LOW },
            { task_no := 1, task_pid := 101, exec_name := [65], priority := prio.LOW }] ∧
    ∀ fuel, remove_task_find bootTwoOrphan.mem 103 fuel bootTwoOrphan.curr_task = none := by
  refine ⟨⟨reachable_shellGone, by decide, by decide, by decide, by decide, by decide,
      by decide, by decide, by decide⟩,
    by decide, by decide, by decide, by decide, ?_, by decide, by decide, by decide,
    by decide, by decide, by decide, by decide, by decide, ?_, by decide, ?_⟩
  · exact Reachable.step bootTwoShellGone bootTwoOnlyA
      (Reachable.step bootTwo bootTwoShellGone
        (Reachable.boot [[1], [65], [66]] 100 [101, 102] bootTwo (by decide) (by decide))
        (Step.child bootTwo bootTwoShellGone 3 100 (wstatus.exited 0) (by decide)
          (by decide)))
      (Step.child bootTwoShellGone bootTwoOnlyA 3 102 (wstatus.exited 0) (by decide)
        (by decide))
  · intro k
    have : follow bootTwoOrphan.mem k bootTwoOrphan.curr_task = some 1 :=
      follow_fixed bootTwoOrphan.mem 1 (by decide) k
    rw [this]; decide
  · intro fuel
    induction fuel with
    | zero => rfl
    | succ fuel ih =>
      have h1 : bootTwoOrphan.curr_task = some 1 := rfl
      rw [h1] at ih ⊢
      have h2 : load bootTwoOrphan.mem (some 1)
          = some { task_no := 1, task_pid := 101, exec_name := [65], priority := prio.LOW,
                   next := some 1, prev := some 1 } := by decide
      simp only [remove_task_find, h2]
      exact ih


/-! ## Serial ids -/

theorem map_map_same {α : Type} (x : Option task_t) (g : task_t → α) (f : task_t → task_t)
    (h : ∀ t, g (f t) = g t) : (x.map f).map g = x.map g := by
  cases x <;> simp [h]

/-- A `store` that leaves `task_no` alone changes no serial id, no liveness and
not the size of the heap. -/
theorem store_ids (m m1 : List Cell) (p : Ptr) (f : task_t → task_t)
    (h : store m p f = some m1) (hf : ∀ t, (f t).task_no = t.task_no) :
    m1.length = m.length ∧ ∀ b, noAt m1 b = noAt m b ∧ liveAt m1 b = liveAt m b := by
  obtain ⟨a, c, rfl, _, _⟩ := store_spec m m1 p f h
  obtain ⟨hlen, hlive, hload⟩ := store_load m m1 a f h
  refine ⟨hlen, fun b => ⟨?_, hlive b⟩⟩
  simp only [noAt, hload]
  split
  · subst_vars
    exact map_map_same _ _ _ hf
  · rfl

/-- The serial ids in the heap after `add_task`. -/
theorem add_task_ids (s s1 : State) (number pid : Int) (name : List Nat)
    (h : add_task s number pid name = some s1) :
    s1.mem.length = s.mem.length + 1 ∧
    (∀ b, b < s.mem.length → noAt s1.mem b = noAt s.mem b ∧ liveAt s1.mem b = liveAt s.mem b) ∧
    noAt s1.mem s.mem.length = some number ∧ liveAt s1.mem s.mem.length = true ∧
    prioAt s1.mem (some s.mem.length) = some prio.LOW := by
  unfold add_task at h
  simp only [bind, Option.bind_eq_some, pure] at h
  obtain ⟨⟨m1, head1⟩, h1, m2, h2, m3, h3, h⟩ := h
  simp only [Option.some.injEq] at h
  subst h
  simp only
  obtain ⟨l3, g3⟩ := store_ids _ _ _ _ h3 (fun _ => rfl)
  obtain ⟨l2, g2⟩ := store_ids _ _ _ _ h2 (fun _ => rfl)
  have hp3 : ∀ b, prioAt m3 (some b) = prioAt m2 (some b) := by
    intro b
    obtain ⟨a, c, hpa, _, _⟩ := store_spec _ _ _ _ h3
    rw [hpa] at h3
    simp only [prioAt, (store_load _ _ _ _ h3).2.2]
    split
    · subst_vars; exact map_map_same _ _ _ (fun _ => rfl)
    · rfl
  have hp2 : ∀ b, prioAt m2 (some b) = prioAt m1 (some b) := by
    intro b
    simp only [prioAt, (store_load _ _ _ _ h2).2.2]
    split
    · subst_vars; exact map_map_same _ _ _ (fun _ => rfl)
    · rfl
  have key : m1.length = s.mem.length + 1 ∧
      (∀ b, b < s.mem.length → noAt m1 b = noAt s.mem b ∧ liveAt m1 b = liveAt s.mem b) ∧
      noAt m1 s.mem.length = some number ∧ liveAt m1 s.mem.length = true ∧
      prioAt m1 (some s.mem.length) = some prio.LOW := by
    have base : ∀ tl : Ptr, (∀ b, b < s.mem.length →
          noAt (s.mem ++ [new_record number pid name tl]) b = noAt s.mem b ∧
          liveAt (s.mem ++ [new_record number pid name tl]) b = liveAt s.mem b) ∧
        noAt (s.mem ++ [new_record number pid name tl]) s.mem.length = some number ∧
        liveAt (s.mem ++ [new_record number pid name tl]) s.mem.length = true ∧
        prioAt (s.mem ++ [new_record number pid name tl]) (some s.mem.length)
          = some prio.LOW := by
      intro tl
      refine ⟨fun b hb => ⟨?_, ?_⟩, ?_, ?_, ?_⟩
      · simp [noAt, load_append, hb]
      · simp [liveAt_append, hb]
      · simp [noAt, load_append, new_record]
      · simp [liveAt_append, new_record]
      · simp [prioAt, load_append, new_record]
    cases ht : s.list_tail with
    | none =>
      simp only [ht, Option.some.injEq, Prod.mk.injEq] at h1
      rw [← h1.1]
      exact ⟨by simp, base none⟩
    | some t =>
      simp only [ht, Option.map_eq_some'] at h1
      obtain ⟨m, hm, he⟩ := h1
      simp only [Prod.mk.injEq] at he
      rw [← he.1]
      obtain ⟨l1, g1⟩ := store_ids _ _ _ _ hm (fun _ => rfl)
      have hp1 : ∀ b, prioAt m (some b)
          = prioAt (s.mem ++ [new_record number pid name (some t)]) (some b) := by
        intro b
        simp only [prioAt, (store_load _ _ _ _ hm).2.2]
        split
        · subst_vars; exact map_map_same _ _ _ (fun _ => rfl)
        · rfl
      obtain ⟨b1, b2, b3, b4⟩ := base (some t)
      refine ⟨by rw [l1]; simp, fun b hb => ?_, ?_, ?_, ?_⟩
      · rw [(g1 b).1, (g1 b).2]; exact b1 b hb
      · rw [(g1 _).1]; exact b2
      · rw [(g1 _).2]; exact b3
      · rw [hp1]; exact b4
  obtain ⟨k1, k2, k3, k4, k5⟩ := key
  refine ⟨by rw [l3, l2, k1], fun b hb => ?_, ?_, ?_, ?_⟩
  · rw [(g3 b).1, (g3 b).2, (g2 b).1, (g2 b).2]; exact k2 b hb
  · rw [(g3 _).1, (g2 _).1]; exact k3
  · rw [(g3 _).2, (g2 _).2]; exact k4
  · rw [hp3, hp2]; exact k5

/-- The function `remove_task` changes no serial id and not the size of the heap,
and allocates nothing. -/
theorem remove_task_ids (fuel : Nat) (s s1 : State) (pid : Int)
    (h : remove_task fuel s pid = some s1) :
    s1.mem.length = s.mem.length ∧
    ∀ b, noAt s1.mem b = noAt s.mem b ∧ (liveAt s1.mem b = true → liveAt s.mem b = true) := by
  unfold remove_task at h
  simp only [bind, Option.bind_eq_some, pure] at h
  obtain ⟨temp, _, t, ht, m1, h1, t1, ht1, m2, h2, m3, h3, h⟩ := h
  simp only [Option.some.injEq] at h
  subst h
  simp only
  obtain ⟨a, rfl⟩ := load_ptr _ _ _ ht
  obtain ⟨l3, d3, v3, g3⟩ := free_load _ _ _ h3
  have e1 : m1.length = s.mem.length ∧
      ∀ b, noAt m1 b = noAt s.mem b ∧ liveAt m1 b = liveAt s.mem b := by
    cases hn : t.next with
    | none =>
      simp only [hn, Option.some.injEq] at h1
      subst h1
      exact ⟨rfl, fun b => ⟨rfl, rfl⟩⟩
    | some n =>
      simp only [hn] at h1
      exact store_ids _ _ _ _ h1 (fun _ => rfl)
  have e2 : m2.length = m1.length ∧ ∀ b, noAt m2 b = noAt m1 b ∧ liveAt m2 b = liveAt m1 b := by
    cases hp : t1.prev with
    | none =>
      simp only [hp, Option.some.injEq] at h2
      subst h2
      exact ⟨rfl, fun b => ⟨rfl, rfl⟩⟩
    | some n =>
      simp only [hp] at h2
      exact store_ids _ _ _ _ h2 (fun _ => rfl)
  refine ⟨by rw [l3, e2.1, e1.1], fun b => ⟨?_, fun hb => ?_⟩⟩
  · simp only [noAt, g3]
    have := (e2.2 b).1
    simp only [noAt] at this
    rw [this]
    exact (e1.2 b).1
  · by_cases hba : b = a
    · rw [hba, d3] at hb; exact absurd hb (by simp)
    · rw [v3 b hba, (e2.2 b).2, (e1.2 b).2] at hb; exact hb


theorem add_task_idsInOrder (s s1 : State) (pid : Int) (name : List Nat)
    (hs : IdsInOrder s) (h : add_task s s.created_tasks pid name = some s1) :
    IdsInOrder s1 := by
  obtain ⟨hlen, hold, hnew, _, _⟩ := add_task_ids _ _ _ _ _ h
  obtain ⟨_, hc, _⟩ := add_task_counts _ _ _ _ _ h
  refine ⟨by rw [hc, hs.1, hlen]; simp, fun a ha => ?_⟩
  rw [hlen] at ha
  by_cases hlt : a < s.mem.length
  · rw [(hold a hlt).1]; exact hs.2 a hlt
  · have : a = s.mem.length := by omega
    subst this
    rw [hnew, hs.1]

theorem sched_create_task_idsInOrder (s s1 : State) (executable : List Nat) (pid : Int)
    (hs : IdsInOrder s) (h : sched_create_task s executable pid = some (Outcome.ret () s1)) :
    IdsInOrder s1 := by
  unfold sched_create_task at h
  split at h
  · simp at h
  · split at h
    · simp at h
    · simp only [bind, Option.bind_eq_some, pure, Option.some.injEq, Outcome.ret.injEq,
        true_and] at h
      obtain ⟨t, _, s2, h2, rfl⟩ := h
      exact add_task_idsInOrder { s with list_tail := t.prev } _ pid executable hs h2

theorem prioritize_task_idsInOrder (s s1 : State) (id r : Int) (np : prio)
    (hs : IdsInOrder s) (h : prioritize_task s id np = some (r, s1)) : IdsInOrder s1 := by
  unfold prioritize_task at h
  simp only [bind, Option.bind_eq_some, pure] at h
  obtain ⟨x, _, h⟩ := h
  cases x with
  | none =>
    simp only [Option.some.injEq, Prod.mk.injEq] at h
    obtain ⟨_, rfl⟩ := h
    exact hs
  | some q =>
    simp only [Option.bind_eq_some, Option.some.injEq, Prod.mk.injEq] at h
    obtain ⟨m, hm, _, rfl⟩ := h
    obtain ⟨hlen, g⟩ := store_ids _ _ _ _ hm (fun _ => rfl)
    exact ⟨by simp only [hlen]; exact hs.1, fun a ha => by
      simp only at ha ⊢
      rw [(g a).1]; exact hs.2 a (hlen ▸ ha)⟩

theorem process_request_idsInOrder (K : request_codes) (s s1 : State) (rq : request_struct)
    (pid r : Int) (hs : IdsInOrder s)
    (h : process_request K s rq pid = some (Outcome.ret r s1)) : IdsInOrder s1 := by
  unfold process_request at h
  split at h
  · simp only [Option.map_eq_some', Option.some.injEq, Outcome.ret.injEq] at h
    obtain ⟨_, _, _, rfl⟩ := h
    exact hs
  · split at h
    · simp only [Option.map_eq_some', Option.some.injEq, Outcome.ret.injEq] at h
      obtain ⟨⟨r1, s2⟩, h2, _, rfl⟩ := h
      obtain ⟨hm, _, _, _, _, hc⟩ := sched_kill_task_by_id_frame _ _ _ _ h2
      exact ⟨by rw [hc, hm]; exact hs.1, fun a ha => by rw [hm] at ha ⊢; exact hs.2 a ha⟩
    · split at h
      · simp only [Option.map_eq_some'] at h
        obtain ⟨o, ho, h⟩ := h
        cases o with
        | exit c s2 => simp at h
        | ret u s2 =>
          simp only [Outcome.ret.injEq] at h
          obtain ⟨_, rfl⟩ := h
          exact sched_create_task_idsInOrder _ _ _ _ hs ho
      · split at h
        · simp only [Option.map_eq_some', Option.some.injEq, Outcome.ret.injEq] at h
          obtain ⟨⟨r1, s2⟩, h2, _, rfl⟩ := h
          exact prioritize_task_idsInOrder _ _ _ _ _ hs h2
        · split at h
          · simp only [Option.map_eq_some', Option.some.injEq, Outcome.ret.injEq] at h
            obtain ⟨⟨r1, s2⟩, h2, _, rfl⟩ := h
            exact prioritize_task_idsInOrder _ _ _ _ _ hs h2
          · simp only [Option.some.injEq, Outcome.ret.injEq] at h
            obtain ⟨_, rfl⟩ := h
            exact hs

theorem sigchld_reap_idsInOrder (fuel : Nat) (s : State) (pid : Int) (o : Outcome Unit)
    (hs : IdsInOrder s) (h : sigchld_reap fuel s pid = some o) : IdsInOrder o.state := by
  have hc := (sigchld_reap_counts _ _ _ _ h).2.2
  have key : ∀ s1, remove_task fuel { s with running_tasks := s.running_tasks - 1 } pid
      = some s1 → s1.mem.length = s.mem.length ∧ ∀ b, noAt s1.mem b = noAt s.mem b := by
    intro s1 h1
    obtain ⟨hl, g⟩ := remove_task_ids _ _ _ _ h1
    exact ⟨hl, fun b => (g b).1⟩
  have fin : ∀ s1 : State, s1.created_tasks = s.created_tasks →
      (s1.mem.length = s.mem.length ∧ ∀ b, noAt s1.mem b = noAt s.mem b) → IdsInOrder s1 := by
    intro s1 hc1 ⟨hl, g⟩
    exact ⟨by rw [hc1, hl]; exact hs.1, fun a ha => by rw [g a]; exact hs.2 a (hl ▸ ha)⟩
  unfold sigchld_reap at h
  simp only [bind, Option.bind_eq_some, pure] at h
  obtain ⟨c, _, cn, _, h⟩ := h
  split at h
  · simp only [Option.bind_eq_some, Option.some.injEq] at h
    obtain ⟨s1, h1, p, _, rfl⟩ := h
    exact fin _ hc (key s1 h1)
  · split at h
    · simp only [Option.bind_eq_some, Option.some.injEq] at h
      obtain ⟨s1, h1, rfl⟩ := h
      exact fin _ hc (key s1 h1)
    · simp only [Option.bind_eq_some, Option.some.injEq] at h
      obtain ⟨s1, h1, rfl⟩ := h
      exact fin _ hc (key s1 h1)

theorem sigchld_step_idsInOrder (fuel : Nat) (s : State) (pid : Int) (st : wstatus)
    (o : Outcome Unit) (hs : IdsInOrder s) (h : sigchld_step fuel s pid st = some o) :
    IdsInOrder o.state := by
  unfold sigchld_step at h
  simp only [bind, Option.bind_eq_some, pure] at h
  obtain ⟨o1, h1, h⟩ := h
  have key : IdsInOrder o1.state := by
    split at h1
    · exact sigchld_reap_idsInOrder _ _ _ _ hs h1
    · simp only [Option.some.injEq] at h1
      subst h1; exact hs
  cases o1 with
  | exit c s1 =>
    simp only [Option.some.injEq] at h
    subst h; exact key
  | ret u s1 =>
    simp only [Option.bind_eq_some, Option.some.injEq] at h
    obtain ⟨s2, h2, c, _, rfl⟩ := h
    have e2 : IdsInOrder s2 := by
      split at h2
      · simp only [Option.map_eq_some'] at h2
        obtain ⟨p, _, rfl⟩ := h2
        exact key
      · simp only [Option.some.injEq] at h2
        subst h2; exact key
    exact e2

theorem main_loop_idsInOrder (s : State) (i : Int) (args : List (List Nat)) (pids : List Int)
    (o : Outcome Unit) (h : main_loop s i args pids = some o)
    (hs : IdsInOrder s) (hi : i = s.created_tasks) : IdsInOrder o.state := by
  induction args generalizing s i pids with
  | nil =>
    simp only [main_loop, Option.some.injEq] at h
    subst h; exact hs
  | cons arg args ih =>
    cases pids with
    | nil => simp [main_loop] at h
    | cons pid pids =>
      simp only [main_loop] at h
      split at h
      · simp only [Option.some.injEq] at h
        subst h; exact hs
      · split at h
        · simp at h
        · cases ha : add_task s i pid arg with
          | none => simp [ha] at h
          | some s1 =>
            simp only [ha] at h
            rw [hi] at ha
            have h1 := add_task_idsInOrder s s1 pid arg hs ha
            obtain ⟨_, hc, _⟩ := add_task_counts _ _ _ _ _ ha
            exact ih s1 (i + 1) pids h h1 (by rw [hc, hi])

theorem main_idsInOrder (argv : List (List Nat)) (shell_pid : Int) (pids : List Int)
    (s : State) (h : main argv shell_pid pids = some (Outcome.ret () s)) : IdsInOrder s := by
  unfold main at h
  simp only at h
  split at h
  · simp at h
  · split at h
    · simp at h
    · simp only [bind, Option.bind_eq_some, pure] at h
      obtain ⟨s1, h1, o, ho, h⟩ := h
      have h0 : IdsInOrder { State.init with curr_task := none, list_head := none } := by
        decide
      have hs1 := add_task_idsInOrder _ s1 shell_pid SHELL_EXECUTABLE_NAME h0 h1
      obtain ⟨_, hc, _⟩ := add_task_counts _ _ _ _ _ h1
      have hinv := main_loop_idsInOrder _ _ _ _ _ ho hs1 (by rw [hc]; rfl)
      cases o with
      | exit c s2 => simp at h
      | ret u s2 =>
        simp only at h
        split at h
        · simp at h
        · simp only [Option.bind_eq_some, Option.some.injEq, Outcome.ret.injEq,
            true_and] at h
          obtain ⟨c, _, rfl⟩ := h
          exact hinv

/-- In every reachable state the serial ids follow the order of creation. -/
theorem reachable_idsInOrder (K : request_codes) (s : State) (h : Reachable K s) :
    IdsInOrder s := by
  induction h with
  | boot argv shell_pid pids s _ hm => exact main_idsInOrder _ _ _ _ hm
  | step s s1 _ hstep ih =>
    cases hstep with
    | request rq pid r _ hp => exact process_request_idsInOrder _ _ _ _ _ _ ih hp
    | child fuel pid st _ hc => exact sigchld_step_idsInOrder _ _ _ _ _ ih hc
    | quantum hq =>
      obtain ⟨hm, _, _, _, _, hc⟩ := sigalrm_handler_frame _ _ hq
      exact ⟨by rw [hc, hm]; exact ih.1, fun a ha => by rw [hm] at ha ⊢; exact ih.2 a ha⟩


end Scheduler

namespace Scheduler

/-! ## The start of the program -/

/-- The state in which `main` enters the request loop when it is started with
two workload arguments and all calls of `fork` succeed. -/
theorem main_two (prog a b : List Nat) (sp pa pb : Int) (h0 : 0 < sp) (ha : 0 < pa)
    (hb : 0 < pb) :
    main [prog, a, b] sp [pa, pb] = some (Outcome.ret ()
      { mem := [mkRec 0 sp SHELL_EXECUTABLE_NAME prio.LOW 1 2 true,
                mkRec 1 pa (a.take TASK_NAME_SZ) prio.LOW 2 0 true,
                mkRec 2 pb (b.take TASK_NAME_SZ) prio.LOW 0 1 true],
        list_head := some 0, list_tail := some 2, curr_task := some 0,
        running_tasks := 3, created_tasks := 3,
        trace := [Sys.alarm SCHED_TQ_SEC, Sys.kill sp Signal.SIGCONT] }) := by
  have h1 : ¬ sp < 0 := by omega
  have h2 : ¬ sp = 0 := by omega
  have h3 : ¬ pa < 0 := by omega
  have h4 : ¬ pa = 0 := by omega
  have h5 : ¬ pb < 0 := by omega
  have h6 : ¬ pb = 0 := by omega
  simp [main, main_loop, add_task, store, load, new_record, mkRec, State.init, bind, pure,
    h1, h2, h3, h4, h5, h6, SHELL_EXECUTABLE_NAME, TASK_NAME_SZ]

/-- C13, as amended: after `main` has started a workload of exactly two
executables (all calls of `fork` succeeding) and before any termination,
`sched_print_tasks` prints exactly three lines, all with priority LOW: the shell
with serial id 0, marked as currently running, followed by the two workload
tasks with the serial ids 1 and 2 in the order of creation. -/
theorem print_after_boot (prog a b : List Nat) (sp pa pb : Int) (h0 : 0 < sp) (ha : 0 < pa)
    (hb : 0 < pb) :
    ∃ s, main [prog, a, b] sp [pa, pb] = some (Outcome.ret () s) ∧
      sched_print_tasks s =
        some [{ task_no := 0, task_pid := sp, exec_name := SHELL_EXECUTABLE_NAME,
                priority := prio.LOW, currently_running := true },
              { task_no := 1, task_pid := pa, exec_name := a.take TASK_NAME_SZ,
                priority := prio.LOW, currently_running := false },
              { task_no := 2, task_pid := pb, exec_name := b.take TASK_NAME_SZ,
                priority := prio.LOW, currently_running := false }] := by
  refine ⟨_, main_two prog a b sp pa pb h0 ha hb, ?_⟩
  simp [sched_print_tasks, sched_print_tasks_loop, load, mkRec, bind, pure]

/-- C13, at an example: the workload of the state `bootTwo`. -/
theorem print_after_boot_witness :
    ((0 : Int) < 100 ∧ (0 : Int) < 101 ∧ (0 : Int) < 102) ∧
    ∃ s, main [[1], [65], [66]] 100 [101, 102] = some (Outcome.ret () s) ∧
      sched_print_tasks s =
        some [{ task_no := 0, task_pid := 100, exec_name := SHELL_EXECUTABLE_NAME,
                priority := prio.LOW, currently_running := true },
              { task_no := 1, task_pid := 101, exec_name := [65].take TASK_NAME_SZ,
                priority := prio.LOW, currently_running := false },
              { task_no := 2, task_pid := 102, exec_name := [66].take TASK_NAME_SZ,
                priority := prio.LOW, currently_running := false }] :=
  ⟨by decide, print_after_boot [1] [65] [66] 100 101 102 (by decide) (by decide) (by decide)⟩

/-- C13 as stated fails: with the workload of two executables named by the bytes
65 and 66, `main` enters the request loop in the state `bootTwo`, where
`running_tasks` is 3 and `sched_print_tasks` prints three lines, not two: the
first one is the line of the shell, with serial id 0. -/
theorem print_after_boot_three_lines :
    main [[1], [65], [66]] 100 [101, 102] = some (Outcome.ret () bootTwo) ∧
    bootTwo.running_tasks = 3 ∧
    (∃ lines, sched_print_tasks bootTwo = some lines ∧ lines.length = 3 ∧
      lines.map (fun x => x.task_no) = [0, 1, 2] ∧ lines.length ≠ 2) := by
  refine ⟨by decide, by decide, _, rfl, by decide, by decide, by decide⟩


/-- When `main` is started with the program name as its only argument and the
`fork` of the shell succeeds, it enters the request loop with the shell as the
only and current task, after it has armed the timer and resumed the shell. -/
theorem main_zero (prog : List Nat) (sp : Int) (pids : List Int) (h0 : 0 < sp) :
    main [prog] sp pids = some (Outcome.ret ()
      { mem := [mkRec 0 sp SHELL_EXECUTABLE_NAME prio.LOW 0 0 true],
        list_head := some 0, list_tail := some 0, curr_task := some 0,
        running_tasks := 1, created_tasks := 1,
        trace := [Sys.alarm SCHED_TQ_SEC, Sys.kill sp Signal.SIGCONT] }) := by
  have h1 : ¬ sp < 0 := by omega
  have h2 : ¬ sp = 0 := by omega
  simp [main, main_loop, add_task, store, load, new_record, mkRec, State.init, bind, pure,
    h1, h2, SHELL_EXECUTABLE_NAME, TASK_NAME_SZ]

/-- C14 fails on the code.  Started with the program name as its only argument
(`argc = 1`), `main` sets `nproc = argc = 1`, so the test `nproc == 0` is false:
`main` does not exit with code 1 but arms the timer with `alarm`, sends SIGCONT
to the shell (process 100) and enters the request loop in the state `bootZero`,
in which the shell is the only registered task. -/
theorem main_without_workload :
    main [[1]] 100 [] = some (Outcome.ret () bootZero) ∧
    main [[1]] 100 [] ≠ some (Outcome.exit 1 State.init) ∧
    (∀ s, main [[1]] 100 [] ≠ some (Outcome.exit 1 s)) ∧
    bootZero.trace = [Sys.alarm SCHED_TQ_SEC, Sys.kill 100 Signal.SIGCONT] ∧
    bootZero.curr_task = some 0 ∧ pidAt bootZero.mem 0 = some 100 ∧
    bootZero.running_tasks = 1 := by
  have h : main [[1]] 100 [] = some (Outcome.ret () bootZero) := by decide
  refine ⟨h, by rw [h]; simp, fun s => by rw [h]; simp, rfl, rfl, by decide, rfl⟩


/-! ## Reaping a child -/

/-- The function `remove_task` does not read `running_tasks`. -/
theorem remove_task_running (fuel : Nat) (s s1 : State) (pid r : Int)
    (h : remove_task fuel s pid = some s1) :
    remove_task fuel { s with running_tasks := r } pid =
      some { s1 with running_tasks := r } := by
  unfold remove_task at h
  simp only [bind, Option.bind_eq_some, pure] at h
  obtain ⟨temp, hfind, t, ht, m1, h1, t1, ht1, m2, h2, m3, h3, h⟩ := h
  simp only [Option.some.injEq] at h
  subst h
  cases hn : t.next with
  | none =>
    simp only [hn, Option.some.injEq] at h1
    subst h1
    rw [ht, Option.some.injEq] at ht1
    subst ht1
    cases hp : t.prev with
    | none =>
      simp only [hp, Option.some.injEq] at h2
      subst h2
      simp [remove_task, bind, pure, hfind, ht, hn, hp, h3]
    | some p =>
      simp only [hp, hn] at h2
      simp [remove_task, bind, pure, hfind, ht, hn, hp, h2, h3]
  | some n =>
    simp only [hn] at h1
    cases hp : t1.prev with
    | none =>
      simp only [hp, Option.some.injEq] at h2
      subst h2
      simp [remove_task, bind, pure, hfind, ht, hn, h1, ht1, hp, h3]
    | some p =>
      simp only [hp] at h2
      simp [remove_task, bind, pure, hfind, ht, hn, h1, ht1, hp, h2, h3]

theorem prioAt_eq_fieldsAt (m : List Cell) (a : Nat) :
    prioAt m (some a) = (fieldsAt m a).map (fun f => f.priority) := by
  simp only [prioAt, fieldsAt, Option.map_map]
  rfl

theorem cyc_cons_succ (x : Nat) (rest : List Nat) (t : Nat) (ht : t < rest.length) :
    cyc (x :: rest) (t + 1) = cyc rest t := by
  have e1 : (t + 1) % (x :: rest).length = t + 1 := by
    apply Nat.mod_eq_of_lt; simp; omega
  have e2 : t % rest.length = t := Nat.mod_eq_of_lt ht
  simp only [cyc, e1, e2, List.getD_eq_getElem?_getD, List.getElem?_cons_succ]

/-- A ring rotated so that it starts with the record at position `i`. -/
theorem rotate_head (l : List Nat) (hn : l.Nodup) (hne : l ≠ []) (i : Nat) :
    ∃ rest, l.rotate i = cyc l i :: rest ∧ rest.length + 1 = l.length ∧
      (∀ t, t < rest.length → cyc rest t = cyc l (i + 1 + t)) ∧
      (∀ b, b ∈ rest ↔ b ∈ l ∧ b ≠ cyc l i) := by
  have hrne : l.rotate i ≠ [] := by
    intro he
    have := congrArg List.length he
    rw [List.length_rotate, List.length_nil] at this
    exact hne (List.length_eq_zero.mp this)
  obtain ⟨x, rest, hrot⟩ := List.exists_cons_of_ne_nil hrne
  have hx : x = cyc l i := by
    have h0 : cyc (l.rotate i) 0 = x := by
      rw [hrot]; simp [cyc, List.getD_eq_getElem?_getD]
    rw [← h0, cyc_rotate, Nat.zero_add]
  subst hx
  have hlen : rest.length + 1 = l.length := by
    have := congrArg List.length hrot
    rw [List.length_rotate, List.length_cons] at this
    exact this.symm
  have hnr : (cyc l i :: rest).Nodup := hrot ▸ List.nodup_rotate.mpr hn
  refine ⟨rest, hrot, hlen, fun t ht => ?_, fun b => ?_⟩
  · have h1 : cyc (l.rotate i) (t + 1) = cyc l (t + 1 + i) := cyc_rotate l i (t + 1)
    rw [hrot] at h1
    have h2 : cyc (cyc l i :: rest) (t + 1) = cyc rest t := cyc_cons_succ _ rest t ht
    rw [← h2, h1]
    congr 1; omega
  · have hm : b ∈ l ↔ b ∈ cyc l i :: rest := by rw [← hrot]; exact List.mem_rotate.symm
    rw [hm, List.mem_cons]
    constructor
    · intro hb
      exact ⟨Or.inr hb, fun he => (List.nodup_cons.mp hnr).1 (he ▸ hb)⟩
    · rintro ⟨h1 | h1, h2⟩
      · exact absurd h1 h2
      · exact h1


/-- The removal done by `sigchld_handler` for a terminated child, after it has
decremented `running_tasks`. -/
theorem reap_remove (s : State) (l : List Nat) (pid : Int) (a fuel : Nat)
    (hwf : WellFormed s l) (hd : DistinctPids s.mem l) (ha : a ∈ l)
    (hpid : pidAt s.mem a = some pid) (hfuel : l.length ≤ fuel) :
    ∃ s1, remove_task fuel { s with running_tasks := s.running_tasks - 1 } pid = some s1 ∧
      s1.running_tasks = s.running_tasks - 1 ∧
      s1.list_head = s.list_head ∧ s1.list_tail = s.list_tail ∧
      s1.curr_task = s.curr_task ∧ s1.created_tasks = s.created_tasks ∧
      s1.trace = s.trace ∧
      IsRing s1.mem (l.erase a) ∧ liveAt s1.mem a = false ∧
      (∀ b, fieldsAt s1.mem b = fieldsAt s.mem b) ∧
      nextOf s1.mem a = nextOf s.mem a := by
  obtain ⟨s1, hs1, g1, g2, g3, g4, g5, g6, hring, hdead, hf, hnx⟩ :=
    remove_task_ring s l pid a fuel hwf hd ha hpid hfuel
  exact ⟨{ s1 with running_tasks := s.running_tasks - 1 },
    remove_task_running fuel s s1 pid _ hs1, rfl, g1, g2, g3, g5, g6, hring, hdead, hf, hnx⟩

/-- In a ring of at least two records with pairwise different process ids, the
record after a record carries another process id. -/
theorem next_pid_ne (m : List Cell) (l : List Nat) (hring : IsRing m l) (hne : l ≠ [])
    (hd : DistinctPids m l) (h2 : 2 ≤ l.length) (i : Nat) :
    pidAt m (cyc l (i + 1)) ≠ pidAt m (cyc l i) := by
  intro he
  have := List.inj_on_of_nodup_map hd (cyc_mem l hne (i + 1)) (cyc_mem l hne i) he
  obtain ⟨rest, _, hlen, hcyc, hmem⟩ := rotate_head l hring.1 hne i
  have h0 : cyc rest 0 = cyc l (i + 1 + 0) := hcyc 0 (by omega)
  have hin : cyc rest 0 ∈ rest := cyc_mem rest (List.ne_nil_of_length_pos (by omega)) 0
  rw [h0, Nat.add_zero] at hin
  exact ((hmem _).mp hin).2 this

/-- C16: in a well-formed registry of at least two records with pairwise
different process ids, when a registered process other than the one of the
current task exits or is killed, one pass of `sigchld_handler` (with fuel at
least the number of records) removes exactly the record of that process:
`curr_task` is unchanged, the other records keep their fields and their order in
the ring, the registry is well formed again with `running_tasks` one less, and
the handler resumes the current task and rearms the timer. -/
theorem reap_other (s : State) (l : List Nat) (pid : Int) (a fuel : Nat) (st : wstatus)
    (hwf : WellFormed s l) (hd : DistinctPids s.mem l) (h2 : 2 ≤ l.length) (ha : a ∈ l)
    (hpid : pidAt s.mem a = some pid)
    (hcur : s.curr_task.bind (pidAt s.mem) ≠ some pid)
    (hfuel : l.length ≤ fuel) (hst : st.terminated = true) :
    ∃ s1 q, sigchld_step fuel s pid st = some (Outcome.ret () s1) ∧
      s1.curr_task = s.curr_task ∧ WellFormed s1 (l.erase a) ∧
      liveAt s1.mem a = false ∧
      (∀ b ∈ l.erase a, fieldsAt s1.mem b = fieldsAt s.mem b) ∧
      s1.running_tasks = s.running_tasks - 1 ∧ s1.created_tasks = s.created_tasks ∧
      s1.list_head = s.list_head ∧ s1.list_tail = s.list_tail ∧
      s.curr_task.bind (pidAt s.mem) = some q ∧
      s1.trace = s.trace ++ [Sys.kill q Signal.SIGCONT, Sys.alarm SCHED_TQ_SEC] := by
  obtain ⟨i, hi, hc⟩ := hwf.curr
  have hring := hwf.1
  have hne := hwf.2.1
  obtain ⟨c, hcl, hcn⟩ := hring.next_at s.mem l hne i
  obtain ⟨cn, hcnl, _⟩ := hring.next_at s.mem l hne (i + 1)
  have hcpid : pidAt s.mem (cyc l i) = some c.task_pid := by simp [pidAt, hcl]
  have hnpid : pidAt s.mem (cyc l (i + 1)) = some cn.task_pid := by simp [pidAt, hcnl]
  have hcb : s.curr_task.bind (pidAt s.mem) = pidAt s.mem (cyc l i) := by rw [hc]; rfl
  have hne1 : ¬ c.task_pid = pid := fun he => hcur (by rw [hcb, hcpid, he])
  have hne2 : ¬ cn.task_pid = c.task_pid := fun he =>
    next_pid_ne s.mem l hring hne hd h2 i (by rw [hcpid, hnpid, he])
  have hac : a ≠ cyc l i := fun he => hcur (by rw [hcb, ← he]; exact hpid)
  obtain ⟨s1, hs1, g0, g1, g2, g3, g5, g6, hring1, hdead, hf, _⟩ :=
    reap_remove s l pid a fuel hwf hd ha hpid hfuel
  have hcin : cyc l i ∈ l.erase a :=
    (List.mem_erase_of_ne (Ne.symm hac)).mpr (cyc_mem l hne i)
  -- the record of the current task after the removal
  obtain ⟨j, _, hj⟩ := exists_cyc_of_mem _ _ hcin
  have hne3 : l.erase a ≠ [] := List.ne_nil_of_mem hcin
  obtain ⟨c1, hc1, _⟩ := hring1.next_at s1.mem _ hne3 j
  rw [hj] at hc1
  have hpid1 : c1.task_pid = c.task_pid := by
    have e := hf (cyc l i)
    simp only [fieldsAt, hc1, hcl, Option.map_some', Option.some.injEq, task_t.fields,
      Fields.mk.injEq] at e
    exact e.2.1
  have hreap : sigchld_reap fuel s pid = some (Outcome.ret () s1) := by
    have hs2 := hs1
    rw [hc] at hs2
    simp [sigchld_reap, hc, hcl, hcn, hcnl, hne1, hne2, hs2, bind, pure]
  refine ⟨{ s1 with trace := s1.trace ++
      [Sys.kill c.task_pid Signal.SIGCONT, Sys.alarm SCHED_TQ_SEC] }, c.task_pid, ?_, ?_, ?_,
    hdead, fun b _ => hf b, g0, g5, g1, g2, ?_, ?_⟩
  · have hs : st.isStopped = false := by cases st <;> simp_all [wstatus.terminated, wstatus.isStopped]
    simp [sigchld_step, hst, hs, hreap, g3, hc, hc1, hpid1, bind, pure]
  · exact g3
  · refine ⟨hring1, hne3, ?_, cyc l i, hcin, ?_⟩
    · simp only [g0, hwf.2.2.1, List.length_erase_of_mem ha]
      omega
    · simp only [g3, hc]
  · rw [hcb]; exact hcpid
  · simp only [g6]


/-- C16, at an example: the process 102 exits in `exampleLow`, where the current
task is the process 101. -/
theorem reap_other_witness :
    (WellFormed exampleLow [0, 1, 2] ∧ DistinctPids exampleLow.mem [0, 1, 2] ∧
      2 ≤ ([0, 1, 2] : List Nat).length ∧ 2 ∈ [0, 1, 2] ∧
      pidAt exampleLow.mem 2 = some 102 ∧
      exampleLow.curr_task.bind (pidAt exampleLow.mem) ≠ some 102 ∧
      ([0, 1, 2] : List Nat).length ≤ 3 ∧ (wstatus.exited 0).terminated = true) ∧
    ∃ s1 q, sigchld_step 3 exampleLow 102 (wstatus.exited 0) = some (Outcome.ret () s1) ∧
      s1.curr_task = exampleLow.curr_task ∧ WellFormed s1 ([0, 1, 2].erase 2) ∧
      liveAt s1.mem 2 = false ∧
      (∀ b ∈ [0, 1, 2].erase 2, fieldsAt s1.mem b = fieldsAt exampleLow.mem b) ∧
      s1.running_tasks = exampleLow.running_tasks - 1 ∧
      s1.created_tasks = exampleLow.created_tasks ∧
      s1.list_head = exampleLow.list_head ∧ s1.list_tail = exampleLow.list_tail ∧
      exampleLow.curr_task.bind (pidAt exampleLow.mem) = some q ∧
      s1.trace = exampleLow.trace ++ [Sys.kill q Signal.SIGCONT, Sys.alarm SCHED_TQ_SEC] :=
  ⟨by decide, reap_other exampleLow [0, 1, 2] 102 2 3 (wstatus.exited 0) (by decide)
    (by decide) (by decide) (by decide) (by decide) (by decide) (by decide) (by decide)⟩

/-- One pass of `sigchld_handler` when the process of the current task, the
record at position `i` of a well-formed registry of at least two records with
pairwise different process ids, has exited or been killed: the record is removed,
and `next_task`, called after the removal, chooses among the remaining records
the first one of priority HIGH after the removed record, or its successor when
none has priority HIGH. -/
theorem reap_current (s : State) (l : List Nat) (pid : Int) (i fuel : Nat) (st : wstatus)
    (hwf : WellFormed s l) (hd : DistinctPids s.mem l) (h2 : 2 ≤ l.length)
    (hc : s.curr_task = some (cyc l i)) (hpid : pidAt s.mem (cyc l i) = some pid)
    (hfuel : l.length ≤ fuel) (hst : st.terminated = true) :
    ∃ s1 p q, sigchld_step fuel s pid st = some (Outcome.ret () s1) ∧
      s1.curr_task = some p ∧ WellFormed s1 (l.erase (cyc l i)) ∧
      liveAt s1.mem (cyc l i) = false ∧
      (∀ b, fieldsAt s1.mem b = fieldsAt s.mem b) ∧
      s1.running_tasks = s.running_tasks - 1 ∧ s1.created_tasks = s.created_tasks ∧
      s1.list_head = s.list_head ∧ s1.list_tail = s.list_tail ∧
      pidAt s.mem p = some q ∧
      s1.trace = s.trace ++ [Sys.kill q Signal.SIGCONT, Sys.alarm SCHED_TQ_SEC] ∧
      ((∀ b ∈ l, b ≠ cyc l i → prioAt s.mem (some b) = some prio.LOW) →
        p = cyc l (i + 1)) ∧
      (∀ d, d + 1 < l.length → prioAt s.mem (some (cyc l (i + 1 + d))) = some prio.HIGH →
        (∀ t, t < d → prioAt s.mem (some (cyc l (i + 1 + t))) = some prio.LOW) →
        p = cyc l (i + 1 + d)) := by
  have hring := hwf.1
  have hne := hwf.2.1
  have hn := hring.1
  obtain ⟨c, hcl, hcn⟩ := hring.next_at s.mem l hne i
  obtain ⟨cn, hcnl, _⟩ := hring.next_at s.mem l hne (i + 1)
  have hcpid : pidAt s.mem (cyc l i) = some c.task_pid := by simp [pidAt, hcl]
  have hnpid : pidAt s.mem (cyc l (i + 1)) = some cn.task_pid := by simp [pidAt, hcnl]
  have he1 : c.task_pid = pid := by rw [hcpid] at hpid; exact Option.some.inj hpid
  have hne2 : ¬ cn.task_pid = c.task_pid := fun he =>
    next_pid_ne s.mem l hring hne hd h2 i (by rw [hcpid, hnpid, he])
  obtain ⟨s1, hs1, g0, g1, g2, g3, g5, g6, hring1, hdead, hf, hnx⟩ :=
    reap_remove s l pid (cyc l i) fuel hwf hd (cyc_mem l hne i) hpid hfuel
  -- the remaining records, starting with the successor
  obtain ⟨rest, hrot, hlen, hcyc, hmem⟩ := rotate_head l hn hne i
  have hrest : IsRing s1.mem rest := by
    have hrot2 : l.rotate (i % l.length) = cyc l i :: rest := by
      rw [List.rotate_mod]; exact hrot
    exact hring1.of_isRotated s1.mem _ rest
      (erase_isRotated l rest _ (i % l.length) hn
        (Nat.mod_lt _ (List.length_pos.mpr hne)) hrot2)
  have hrne : rest ≠ [] := List.ne_nil_of_length_pos (by omega)
  have hmem2 : ∀ b, b ∈ rest ↔ b ∈ l.erase (cyc l i) := fun b => by
    rw [hmem, List.Nodup.mem_erase_iff hn, and_comm]
  have hprio : ∀ b, prioAt s1.mem (some b) = prioAt s.mem (some b) := fun b => by
    rw [prioAt_eq_fieldsAt, prioAt_eq_fieldsAt, hf]
  -- the stale record of the removed task
  obtain ⟨t1, ht1⟩ : ∃ t1, load s1.mem (some (cyc l i)) = some t1 := by
    have e := hf (cyc l i)
    simp only [fieldsAt, hcl, Option.map_some'] at e
    cases hl : load s1.mem (some (cyc l i)) with
    | none => simp [hl] at e
    | some t1 => exact ⟨t1, rfl⟩
  have ht1n : t1.next = some (cyc rest 0) := by
    have e := hnx
    rw [nextOf_eq_load, nextOf_eq_load, ht1, hcl] at e
    simp only [Option.bind] at e
    rw [e, hcn, hcyc 0 (by omega)]
  have hk : (s1.running_tasks + 1).toNat = rest.length + 1 := by
    rw [g0, hwf.2.2.1]; omega
  -- the choice of `next_task`
  have hchoice : ∃ p, next_task s1 = some (some p) ∧ p ∈ rest ∧
      ((∀ b ∈ l, b ≠ cyc l i → prioAt s.mem (some b) = some prio.LOW) →
        p = cyc l (i + 1)) ∧
      (∀ d, d + 1 < l.length → prioAt s.mem (some (cyc l (i + 1 + d))) = some prio.HIGH →
        (∀ t, t < d → prioAt s.mem (some (cyc l (i + 1 + t))) = some prio.LOW) →
        p = cyc l (i + 1 + d)) := by
    have huniq : ∀ d d1, d < rest.length → d1 < rest.length →
        prioAt s.mem (some (cyc l (i + 1 + d))) = some prio.HIGH →
        (∀ t, t < d → prioAt s.mem (some (cyc l (i + 1 + t))) = some prio.LOW) →
        prioAt s.mem (some (cyc l (i + 1 + d1))) = some prio.HIGH →
        (∀ t, t < d1 → prioAt s.mem (some (cyc l (i + 1 + t))) = some prio.LOW) →
        d = d1 := by
      intro d d1 _ _ hh hl hh1 hl1
      rcases Nat.lt_trichotomy d d1 with h | h | h
      · have := hl1 d h; rw [hh] at this; exact absurd this (by simp)
      · exact h
      · have := hl d1 h; rw [hh1] at this; exact absurd this (by simp)
    by_cases hex : ∃ b ∈ rest, prioAt s1.mem (some b) = some prio.HIGH
    · obtain ⟨d, hdl, hhigh, hlow⟩ := exists_first_high s1.mem rest hrest hrne 0 hex
      simp only [Nat.zero_add] at hhigh hlow
      have hscan := next_task_scan_high s1.mem rest hrest hrne (rest.length + 1) 0 d
        (by omega) (by simpa using hlow) (by simpa using hhigh)
      rw [Nat.zero_add] at hscan
      have hhigh0 : prioAt s.mem (some (cyc l (i + 1 + d))) = some prio.HIGH := by
        rw [← hcyc d hdl, ← hprio]; exact hhigh
      have hlow0 : ∀ t, t < d → prioAt s.mem (some (cyc l (i + 1 + t))) = some prio.LOW := by
        intro t ht
        rw [← hcyc t (by omega), ← hprio]; exact hlow t ht
      refine ⟨cyc rest d, ?_, cyc_mem rest hrne d, fun hall => ?_, fun d1 hd1 hh1 hl1 => ?_⟩
      · simp [next_task, g3, hc, ht1, ht1n, hk, hscan, bind, pure]
      · have hin : cyc rest d ∈ rest := cyc_mem rest hrne d
        have := hall _ ((hmem _).mp hin).1 ((hmem _).mp hin).2
        rw [hcyc d hdl, hhigh0] at this
        exact absurd this (by simp)
      · rw [hcyc d hdl]
        have := huniq d d1 hdl (by omega) hhigh0 hlow0 hh1 hl1
        rw [this]
    · have hlow : ∀ b ∈ rest, prioAt s1.mem (some b) = some prio.LOW := by
        intro b hb
        obtain ⟨j, _, rfl⟩ := exists_cyc_of_mem rest b hb
        rcases prioAt_ring s1.mem rest hrest hrne j with h | h
        · exact h
        · exact absurd ⟨_, hb, h⟩ hex
      have hscan := next_task_scan_low s1.mem rest hrest hrne (rest.length + 1) 0
        (fun t _ => hlow _ (cyc_mem rest hrne _))
      refine ⟨cyc rest 0, ?_, cyc_mem rest hrne 0, fun _ => ?_, fun d1 hd1 hh1 _ => ?_⟩
      · simp [next_task, g3, hc, ht1, ht1n, hk, hscan, bind, pure]
      · rw [hcyc 0 (by omega)]
      · have hin : cyc rest d1 ∈ rest := cyc_mem rest hrne d1
        have := hlow _ hin
        rw [hprio, hcyc d1 (by omega), hh1] at this
        exact absurd this (by simp)
  obtain ⟨p, hnext, hp, hA, hB⟩ := hchoice
  -- the record chosen
  obtain ⟨j, _, hj⟩ := exists_cyc_of_mem rest p hp
  obtain ⟨r, hr, _⟩ := hrest.next_at s1.mem rest hrne j
  rw [hj] at hr
  obtain ⟨r0, hr0⟩ : ∃ r0, load s.mem (some p) = some r0 := by
    have e := hf p
    simp only [fieldsAt, hr, Option.map_some'] at e
    cases hl : load s.mem (some p) with
    | none => simp [hl] at e
    | some r0 => exact ⟨r0, rfl⟩
  have hrpid : r.task_pid = r0.task_pid := by
    have e := hf p
    simp only [fieldsAt, hr, hr0, Option.map_some', Option.some.injEq, task_t.fields,
      Fields.mk.injEq] at e
    exact e.2.1
  have hreap : sigchld_reap fuel s pid = some (Outcome.ret () { s1 with curr_task := some p }) := by
    have hs2 := hs1
    rw [hc] at hs2
    simp [sigchld_reap, hc, hcl, hcn, hcnl, he1, hne2, hs2, hnext, bind, pure]
    intro he
    exact absurd he (by rw [← he1]; exact hne2)
  have hs : st.isStopped = false := by
    cases st <;> simp_all [wstatus.terminated, wstatus.isStopped]
  refine ⟨{ s1 with curr_task := some p, trace := s1.trace ++
      [Sys.kill r.task_pid Signal.SIGCONT, Sys.alarm SCHED_TQ_SEC] }, p, r0.task_pid, ?_, rfl,
    ⟨hring1, ?_, ?_, p, (hmem2 p).mp hp, rfl⟩, hdead, hf, g0, g5, g1, g2, ?_, ?_, hA, hB⟩
  · simp [sigchld_step, hst, hs, hreap, hr, bind, pure]
  · exact List.ne_nil_of_mem ((hmem2 p).mp hp)
  · simp only [g0, hwf.2.2.1, List.length_erase_of_mem (cyc_mem l hne i)]
    omega
  · simp [pidAt, hr0]
  · simp only [g6, hrpid]


/-- C15, as amended: in a well-formed registry of at least two records with
pairwise different process ids, when the process of the current task `c` exits
or is killed, one pass of `sigchld_handler` (with fuel at least the number of
records) removes the record `c` and sets `curr_task` to a remaining record `p`,
chosen by `next_task` after the removal.  If `c` has priority LOW, or another
record has priority HIGH, `p` is the record `next_task` returns on the registry
as it was before the removal.  If `c` is the only record of priority HIGH,
`next_task` on the registry before the removal returns `c` itself, and `p` is
the successor of `c`. -/
theorem reap_current_choice (s : State) (l : List Nat) (pid : Int) (c fuel : Nat)
    (st : wstatus) (hwf : WellFormed s l) (hd : DistinctPids s.mem l) (h2 : 2 ≤ l.length)
    (hc : s.curr_task = some c) (hpid : pidAt s.mem c = some pid)
    (hfuel : l.length ≤ fuel) (hst : st.terminated = true) :
    ∃ s1 p, sigchld_step fuel s pid st = some (Outcome.ret () s1) ∧
      s1.curr_task = some p ∧ p ∈ l.erase c ∧ WellFormed s1 (l.erase c) ∧
      liveAt s1.mem c = false ∧
      (∀ b ∈ l.erase c, fieldsAt s1.mem b = fieldsAt s.mem b) ∧
      s1.running_tasks = s.running_tasks - 1 ∧
      ((prioAt s.mem (some c) = some prio.LOW ∨
          ∃ b ∈ l.erase c, prioAt s.mem (some b) = some prio.HIGH) →
        next_task s = some (some p)) ∧
      ((prioAt s.mem (some c) = some prio.HIGH ∧
          ∀ b ∈ l.erase c, prioAt s.mem (some b) = some prio.LOW) →
        next_task s = some (some c) ∧ some p = nextOf s.mem c ∧ p ≠ c) := by
  obtain ⟨i, hi, hci⟩ := hwf.curr
  have hring := hwf.1
  have hne := hwf.2.1
  have hn := hring.1
  have hcc : c = cyc l i := by rw [hc] at hci; exact Option.some.inj hci
  subst hcc
  obtain ⟨s1, p, q, hstep, hcur, hwf1, hdead, hf, hrun, _, _, _, _, _, hA, hB⟩ :=
    reap_current s l pid i fuel st hwf hd h2 hc hpid hfuel hst
  obtain ⟨p1, hp1, hp1c⟩ := hwf1.2.2.2
  have hpp : p1 = p := by rw [hcur] at hp1c; exact (Option.some.inj hp1c).symm
  subst hpp
  obtain ⟨rest, hrot, hlen, hcyc, hmem⟩ := rotate_head l hn hne i
  have hmem2 : ∀ b, b ∈ l.erase (cyc l i) ↔ b ∈ l ∧ b ≠ cyc l i := fun b => by
    rw [List.Nodup.mem_erase_iff hn, and_comm]
  have hrne : rest ≠ [] := List.ne_nil_of_length_pos (by omega)
  have hrest_low : (∀ b ∈ l.erase (cyc l i), prioAt s.mem (some b) = some prio.LOW) →
      ∀ t, t < rest.length → prioAt s.mem (some (cyc l (i + 1 + t))) = some prio.LOW := by
    intro hall t ht
    have hin : cyc rest t ∈ rest := cyc_mem rest hrne t
    rw [hcyc t ht] at hin
    exact hall _ ((hmem2 _).mpr ((hmem _).mp hin))
  refine ⟨s1, p1, hstep, hcur, hp1, hwf1, hdead, fun b _ => hf b, hrun, ?_, ?_⟩
  · rintro (hlow | ⟨b, hb, hhigh⟩)
    · by_cases hex : ∃ b ∈ l.erase (cyc l i), prioAt s.mem (some b) = some prio.HIGH
      · obtain ⟨b, hb, hhigh⟩ := hex
        obtain ⟨d, hdl, hh, hl⟩ := exists_first_high s.mem l hring hne (i + 1)
          ⟨b, ((hmem2 b).mp hb).1, hhigh⟩
        have hd1 : d + 1 < l.length := by
          by_contra hcon
          have hdn : d = l.length - 1 := by omega
          rw [hdn, show i + 1 + (l.length - 1) = i + l.length by omega, cyc_add_length,
            hlow] at hh
          exact absurd hh (by simp)
        rw [next_task_of_first_high s l hwf i d hc hdl hl hh, hB d hd1 hh hl]
      · have hall : ∀ b ∈ l, prioAt s.mem (some b) = some prio.LOW := by
          intro b hb
          by_cases hbc : b = cyc l i
          · rw [hbc]; exact hlow
          · obtain ⟨j, _, rfl⟩ := exists_cyc_of_mem l b hb
            rcases prioAt_ring s.mem l hring hne j with h | h
            · exact h
            · exact absurd ⟨_, (hmem2 _).mpr ⟨hb, hbc⟩, h⟩ hex
        rw [next_task_of_all_low s l hwf i hc hall, hA (fun b hb _ => hall b hb)]
    · obtain ⟨j, hj, hbj⟩ : ∃ j, j < rest.length ∧ cyc l (i + 1 + j) = b := by
        have hbr : b ∈ rest := (hmem b).mpr ((hmem2 b).mp hb)
        obtain ⟨j, hj, hjb⟩ := exists_cyc_of_mem rest b hbr
        exact ⟨j, hj, by rw [← hcyc j hj]; exact hjb⟩
      obtain ⟨d, hdl, hh, hl⟩ := exists_first_high s.mem l hring hne (i + 1)
        ⟨b, ((hmem2 b).mp hb).1, hhigh⟩
      have hdj : d ≤ j := by
        by_contra hcon
        have := hl j (by omega)
        rw [hbj, hhigh] at this
        exact absurd this (by simp)
      rw [next_task_of_first_high s l hwf i d hc hdl hl hh, hB d (by omega) hh hl]
  · rintro ⟨hhigh, hall⟩
    have hpA := hA (fun b hb hbc => hall b ((hmem2 b).mpr ⟨hb, hbc⟩))
    have hnext : next_task s = some (some (cyc l i)) := by
      have := next_task_of_first_high s l hwf i (l.length - 1) hc (by omega)
        (fun t ht => hrest_low hall t (by omega))
        (by rw [show i + 1 + (l.length - 1) = i + l.length by omega, cyc_add_length]
            exact hhigh)
      rw [this, show i + 1 + (l.length - 1) = i + l.length by omega, cyc_add_length]
    refine ⟨hnext, ?_, ((hmem2 p1).mp hp1).2⟩
    rw [hpA, (hring.at s.mem l hne i).2.1]

/-- C15, at an example: the current task of `exampleLow`, the process 101, exits. -/
theorem reap_current_choice_witness :
    (WellFormed exampleLow [0, 1, 2] ∧ DistinctPids exampleLow.mem [0, 1, 2] ∧
      2 ≤ ([0, 1, 2] : List Nat).length ∧ exampleLow.curr_task = some 1 ∧
      pidAt exampleLow.mem 1 = some 101 ∧ ([0, 1, 2] : List Nat).length ≤ 3 ∧
      (wstatus.exited 0).terminated = true) ∧
    ∃ s1 p, sigchld_step 3 exampleLow 101 (wstatus.exited 0) = some (Outcome.ret () s1) ∧
      s1.curr_task = some p ∧ p ∈ [0, 1, 2].erase 1 ∧ WellFormed s1 ([0, 1, 2].erase 1) ∧
      liveAt s1.mem 1 = false ∧
      (∀ b ∈ [0, 1, 2].erase 1, fieldsAt s1.mem b = fieldsAt exampleLow.mem b) ∧
      s1.running_tasks = exampleLow.running_tasks - 1 ∧
      ((prioAt exampleLow.mem (some 1) = some prio.LOW ∨
          ∃ b ∈ [0, 1, 2].erase 1, prioAt exampleLow.mem (some b) = some prio.HIGH) →
        next_task exampleLow = some (some p)) ∧
      ((prioAt exampleLow.mem (some 1) = some prio.HIGH ∧
          ∀ b ∈ [0, 1, 2].erase 1, prioAt exampleLow.mem (some b) = some prio.LOW) →
        next_task exampleLow = some (some 1) ∧ some p = nextOf exampleLow.mem 1 ∧ p ≠ 1) :=
  ⟨by decide, reap_current_choice exampleLow [0, 1, 2] 101 1 3 (wstatus.exited 0) (by decide)
    (by decide) (by decide) (by decide) (by decide) (by decide) (by decide)⟩

/-- C15 as stated fails: in the well-formed registry `exampleCurrHigh` the
current task, the process 100 at address 0, is the only one of priority HIGH.
On the registry before the removal `next_task` returns the record 0 itself;
when the process 100 exits, `sigchld_handler` removes the record 0 and sets
`curr_task` to the record 1, its successor. -/
theorem reap_current_lone_high :
    WellFormed exampleCurrHigh [0, 1, 2] ∧ DistinctPids exampleCurrHigh.mem [0, 1, 2] ∧
    2 ≤ ([0, 1, 2] : List Nat).length ∧
    exampleCurrHigh.curr_task = some 0 ∧ pidAt exampleCurrHigh.mem 0 = some 100 ∧
    next_task exampleCurrHigh = some (some 0) ∧
    ∃ s1, sigchld_step 3 exampleCurrHigh 100 (wstatus.exited 0) = some (Outcome.ret () s1) ∧
      liveAt s1.mem 0 = false ∧ s1.curr_task = some 1 ∧
      some s1.curr_task ≠ next_task exampleCurrHigh := by
  refine ⟨by decide, by decide, by decide, rfl, by decide, by decide, _, rfl, by decide,
    by decide, by decide⟩

end Scheduler

namespace Scheduler

/-! ## The choice of `next_task` -/

/-- The loop of `next_task` on a well-formed registry with a record of priority
HIGH returns a record of priority HIGH, which is then the result of `next_task`. -/
theorem next_task_scan_finds_high (s : State) (l : List Nat) (c : task_t)
    (hwf : WellFormed s l) (hc : load s.mem s.curr_task = some c)
    (hex : ∃ a ∈ l, prioAt s.mem (some a) = some prio.HIGH) :
    ∃ p ∈ l, next_task_scan s.mem (s.running_tasks + 1).toNat c.next
        = some (some (some p)) ∧
      prioAt s.mem (some p) = some prio.HIGH ∧ next_task s = some (some p) := by
  obtain ⟨i, _, hci⟩ := hwf.curr
  obtain ⟨hring, hne, hrun, _⟩ := hwf
  obtain ⟨c1, hcl, hcn⟩ := hring.next_at s.mem l hne i
  rw [hci, hcl, Option.some.injEq] at hc
  subst hc
  have hk : (s.running_tasks + 1).toNat = l.length + 1 := by rw [hrun]; omega
  obtain ⟨d, hd, hh, hl⟩ := exists_first_high s.mem l hring hne (i + 1) hex
  have hscan := next_task_scan_high s.mem l hring hne (l.length + 1) (i + 1) d (by omega)
    hl hh
  refine ⟨cyc l (i + 1 + d), cyc_mem l hne _, by rw [hk, hcn]; exact hscan, hh, ?_⟩
  simp [next_task, hci, hcl, hcn, hk, hscan]

/-- C17, as amended: in every well-formed registry (a circular ring,
`running_tasks` equal to the number of records, `curr_task` registered) that
contains a task of priority HIGH, the loop of `next_task`, which visits
`running_tasks + 1` records from the successor of `curr_task` on, meets a task of
priority HIGH and `next_task` returns it; the loop runs to its end, so that the
successor of `curr_task` is returned, exactly when no task has priority HIGH. -/
theorem next_task_scan_meets_high (s : State) (l : List Nat) (hwf : WellFormed s l) :
    ∃ c, load s.mem s.curr_task = some c ∧
      (next_task_scan s.mem (s.running_tasks + 1).toNat c.next = some none ↔
        ∀ a ∈ l, prioAt s.mem (some a) = some prio.LOW) ∧
      ((∃ a ∈ l, prioAt s.mem (some a) = some prio.HIGH) →
        ∃ p ∈ l, next_task_scan s.mem (s.running_tasks + 1).toNat c.next
            = some (some (some p)) ∧
          prioAt s.mem (some p) = some prio.HIGH ∧ next_task s = some (some p)) := by
  obtain ⟨i, _, hc⟩ := hwf.curr
  have hring := hwf.1
  have hne := hwf.2.1
  obtain ⟨c, hcl, hcn⟩ := hring.next_at s.mem l hne i
  have hcc : load s.mem s.curr_task = some c := by rw [hc]; exact hcl
  have hk : (s.running_tasks + 1).toNat = l.length + 1 := by rw [hwf.2.2.1]; omega
  refine ⟨c, hcc, ⟨fun hnone a ha => ?_, fun hlow => ?_⟩,
    next_task_scan_finds_high s l c hwf hcc⟩
  · obtain ⟨j, _, rfl⟩ := exists_cyc_of_mem l a ha
    rcases prioAt_ring s.mem l hring hne j with h | h
    · exact h
    · obtain ⟨p, _, hscan, _⟩ := next_task_scan_finds_high s l c hwf hcc ⟨_, ha, h⟩
      rw [hnone] at hscan
      exact absurd hscan (by simp)
  · rw [hk, hcn]
    exact next_task_scan_low s.mem l hring hne (l.length + 1) (i + 1)
      (fun t _ => hlow _ (cyc_mem l hne _))

/-- C17, at an example: the registry `exampleHigh`. -/
theorem next_task_scan_meets_high_witness :
    WellFormed exampleHigh [0, 1, 2] ∧
    ∃ c, load exampleHigh.mem exampleHigh.curr_task = some c ∧
      (next_task_scan exampleHigh.mem (exampleHigh.running_tasks + 1).toNat c.next
          = some none ↔
        ∀ a ∈ [0, 1, 2], prioAt exampleHigh.mem (some a) = some prio.LOW) ∧
      ((∃ a ∈ [0, 1, 2], prioAt exampleHigh.mem (some a) = some prio.HIGH) →
        ∃ p ∈ [0, 1, 2],
          next_task_scan exampleHigh.mem (exampleHigh.running_tasks + 1).toNat c.next
            = some (some (some p)) ∧
          prioAt exampleHigh.mem (some p) = some prio.HIGH ∧
          next_task exampleHigh = some (some p)) :=
  ⟨by decide, next_task_scan_meets_high exampleHigh [0, 1, 2] (by decide)⟩

/-- C17 as stated fails: there is no well-formed registry that contains a task of
priority HIGH and in which the loop of `next_task` runs to its end, and none in
which `next_task` returns a task of priority LOW. -/
theorem no_registry_misses_high :
    (¬ ∃ (s : State) (l : List Nat) (c : task_t), WellFormed s l ∧
      (∃ a ∈ l, prioAt s.mem (some a) = some prio.HIGH) ∧
      load s.mem s.curr_task = some c ∧
      next_task_scan s.mem (s.running_tasks + 1).toNat c.next = some none) ∧
    (¬ ∃ (s : State) (l : List Nat) (p : Ptr), WellFormed s l ∧
      (∃ a ∈ l, prioAt s.mem (some a) = some prio.HIGH) ∧
      next_task s = some p ∧ prioAt s.mem p = some prio.LOW) := by
  constructor
  · rintro ⟨s, l, c, hwf, hex, hc, hscan⟩
    obtain ⟨p, _, hp, _⟩ := next_task_scan_finds_high s l c hwf hc hex
    rw [hscan] at hp
    exact absurd hp (by simp)
  · rintro ⟨s, l, p, hwf, hex, hnext, hlow⟩
    obtain ⟨i, _, hc⟩ := hwf.curr
    obtain ⟨c, hcl, _⟩ := hwf.1.next_at s.mem l hwf.2.1 i
    obtain ⟨q, _, _, hq, hn⟩ := next_task_scan_finds_high s l c hwf (by rw [hc]; exact hcl) hex
    rw [hnext, Option.some.injEq] at hn
    subst hn
    rw [hq] at hlow
    exact absurd hlow (by simp)


/-! ## Stopped children -/

/-- One pass of `sigchld_handler` for a stopped child: `curr_task` becomes the
record `next_task` returns, that task is resumed and the timer rearmed; nothing
else changes. -/
theorem stop_step (s : State) (l : List Nat) (p : Nat) (hwf : WellFormed s l)
    (hnext : next_task s = some (some p)) (hp : p ∈ l) (fuel : Nat) (pid : Int) (sig : Nat) :
    ∃ q, pidAt s.mem p = some q ∧
      sigchld_step fuel s pid (wstatus.stopped sig) = some (Outcome.ret ()
        { s with curr_task := some p,
                 trace := s.trace ++ [Sys.kill q Signal.SIGCONT, Sys.alarm SCHED_TQ_SEC] }) := by
  obtain ⟨j, _, rfl⟩ := exists_cyc_of_mem l p hp
  obtain ⟨r, hr, _⟩ := hwf.1.next_at s.mem l hwf.2.1 j
  refine ⟨r.task_pid, by simp [pidAt, hr], ?_⟩
  simp [sigchld_step, wstatus.terminated, wstatus.isStopped, hnext, hr, bind, pure]

/-- C20: in a well-formed registry in which the current task has priority HIGH
and every other registered task has priority LOW, `next_task` returns
`curr_task` itself; hence one pass of `sigchld_handler` for a stopped child
leaves `curr_task` (and the registry) unchanged: it resumes the current task
again and rearms the timer. -/
theorem lone_high_monopolises (s : State) (l : List Nat) (c : Nat) (hwf : WellFormed s l)
    (hc : s.curr_task = some c) (hhigh : prioAt s.mem (some c) = some prio.HIGH)
    (hlow : ∀ b ∈ l, b ≠ c → prioAt s.mem (some b) = some prio.LOW) :
    next_task s = some (some c) ∧
    ∀ (fuel : Nat) (pid : Int) (sig : Nat), ∃ s1 q,
      sigchld_step fuel s pid (wstatus.stopped sig) = some (Outcome.ret () s1) ∧
      s1.curr_task = s.curr_task ∧ pidAt s.mem c = some q ∧
      s1 = { s with trace := s.trace ++
        [Sys.kill q Signal.SIGCONT, Sys.alarm SCHED_TQ_SEC] } := by
  obtain ⟨i, hi, hci⟩ := hwf.curr
  have hring := hwf.1
  have hne := hwf.2.1
  have hcc : c = cyc l i := by rw [hc] at hci; exact Option.some.inj hci
  subst hcc
  obtain ⟨rest, _, hlen, hcyc, hmem⟩ := rotate_head l hring.1 hne i
  have hnext : next_task s = some (some (cyc l i)) := by
    have := next_task_of_first_high s l hwf i (l.length - 1) hc (by omega)
      (fun t ht => by
        have htr : t < rest.length := by omega
        have hin : cyc rest t ∈ rest := cyc_mem rest (List.ne_nil_of_length_pos (by omega)) t
        rw [hcyc t htr] at hin
        exact hlow _ ((hmem _).mp hin).1 ((hmem _).mp hin).2)
      (by rw [show i + 1 + (l.length - 1) = i + l.length by omega, cyc_add_length]
          exact hhigh)
    rw [this, show i + 1 + (l.length - 1) = i + l.length by omega, cyc_add_length]
  refine ⟨hnext, fun fuel pid sig => ?_⟩
  obtain ⟨q, hq, hstep⟩ := stop_step s l (cyc l i) hwf hnext (cyc_mem l hne i) fuel pid sig
  refine ⟨_, q, hstep, hc.symm, hq, ?_⟩
  rw [← hc]

/-- C20, at an example: the registry `exampleCurrHigh`. -/
theorem lone_high_monopolises_witness :
    (WellFormed exampleCurrHigh [0, 1, 2] ∧ exampleCurrHigh.curr_task = some 0 ∧
      prioAt exampleCurrHigh.mem (some 0) = some prio.HIGH ∧
      ∀ b ∈ [0, 1, 2], b ≠ 0 → prioAt exampleCurrHigh.mem (some b) = some prio.LOW) ∧
    (next_task exampleCurrHigh = some (some 0) ∧
    ∀ (fuel : Nat) (pid : Int) (sig : Nat), ∃ s1 q,
      sigchld_step fuel exampleCurrHigh pid (wstatus.stopped sig)
        = some (Outcome.ret () s1) ∧
      s1.curr_task = exampleCurrHigh.curr_task ∧ pidAt exampleCurrHigh.mem 0 = some q ∧
      s1 = { exampleCurrHigh with trace := exampleCurrHigh.trace ++
        [Sys.kill q Signal.SIGCONT, Sys.alarm SCHED_TQ_SEC] }) :=
  ⟨by decide, lone_high_monopolises exampleCurrHigh [0, 1, 2] 0 (by decide) (by decide)
    (by decide) (by decide)⟩


/-- In a well-formed registry of tasks of priority LOW, child-stopped events
advance `curr_task` one record per event along the ring and change nothing else
but the log of system calls. -/
theorem stops_advance (l : List Nat) (fuel : Nat) (events : List (Int × wstatus))
    (hstop : ∀ e ∈ events, e.2.isStopped = true) (s : State) (i : Nat)
    (hwf : WellFormed s l) (hc : s.curr_task = some (cyc l i))
    (hlow : ∀ a ∈ l, prioAt s.mem (some a) = some prio.LOW) :
    ∃ s1, sigchld_handler fuel s events = some (Outcome.ret () s1) ∧
      s1.mem = s.mem ∧ s1.curr_task = some (cyc l (i + events.length)) ∧
      s1.list_head = s.list_head ∧ s1.list_tail = s.list_tail ∧
      s1.running_tasks = s.running_tasks ∧ s1.created_tasks = s.created_tasks ∧
      sigchld_currents fuel s events =
        some ((List.range events.length).map (fun t => some (cyc l (i + 1 + t)))) := by
  induction events generalizing s i with
  | nil => exact ⟨s, rfl, rfl, hc, rfl, rfl, rfl, rfl, rfl⟩
  | cons e events ih =>
    obtain ⟨pid, st⟩ := e
    have hst : st.isStopped = true := hstop (pid, st) (List.mem_cons_self _ _)
    obtain ⟨sig, rfl⟩ : ∃ sig, st = wstatus.stopped sig := by
      cases st <;> simp_all [wstatus.isStopped]
    have hnext := next_task_of_all_low s l hwf i hc hlow
    obtain ⟨q, _, hstep⟩ := stop_step s l (cyc l (i + 1)) hwf hnext (cyc_mem l hwf.2.1 _)
      fuel pid sig
    have hwf1 : WellFormed
        { s with curr_task := some (cyc l (i + 1)),
                 trace := s.trace ++ [Sys.kill q Signal.SIGCONT, Sys.alarm SCHED_TQ_SEC] }
        l :=
      ⟨hwf.1, hwf.2.1, hwf.2.2.1, cyc l (i + 1), cyc_mem l hwf.2.1 _, rfl⟩
    obtain ⟨s1, h1, g1, g2, g3, g4, g5, g6, g7⟩ := ih
      (fun e he => hstop e (List.mem_cons_of_mem _ he)) _ (i + 1) hwf1 rfl hlow
    refine ⟨s1, ?_, g1, ?_, g3, g4, g5, g6, ?_⟩
    · simp only [sigchld_handler, hstep]
      exact h1
    · rw [g2, List.length_cons]
      congr 2; omega
    · simp only [sigchld_currents, hstep, g7, List.length_cons, Option.map_some',
        Option.some.injEq]
      rw [List.range_succ_eq_map, List.map_cons, List.map_map]
      congr 1
      apply List.map_congr_left
      intro t _
      simp only [Function.comp]
      congr 2; omega

theorem range_map_cyc (l : List Nat) (j : Nat) :
    (List.range l.length).map (fun t => cyc l (j + t)) = l.rotate j := by
  apply List.ext_getElem
  · simp
  · intro t h1 h2
    simp only [List.length_map, List.length_range] at h1
    rw [List.getElem_map, List.getElem_range, List.getElem_rotate,
      ← cyc_of_lt l _ (Nat.mod_lt _ (by omega)), cyc_mod]
    congr 1; omega

/-- The events of `sigchld_handler` are handled one after the other: a run
over `xs ++ ys` that returns from `xs` continues with `ys`. -/
theorem sigchld_handler_append (fuel : Nat) (xs ys : List (Int × wstatus)) (s s0 : State)
    (h : sigchld_handler fuel s xs = some (Outcome.ret () s0)) :
    sigchld_handler fuel s (xs ++ ys) = sigchld_handler fuel s0 ys := by
  induction xs generalizing s with
  | nil =>
    simp only [sigchld_handler, Option.some.injEq, Outcome.ret.injEq, true_and] at h
    subst h
    rfl
  | cons e xs ih =>
    obtain ⟨pid, st⟩ := e
    simp only [List.cons_append, sigchld_handler] at h ⊢
    cases hstep : sigchld_step fuel s pid st with
    | none => rw [hstep] at h; simp at h
    | some o =>
      rw [hstep] at h
      cases o with
      | exit c s1 => simp at h
      | ret u s1 => exact ih s1 h

/-- C18: in a well-formed registry of `n` tasks that all have priority LOW, with
the current task at position `i` of the ring, `n` successive child-stopped
events are handled by `sigchld_handler` without fault, and each event advances
`curr_task` by one record: if the handler has handled the first `k` events
(`k < n`), `curr_task` is the record at position `i + k`, and handling one more
event sets `curr_task` to the record at position `i + 1 + k`, sends SIGCONT to
the process of that record and rearms the timer, and changes nothing else. The
records visited this way are the ring in ring order, starting with the
successor of the original current task (the list rotated by `i + 1`), so every
registered task occurs exactly once; after the last event `curr_task` is the
original one, and the heap, `list_head`, `list_tail`, `running_tasks` and
`created_tasks` are unchanged. -/
theorem round_robin (s : State) (l : List Nat) (i fuel : Nat)
    (events : List (Int × wstatus)) (hwf : WellFormed s l)
    (hc : s.curr_task = some (cyc l i))
    (hlow : ∀ a ∈ l, prioAt s.mem (some a) = some prio.LOW)
    (hstop : ∀ e ∈ events, e.2.isStopped = true) (hlen : events.length = l.length) :
    (∀ k, k < l.length → ∃ s0 s1 q,
      sigchld_handler fuel s (events.take k) = some (Outcome.ret () s0) ∧
      s0.curr_task = some (cyc l (i + k)) ∧
      sigchld_handler fuel s (events.take (k + 1)) = some (Outcome.ret () s1) ∧
      pidAt s.mem (cyc l (i + 1 + k)) = some q ∧
      s1 = { s0 with curr_task := some (cyc l (i + 1 + k)),
                     trace := s0.trace ++
                       [Sys.kill q Signal.SIGCONT, Sys.alarm SCHED_TQ_SEC] }) ∧
    (List.range l.length).map (fun k => cyc l (i + 1 + k)) = l.rotate (i + 1) ∧
    sigchld_currents fuel s events = some ((l.rotate (i + 1)).map some) ∧
    (l.rotate (i + 1)).Nodup ∧ (∀ a, a ∈ l.rotate (i + 1) ↔ a ∈ l) ∧
    ∃ s1, sigchld_handler fuel s events = some (Outcome.ret () s1) ∧
      s1.curr_task = s.curr_task ∧ s1.mem = s.mem ∧
      s1.list_head = s.list_head ∧ s1.list_tail = s.list_tail ∧
      s1.running_tasks = s.running_tasks ∧ s1.created_tasks = s.created_tasks := by
  obtain ⟨s1, h1, g1, g2, g3, g4, g5, g6, g7⟩ :=
    stops_advance l fuel events hstop s i hwf hc hlow
  refine ⟨fun k hk => ?_, range_map_cyc l (i + 1), ?_, List.nodup_rotate.mpr hwf.1.1,
    fun a => List.mem_rotate, s1, h1, ?_, g1, g3, g4, g5, g6⟩
  · have hk1 : k < events.length := by omega
    obtain ⟨s0, e0, m0, c0, _, _, r0, _, _⟩ :=
      stops_advance l fuel (events.take k) (fun e he => hstop e (List.mem_of_mem_take he))
        s i hwf hc hlow
    rw [List.length_take, Nat.min_eq_left (by omega)] at c0
    have hwf0 : WellFormed s0 l :=
      ⟨by rw [m0]; exact hwf.1, hwf.2.1, by rw [r0]; exact hwf.2.2.1, cyc l (i + k),
        cyc_mem l hwf.2.1 _, c0⟩
    have hlow0 : ∀ a ∈ l, prioAt s0.mem (some a) = some prio.LOW := by
      rw [m0]; exact hlow
    have hnext := next_task_of_all_low s0 l hwf0 (i + k) c0 hlow0
    obtain ⟨pid, st, hev⟩ : ∃ pid st, events.get ⟨k, hk1⟩ = (pid, st) := ⟨_, _, rfl⟩
    have hst : st.isStopped = true := by
      have := hstop _ (List.get_mem events k hk1)
      rw [hev] at this
      exact this
    obtain ⟨sig, rfl⟩ : ∃ sig, st = wstatus.stopped sig := by
      cases st <;> simp_all [wstatus.isStopped]
    obtain ⟨q, hq, hstep⟩ := stop_step s0 l (cyc l (i + k + 1)) hwf0 hnext
      (cyc_mem l hwf.2.1 _) fuel pid sig
    have hidx : i + 1 + k = i + k + 1 := by omega
    refine ⟨s0, _, q, e0, c0, ?_, by rw [hidx, ← m0]; exact hq, rfl⟩
    have htake : events.take (k + 1) = events.take k ++ [(pid, wstatus.stopped sig)] := by
      rw [← hev, List.take_succ, List.getElem?_eq_getElem hk1]
      rfl
    rw [htake, sigchld_handler_append fuel _ _ s s0 e0]
    simp only [sigchld_handler, hstep, hidx]
  · rw [g7, hlen, ← range_map_cyc l (i + 1), List.map_map]
    rfl
  · rw [g2, hlen, cyc_add_length, hc]

/-- C18, at an example: three child-stopped events in `exampleLow`, whose current
task is at position 1. -/
theorem round_robin_witness :
    (WellFormed exampleLow [0, 1, 2] ∧ exampleLow.curr_task = some (cyc [0, 1, 2] 1) ∧
      (∀ a ∈ [0, 1, 2], prioAt exampleLow.mem (some a) = some prio.LOW) ∧
      (∀ e ∈ [((101 : Int), wstatus.stopped 19), (102, wstatus.stopped 19),
          (100, wstatus.stopped 19)], e.2.isStopped = true) ∧
      [((101 : Int), wstatus.stopped 19), (102, wstatus.stopped 19),
        (100, wstatus.stopped 19)].length = ([0, 1, 2] : List Nat).length) ∧
    ((∀ k, k < ([0, 1, 2] : List Nat).length → ∃ s0 s1 q,
      sigchld_handler 3 exampleLow
        ([((101 : Int), wstatus.stopped 19), (102, wstatus.stopped 19),
          (100, wstatus.stopped 19)].take k) = some (Outcome.ret () s0) ∧
      s0.curr_task = some (cyc [0, 1, 2] (1 + k)) ∧
      sigchld_handler 3 exampleLow
        ([((101 : Int), wstatus.stopped 19), (102, wstatus.stopped 19),
          (100, wstatus.stopped 19)].take (k + 1)) = some (Outcome.ret () s1) ∧
      pidAt exampleLow.mem (cyc [0, 1, 2] (1 + 1 + k)) = some q ∧
      s1 = { s0 with curr_task := some (cyc [0, 1, 2] (1 + 1 + k)),
                     trace := s0.trace ++
                       [Sys.kill q Signal.SIGCONT, Sys.alarm SCHED_TQ_SEC] }) ∧
    (List.range ([0, 1, 2] : List Nat).length).map (fun k => cyc [0, 1, 2] (1 + 1 + k))
      = [0, 1, 2].rotate (1 + 1) ∧
    sigchld_currents 3 exampleLow
        [(101, wstatus.stopped 19), (102, wstatus.stopped 19), (100, wstatus.stopped 19)]
      = some (([0, 1, 2].rotate (1 + 1)).map some) ∧
    ([0, 1, 2].rotate (1 + 1)).Nodup ∧ (∀ a, a ∈ [0, 1, 2].rotate (1 + 1) ↔ a ∈ [0, 1, 2]) ∧
    ∃ s1, sigchld_handler 3 exampleLow
        [(101, wstatus.stopped 19), (102, wstatus.stopped 19), (100, wstatus.stopped 19)]
        = some (Outcome.ret () s1) ∧
      s1.curr_task = exampleLow.curr_task ∧ s1.mem = exampleLow.mem ∧
      s1.list_head = exampleLow.list_head ∧ s1.list_tail = exampleLow.list_tail ∧
      s1.running_tasks = exampleLow.running_tasks ∧
      s1.created_tasks = exampleLow.created_tasks) :=
  ⟨by decide, round_robin exampleLow [0, 1, 2] 1 3
    [(101, wstatus.stopped 19), (102, wstatus.stopped 19), (100, wstatus.stopped 19)]
    (by decide) (by decide) (by decide) (by decide) (by decide)⟩


/-! ## Running children -/

/-- C19 fails on the code.  `main` starts the shell (process 100) and one task
(process 101) and resumes the shell.  An exec-task request is served (`fork`
returns 102); the new child stops itself, and the stop is reported to
`sigchld_handler`, which takes every stop for the end of the quantum of the
current task: it advances `curr_task` and sends SIGCONT to the process 101,
although the shell, the current task so far, has not been stopped.  In the state
reached the registered processes 100 and 101 have both been resumed and neither
has been stopped or has ended since. -/
theorem two_children_running :
    main [[1], [65]] 100 [101] = some (Outcome.ret () bootOne) ∧
    observe [] bootOne.trace = [Hist.resumed 100] ∧
    simulate exampleCodes 3 bootOne [Hist.resumed 100]
      [Input.request { request_no := exampleCodes.REQ_EXEC_TASK, task_arg := 0,
                       exec_task_arg := [66] } 102,
       Input.child 102 (wstatus.stopped 19)]
      = some (bootTwoAdvanced, [Hist.resumed 100, Hist.stopped 102, Hist.resumed 101]) ∧
    Reachable exampleCodes bootTwoAdvanced ∧
    running [Hist.resumed 100, Hist.stopped 102, Hist.resumed 101] = [100, 101] ∧
    registered bootTwoAdvanced 100 ∧ registered bootTwoAdvanced 101 ∧
    bootTwoAdvanced.curr_task = some 1 ∧ pidAt bootTwoAdvanced.mem 1 = some 101 ∧
    Sys.kill 100 Signal.SIGSTOP ∉ bootTwoAdvanced.trace := by
  refine ⟨by decide, by decide, by decide, ?_, by decide, by decide, by decide, rfl,
    by decide, by decide⟩
  exact Reachable.step bootTwo bootTwoAdvanced
    (Reachable.step bootOne bootTwo
      (Reachable.boot [[1], [65]] 100 [101] bootOne (by decide) (by decide))
      (Step.request bootOne bootTwo
        { request_no := exampleCodes.REQ_EXEC_TASK, task_arg := 0, exec_task_arg := [66] }
        102 0 (by decide) (by decide)))
    (Step.child bootTwo bootTwoAdvanced 3 102 (wstatus.stopped 19) (by decide) (by decide))

end Scheduler
